import Mathlib

/-!
# A bucket-map deque (`src/deque.hpp`)

Shallow embedding of `Deque<T, Allocator>` and of its iterator `BaseIterator`.

* A position is the pair `(ind_j_, arr_)` of the source.  The pointer `arr_` into the
  map `data_` is kept as the index of the map slot it points at, relative to
  `data_.data()`; the null pointer is `none`.
* The map `data_` is a list of nullable bucket addresses; buckets live in a heap
  that records which slots hold a constructed object.
* C++ `int` is 32 bit and `size_t` / `ptrdiff_t` are 64 bit wide; where the source
  computes in one of these types the value is reduced modulo the width.
-/

namespace MiptDeque


/-! ## Machine integers -/

/-- Constant `kBucketSize` of the source. -/
def kBucketSize : Nat := 60

/-- Constant `kScale` of the source. -/
def kScale : Nat := 3

/-- The value a 32-bit two's-complement `int` holds after a computation whose exact
result is `x`. -/
def toInt32 (x : Int) : Int := (x + 2147483648) % 4294967296 - 2147483648

/-- The value a 64-bit `ptrdiff_t` holds after a computation whose exact result is `x`. -/
def toInt64 (x : Int) : Int :=
  (x + 9223372036854775808) % 18446744073709551616 - 9223372036854775808

/-- The value a 64-bit `size_t` holds after a computation whose exact result is `x`. -/
def toSizeT (x : Int) : Nat := (x % 18446744073709551616).toNat

/-! ## `BaseIterator` -/

/-- Fields of `BaseIterator`: the in-bucket offset `ind_j_` and the map-slot pointer
`arr_` (`none` is `nullptr`, `some k` is `data_.data() + k`). -/
structure BaseIterator where
  ind_j_ : Nat
  arr_ : Option Int
deriving DecidableEq, Repr

/-- Default constructor `BaseIterator()`. -/
def BaseIterator.default : BaseIterator := { ind_j_ := 0, arr_ := none }

/-- Pre-increment `operator++()`. -/
def operator_inc (it : BaseIterator) : BaseIterator :=
  match it.arr_ with
  | none => it
  | some a =>
    { ind_j_ := toSizeT (it.ind_j_ + 1) % kBucketSize
      arr_ := some (if it.ind_j_ = kBucketSize - 1 then a + 1 else a) }

/-- Pre-decrement `operator--()`. -/
def operator_dec (it : BaseIterator) : BaseIterator :=
  match it.arr_ with
  | none => it
  | some a =>
    { ind_j_ := toSizeT (toSizeT (it.ind_j_ + kBucketSize) - 1) % kBucketSize
      arr_ := some (if it.ind_j_ = 0 then a - 1 else a) }

/-- Compound assignment `operator+=(int diff)`.  The argument is converted to `int` at
the call; `/` and `%` on `int` truncate toward zero. -/
def operator_plus_assign (it : BaseIterator) (diff : Int) : BaseIterator :=
  match it.arr_ with
  | none => it
  | some a =>
    let diff := toInt32 diff
    if 0 ≤ diff then
      let dividend := toInt32 (toInt32 it.ind_j_ + diff)
      let arr_diff := Int.tdiv dividend (toInt32 kBucketSize)
      let new_index := Int.tmod dividend (toInt32 kBucketSize)
      { ind_j_ := toSizeT new_index, arr_ := some (a + arr_diff) }
    else
      let dividend := toInt32 (toInt32 (toSizeT ((kBucketSize : Int) - it.ind_j_)) - 1 - diff)
      let arr_diff := Int.tdiv (toInt32 (-dividend)) (toInt32 kBucketSize)
      let new_index :=
        toInt32 (toInt32 kBucketSize - Int.tmod dividend (toInt32 kBucketSize) - 1)
      { ind_j_ := toSizeT new_index, arr_ := some (a + arr_diff) }

/-- Compound assignment `operator-=(int diff)`: `*this += (-diff)`. -/
def operator_minus_assign (it : BaseIterator) (diff : Int) : BaseIterator :=
  operator_plus_assign it (toInt32 (-toInt32 diff))

/-- Binary `operator+(int diff)`. -/
def operator_plus (it : BaseIterator) (diff : Int) : BaseIterator :=
  operator_plus_assign { ind_j_ := it.ind_j_, arr_ := it.arr_ } diff

/-- Binary `operator-(int diff)`. -/
def operator_minus (it : BaseIterator) (diff : Int) : BaseIterator :=
  operator_minus_assign { ind_j_ := it.ind_j_, arr_ := it.arr_ } diff

/-- Pointer difference `p - q` of two map-slot pointers; a null pointer and a pointer
into a map have no difference. -/
def ptr_diff : Option Int → Option Int → Option Int
  | some a, some b => some (a - b)
  | none, none => some 0
  | _, _ => none

/-- Iterator difference `operator-(const BaseIterator&)`:
`(arr_ - iter.arr_) * kBucketSize + ind_j_ - iter.ind_j_`, returned as `ptrdiff_t`. -/
def operator_diff (x y : BaseIterator) : Option Int :=
  (ptr_diff x.arr_ y.arr_).map fun n =>
    toInt64 (toInt64 (n * toInt32 kBucketSize) + x.ind_j_ - y.ind_j_)

/-- Equality `operator==`: both the slot pointer and the offset agree. -/
def operator_eq (x y : BaseIterator) : Bool :=
  decide (x.arr_ = y.arr_) && decide (x.ind_j_ = y.ind_j_)

/-- Inequality `operator!=`. -/
def operator_ne (x y : BaseIterator) : Bool := !operator_eq x y

/-! ## Heap of buckets -/

/-- Undefined behaviour the embedding can stop with. -/
inductive Fault where
  /-- Access through a position whose slot pointer is null. -/
  | null_iterator
  /-- Read or write of a map slot outside `data_`. -/
  | map_range
  /-- Access through a null bucket pointer. -/
  | null_bucket
  /-- Offset outside the 60 slots of a bucket. -/
  | bucket_range
  /-- Access to a bucket that is not allocated. -/
  | dangling
  /-- Deallocation of an address that is not allocated. -/
  | bad_free
  /-- Read of the value of a slot that holds no constructed object. -/
  | no_object
  /-- A loop did not stop within the bound of the embedding. -/
  | diverged
deriving DecidableEq, Repr

/-- An element address `T*` (or reference `T&`): bucket address and offset. -/
abbrev Ref := Nat × Nat

/-- Calls made on the allocator, for instrumentation. -/
inductive Event (T : Type) where
  | allocate (alloc : Nat) (p : Nat)
  | deallocate (alloc : Nat) (p : Option Nat)
  | construct (alloc : Nat) (r : Ref) (v : T)
  | destroy (alloc : Nat) (r : Ref) (c : Option T)

/-- The free store.  `mem p` is the bucket at address `p` when it is allocated; a slot
of a bucket is `some v` when it holds a constructed object of value `v`.  `next` is
the next fresh address and `log` the allocator calls so far, newest first. -/
structure Heap (T : Type) where
  mem : Nat → Option (Nat → Option T)
  next : Nat
  log : List (Event T)

variable {T E : Type}

/-- A heap with nothing allocated. -/
def Heap.empty : Heap T := { mem := fun _ => none, next := 0, log := [] }

/-- The call `alloc_traits::allocate(allocator_, kBucketSize)`: a fresh bucket of raw
storage.  Memory is unbounded: allocation does not fail. -/
def Heap.allocate (h : Heap T) (alloc : Nat) : Nat × Heap T :=
  (h.next,
   { mem := Function.update h.mem h.next (some fun _ => none)
     next := h.next + 1
     log := Event.allocate alloc h.next :: h.log })

/-- The call `alloc_traits::deallocate(allocator_, p, kBucketSize)`. -/
def Heap.deallocate (h : Heap T) (alloc : Nat) (p : Option Nat) : Except Fault (Heap T) :=
  match p with
  | none => .ok { h with log := Event.deallocate alloc none :: h.log }
  | some q =>
    match h.mem q with
    | none => .error Fault.bad_free
    | some _ =>
      .ok { mem := Function.update h.mem q none
            next := h.next
            log := Event.deallocate alloc (some q) :: h.log }

/-- Content of the slot at `r`. -/
def Heap.load (h : Heap T) (r : Ref) : Except Fault (Option T) :=
  match h.mem r.1 with
  | none => .error Fault.dangling
  | some b => .ok (b r.2)

/-- Overwrite the content of the slot at `r`. -/
def Heap.store (h : Heap T) (r : Ref) (c : Option T) : Except Fault (Heap T) :=
  match h.mem r.1 with
  | none => .error Fault.dangling
  | some b => .ok { h with mem := Function.update h.mem r.1 (some (Function.update b r.2 c)) }

/-- Read the value of the object at `r` (an lvalue-to-rvalue use of `*it`). -/
def Heap.read (h : Heap T) (r : Ref) : Except Fault T :=
  match h.load r with
  | .error f => .error f
  | .ok none => .error Fault.no_object
  | .ok (some v) => .ok v

/-- The call `alloc_traits::construct(allocator_, r, v)` once `T(args...)` has
produced `v`. -/
def Heap.construct (h : Heap T) (alloc : Nat) (r : Ref) (v : T) : Except Fault (Heap T) :=
  match h.store r (some v) with
  | .error f => .error f
  | .ok h1 => .ok { h1 with log := Event.construct alloc r v :: h1.log }

/-- The call `alloc_traits::destroy(allocator_, r)`. -/
def Heap.destroy (h : Heap T) (alloc : Nat) (r : Ref) : Except Fault (Heap T) :=
  match h.load r with
  | .error f => .error f
  | .ok c =>
    match h.store r none with
    | .error f => .error f
    | .ok h1 => .ok { h1 with log := Event.destroy alloc r c :: h1.log }

/-- The assignment `*dst = *src` between two slots.  When the source slot holds no
constructed object the target is left without a determinate object. -/
def Heap.copy_assign (h : Heap T) (dst src : Ref) : Except Fault (Heap T) :=
  match h.load src with
  | .error f => .error f
  | .ok c => h.store dst c

/-- The assignment `*dst = v`. -/
def Heap.assign (h : Heap T) (dst : Ref) (v : T) : Except Fault (Heap T) :=
  h.store dst (some v)

/-! ## The container -/

/-- Data members of `Deque`.  The elements themselves live in the heap. -/
structure Deque where
  allocator_ : Nat
  data_ : List (Option Nat)
  size_ : Nat
  begin_ : BaseIterator
  end_ : BaseIterator
deriving DecidableEq, Repr

/-- State after member initialisation: empty map, `size_ = 0`, null `begin_`/`end_`. -/
def Deque.init (alloc : Nat) : Deque :=
  { allocator_ := alloc, data_ := [], size_ := 0,
    begin_ := BaseIterator.default, end_ := BaseIterator.default }

/-- Result of a member function: normal return, a propagating exception together with
the state it leaves behind, or undefined behaviour. -/
inductive Res (E T : Type) where
  | ok (h : Heap T) (d : Deque)
  | throw (e : E) (h : Heap T) (d : Deque)
  | fault (f : Fault)

/-- Index of the map slot a slot pointer designates. -/
def slot_index (data : List (Option Nat)) (arr : Option Int) : Except Fault Nat :=
  match arr with
  | none => .error Fault.null_iterator
  | some a => if 0 ≤ a ∧ a < data.length then .ok a.toNat else .error Fault.map_range

/-- Read `*arr` of a slot pointer. -/
def slot_read (data : List (Option Nat)) (arr : Option Int) : Except Fault (Option Nat) :=
  match slot_index data arr with
  | .error f => .error f
  | .ok k => .ok (data.getD k none)

/-- Write `*arr = p` through a slot pointer. -/
def slot_write (data : List (Option Nat)) (arr : Option Int) (p : Option Nat) :
    Except Fault (List (Option Nat)) :=
  match slot_index data arr with
  | .error f => .error f
  | .ok k => .ok (data.set k p)

/-- Members `operator->` and `operator*`: the address `*arr_ + ind_j_`. -/
def elem_ptr (data : List (Option Nat)) (it : BaseIterator) : Except Fault Ref :=
  match slot_read data it.arr_ with
  | .error f => .error f
  | .ok none => .error Fault.null_bucket
  | .ok (some p) => if it.ind_j_ < kBucketSize then .ok (p, it.ind_j_) else .error Fault.bucket_range

/-- Member `size()`. -/
def size (d : Deque) : Nat := d.size_

/-- Member `empty()`. -/
def empty (d : Deque) : Bool := decide (d.size_ = 0)

/-- Member `begin()`. -/
def Deque.begin (d : Deque) : BaseIterator := d.begin_

/-- Member `end()`. -/
def Deque.end (d : Deque) : BaseIterator := d.end_

/-- Member `new_data_size()`. -/
def new_data_size (d : Deque) : Nat := kScale * d.data_.length

/-- The map built by `reserve()`: `new_size` null slots, then the copy loop
`new_data[kScale / 2 * data_.size() + ind] = data_[ind]`. -/
def reserve_data (data : List (Option Nat)) (new_size : Nat) : List (Option Nat) :=
  (List.range data.length).foldl
    (fun new_data ind => new_data.set (kScale / 2 * data.length + ind) (data.getD ind none))
    (List.replicate new_size none)

/-- Member `reserve()`.  The slot index of `begin_`/`end_` is `begin_offset`/`end_offset`
of the source; a null slot pointer stays null. -/
def reserve (d : Deque) : Deque :=
  let new_size := if d.data_.isEmpty then 1 else new_data_size d
  let new_data := reserve_data d.data_ new_size
  if new_data.length = 1 then
    { d with data_ := new_data
             begin_ := { ind_j_ := kBucketSize / 2, arr_ := some 0 }
             end_ := { ind_j_ := kBucketSize / 2, arr_ := some 0 } }
  else
    { d with data_ := new_data
             begin_ := { ind_j_ := d.begin_.ind_j_
                         arr_ := d.begin_.arr_.map fun a => (new_data.length / kScale : Nat) + a }
             end_ := { ind_j_ := d.end_.ind_j_
                       arr_ := d.end_.arr_.map fun a => (new_data.length / kScale : Nat) + a } }

/-- Member `fulled_front()`. -/
def fulled_front (d : Deque) : Except Fault Bool :=
  if d.begin_.ind_j_ = 0 then
    match slot_read d.data_ (d.begin_.arr_.map fun a => a - 1) with
    | .error f => .error f
    | .ok p => .ok p.isNone
  else .ok false

/-- Member `fulled_back()`. -/
def fulled_back (d : Deque) : Except Fault Bool :=
  if d.end_.ind_j_ = 0 then
    match slot_read d.data_ d.end_.arr_ with
    | .error f => .error f
    | .ok p => .ok p.isNone
  else .ok false

/-- Member `allocate_data(iterator)`. -/
def allocate_data (h : Heap T) (d : Deque) (it : BaseIterator) : Except Fault (Heap T × Deque) :=
  match slot_write d.data_ it.arr_ (some (h.allocate d.allocator_).1) with
  | .error f => .error f
  | .ok data => .ok ((h.allocate d.allocator_).2, { d with data_ := data })

/-- First statement of `emplace_back`: grow the map or allocate the bucket of `end_`
when needed. -/
def prepare_back (h : Heap T) (d : Deque) : Except Fault (Heap T × Deque) :=
  if d.data_.isEmpty ∨ (d.end_.ind_j_ = 0 ∧ d.end_.arr_ = some (d.data_.length : Int)) then
    allocate_data h (reserve d) (reserve d).end_
  else
    match fulled_back d with
    | .error f => .error f
    | .ok true => allocate_data h d d.end_
    | .ok false => .ok (h, d)

/-- Member `emplace_back(args...)`; `c` is the outcome of evaluating `T(args...)`, a
value or the exception it throws.  `size_` cannot reach `2^64`, so `++size_` is exact. -/
def emplace_back (c : Except E T) (h : Heap T) (d : Deque) : Res E T :=
  match prepare_back h d with
  | .error f => Res.fault f
  | .ok (h1, d1) =>
    match elem_ptr d1.data_ d1.end_ with
    | .error f => Res.fault f
    | .ok r =>
      match c with
      | .error e => Res.throw e h1 d1
      | .ok v =>
        match h1.construct d1.allocator_ r v with
        | .error f => Res.fault f
        | .ok h2 => Res.ok h2 { d1 with end_ := operator_inc d1.end_, size_ := d1.size_ + 1 }

/-- Member `push_back(value)` for a value whose copy or move succeeds. -/
def push_back (v : T) (h : Heap T) (d : Deque) : Res E T := emplace_back (.ok v) h d

/-- First statement of `emplace_front`: grow the map or allocate the bucket before
`begin_` when needed, and step `begin_` back. -/
def prepare_front (h : Heap T) (d : Deque) : Except Fault (Heap T × Deque) :=
  if d.data_.isEmpty ∨ (d.begin_.ind_j_ = 0 ∧ d.begin_.arr_ = some 0) then
    let d1 := reserve d
    let d2 := { d1 with begin_ := operator_dec d1.begin_ }
    allocate_data h d2 d2.begin_
  else
    match fulled_front d with
    | .error f => .error f
    | .ok true =>
      let d2 := { d with begin_ := operator_dec d.begin_ }
      allocate_data h d2 d2.begin_
    | .ok false => .ok (h, { d with begin_ := operator_dec d.begin_ })

/-- Member `emplace_front(args...)`; `c` is the outcome of evaluating `T(args...)`. -/
def emplace_front (c : Except E T) (h : Heap T) (d : Deque) : Res E T :=
  match prepare_front h d with
  | .error f => Res.fault f
  | .ok (h1, d1) =>
    match elem_ptr d1.data_ d1.begin_ with
    | .error f => Res.fault f
    | .ok r =>
      match c with
      | .error e => Res.throw e h1 d1
      | .ok v =>
        match h1.construct d1.allocator_ r v with
        | .error f => Res.fault f
        | .ok h2 => Res.ok h2 { d1 with size_ := d1.size_ + 1 }

/-- Member `push_front(value)` for a value whose copy or move succeeds. -/
def push_front (v : T) (h : Heap T) (d : Deque) : Res E T := emplace_front (.ok v) h d

/-- The decrement `--size_` of a `size_t`: it wraps at zero. -/
def size_dec (n : Nat) : Nat := if n = 0 then 18446744073709551615 else n - 1

/-- Member `pop_back()`. -/
def pop_back (h : Heap T) (d : Deque) : Res E T :=
  match elem_ptr d.data_ (operator_dec d.end_) with
  | .error f => Res.fault f
  | .ok r =>
    match h.destroy d.allocator_ r with
    | .error f => Res.fault f
    | .ok h1 => Res.ok h1 { d with end_ := operator_dec d.end_, size_ := size_dec d.size_ }

/-- Member `pop_front()`. -/
def pop_front (h : Heap T) (d : Deque) : Res E T :=
  match elem_ptr d.data_ d.begin_ with
  | .error f => Res.fault f
  | .ok r =>
    match h.destroy d.allocator_ r with
    | .error f => Res.fault f
    | .ok h1 =>
      Res.ok h1 { d with begin_ := operator_inc d.begin_, size_ := size_dec d.size_ }

/-- Bound on the iterations of a loop that walks positions inside the map: every
iteration dereferences a different position of the `60 * data_.size()` the map has. -/
def walk_bound (data : List (Option Nat)) : Nat := kBucketSize * data.length + 1

/-- Member `operator[](ind)`: the reference `*(begin_ + ind)`. -/
def operator_index (d : Deque) (ind : Nat) : Except Fault Ref :=
  elem_ptr d.data_ (operator_plus d.begin_ ind)

/-- Outcome of a checked access. -/
inductive Access where
  /-- Normal return of a reference. -/
  | ref (r : Ref)
  /-- The exception `std::out_of_range`. -/
  | out_of_range
  /-- Undefined behaviour. -/
  | fault (f : Fault)
deriving DecidableEq, Repr

/-- Member `at(ind)`, together with the state of the container after the call. -/
def Deque.at_ (d : Deque) (ind : Nat) : Access × Deque :=
  if ind ≥ d.size_ then (Access.out_of_range, d)
  else
    match elem_ptr d.data_ (operator_plus d.begin_ ind) with
    | .error f => (Access.fault f, d)
    | .ok r => (Access.ref r, d)

/-- The loop `for (it = first; it != last; ++it) out.push_back(*it)`. -/
def read_range (h : Heap T) (data : List (Option Nat)) (last : BaseIterator) :
    Nat → BaseIterator → Except Fault (List T)
  | 0, _ => .error Fault.diverged
  | fuel + 1, it =>
    if operator_ne it last then
      match elem_ptr data it with
      | .error f => .error f
      | .ok r =>
        match h.read r with
        | .error f => .error f
        | .ok v =>
          match read_range h data last fuel (operator_inc it) with
          | .error f => .error f
          | .ok rest => .ok (v :: rest)
    else .ok []

/-- The elements read from `begin()` to `end()` by successive increments. -/
def to_list (h : Heap T) (d : Deque) : Except Fault (List T) :=
  read_range h d.data_ d.end_ (walk_bound d.data_) d.begin_

/-- The loop `for (rit = rfirst; rit != rlast; ++rit) out.push_back(*rit)` over
`std::reverse_iterator`: `cur` and `last` are the wrapped iterators, `*rit` is
`*--tmp` for a copy `tmp` of `cur`, and `++rit` is `--cur`. -/
def read_range_rev (h : Heap T) (data : List (Option Nat)) (last : BaseIterator) :
    Nat → BaseIterator → Except Fault (List T)
  | 0, _ => .error Fault.diverged
  | fuel + 1, cur =>
    if operator_ne cur last then
      match elem_ptr data (operator_dec cur) with
      | .error f => .error f
      | .ok r =>
        match h.read r with
        | .error f => .error f
        | .ok v =>
          match read_range_rev h data last fuel (operator_dec cur) with
          | .error f => .error f
          | .ok rest => .ok (v :: rest)
    else .ok []

/-- The elements read from `rbegin()` to `rend()`. -/
def to_list_rev (h : Heap T) (d : Deque) : Except Fault (List T) :=
  read_range_rev h d.data_ d.begin_ (walk_bound d.data_) d.end_

/-- The loop of `emplace`:
`for (iter = end() - 1; iter != insert_it; --iter) *iter = *(iter - 1)`. -/
def emplace_shift (data : List (Option Nat)) (insert_it : BaseIterator) :
    Nat → Heap T → BaseIterator → Except Fault (Heap T)
  | 0, _, _ => .error Fault.diverged
  | fuel + 1, h, iter =>
    if operator_ne iter insert_it then
      match elem_ptr data (operator_minus iter 1) with
      | .error f => .error f
      | .ok src =>
        match elem_ptr data iter with
        | .error f => .error f
        | .ok dst =>
          match h.copy_assign dst src with
          | .error f => .error f
          | .ok h1 => emplace_shift data insert_it fuel h1 (operator_dec iter)
    else .ok h

/-- The argument bound to the parameter `const T& value` (or `T&& value`) of `insert`:
an object outside the container, whose value is `v`, or a reference to an element slot
of a bucket, as `d[j]` gives. -/
inductive Source (T : Type) where
  | value (v : T)
  | element (r : Ref)

/-- Evaluating `T(value)` in the heap `h`: the referenced object is read at the moment of
the evaluation; the copy itself succeeds. -/
def Source.copy (value : Source T) (h : Heap T) : Except Fault (Except E T) :=
  match value with
  | .value v => .ok (.ok v)
  | .element r =>
    match h.read r with
    | .error f => .error f
    | .ok v => .ok (.ok v)

/-- Member `emplace(insert_it, args...)`; `c h1` is the outcome of evaluating `T(args...)`
in the heap `h1`: a fault when an argument refers to a slot without an object, else the
exception thrown or the value built. In the middle case the source evaluates `T(args...)`
after the shift loop, so `c` is applied to the heap the loop leaves. At `begin()` and at
`end()` the arguments are forwarded to `emplace_front` and `emplace_back`, which store to
no element slot before they build the element, so `c` is applied to the heap of the call.
Copies and assignments of elements already in the container succeed. -/
def emplace (c : Heap T → Except Fault (Except E T)) (h : Heap T) (d : Deque)
    (insert_it : BaseIterator) : Res E T :=
  if operator_eq insert_it d.begin then
    match c h with
    | .error f => Res.fault f
    | .ok o => emplace_front o h d
  else if operator_eq insert_it d.end then
    match c h with
    | .error f => Res.fault f
    | .ok o => emplace_back o h d
  else
    match elem_ptr d.data_ (operator_dec d.end) with
    | .error f => Res.fault f
    | .ok top =>
      match h.read top with
      | .error f => Res.fault f
      | .ok last_element =>
        match emplace_shift d.data_ insert_it (walk_bound d.data_) h (operator_minus d.end 1) with
        | .error f => Res.fault f
        | .ok h1 =>
          match c h1 with
          | .error f => Res.fault f
          | .ok (.error e) => Res.throw e h1 d
          | .ok (.ok v) =>
            match elem_ptr d.data_ insert_it with
            | .error f => Res.fault f
            | .ok r =>
              match h1.assign r v with
              | .error f => Res.fault f
              | .ok h2 => emplace_back (.ok last_element) h2 d

/-- Member `insert(insert_it, value)`: the reference `value` is forwarded to `emplace`,
which copies from it when it builds the element. -/
def insert (h : Heap T) (d : Deque) (insert_it : BaseIterator) (value : Source T) : Res E T :=
  emplace value.copy h d insert_it

/-- The loop of `erase`:
`for (iter = erase_it; iter != end(); ++iter) *iter = *(iter + 1)`. -/
def erase_loop (d : Deque) : Nat → Heap T → BaseIterator → Except Fault (Heap T)
  | 0, _, _ => .error Fault.diverged
  | fuel + 1, h, iter =>
    if operator_ne iter d.end then
      match elem_ptr d.data_ (operator_plus iter 1) with
      | .error f => .error f
      | .ok src =>
        match elem_ptr d.data_ iter with
        | .error f => .error f
        | .ok dst =>
          match h.copy_assign dst src with
          | .error f => .error f
          | .ok h1 => erase_loop d fuel h1 (operator_inc iter)
    else .ok h

/-- Member `erase(erase_it)`. -/
def erase (h : Heap T) (d : Deque) (erase_it : BaseIterator) : Res E T :=
  match erase_loop d (walk_bound d.data_) h erase_it with
  | .error f => Res.fault f
  | .ok h1 => pop_back h1 d

/-- The position with linear index `L`: slot `L / 60`, offset `L % 60`. -/
def ofLin (L : Int) : BaseIterator :=
  { ind_j_ := (L % 60).toNat, arr_ := some (L / 60) }


/-! ## Sequences of end operations and their reference on plain lists -/

/-- An operation at one end of the container. -/
inductive Op (T : Type) where
  | push_back (v : T)
  | push_front (v : T)
  | pop_back
  | pop_front

/-- The operation on the reference list: append, prepend, drop-last, drop-first. -/
def Op.ref : Op T → List T → List T
  | Op.push_back v, l => l ++ [v]
  | Op.push_front v, l => v :: l
  | Op.pop_back, l => l.dropLast
  | Op.pop_front, l => l.tail

/-- The operation on the container. -/
def Op.run : Op T → Heap T → Deque → Res E T
  | Op.push_back v, h, d => MiptDeque.push_back v h d
  | Op.push_front v, h, d => MiptDeque.push_front v h d
  | Op.pop_back, h, d => MiptDeque.pop_back h d
  | Op.pop_front, h, d => MiptDeque.pop_front h d

/-- Whether the operation is a pop. -/
def Op.is_pop : Op T → Bool
  | Op.pop_back => true
  | Op.pop_front => true
  | _ => false

/-- The reference list after a sequence of operations. -/
def ref_ops : List (Op T) → List T → List T
  | [], l => l
  | op :: rest, l => ref_ops rest (op.ref l)

/-- The container after a sequence of operations; the first operation that does not
return normally ends the run. -/
def run_ops : List (Op T) → Heap T → Deque → Res E T
  | [], h, d => Res.ok h d
  | op :: rest, h, d =>
    match op.run (E := E) h d with
    | Res.ok h1 d1 => run_ops rest h1 d1
    | r => r

/-- Every pop of the sequence is applied to a non-empty sequence. -/
def pops_ok : List (Op T) → List T → Prop
  | [], _ => True
  | op :: rest, l => (op.is_pop = true → l ≠ []) ∧ pops_ok rest (op.ref l)

/-! ## Constructors -/

/-- The loop `for (it = first; it != last; ++it)
alloc_traits::destroy(allocator_, it.operator->())` of the handlers and of the
destructor. -/
def destroy_range (alloc : Nat) (data : List (Option Nat)) (last : BaseIterator) :
    Nat → Heap T → BaseIterator → Except Fault (Heap T)
  | 0, _, _ => .error Fault.diverged
  | fuel + 1, h, it =>
    if operator_ne it last then
      match elem_ptr data it with
      | .error f => .error f
      | .ok r =>
        match h.destroy alloc r with
        | .error f => .error f
        | .ok h1 => destroy_range alloc data last fuel h1 (operator_inc it)
    else .ok h

/-- The loop `for (ind = 0; ind < data_.size(); ++ind)
alloc_traits::deallocate(allocator_, data_[ind], kBucketSize)`. -/
def deallocate_all (alloc : Nat) : List (Option Nat) → Heap T → Except Fault (Heap T)
  | [], h => .ok h
  | p :: rest, h =>
    match h.deallocate alloc p with
    | .error f => .error f
    | .ok h1 => deallocate_all alloc rest h1

/-- The handler `catch (...)` of the constructors, up to the rethrow: destroy the
elements of `[begin_, end_)`, deallocate every slot of the map, `data_ = {}`. -/
def rollback (h : Heap T) (d : Deque) : Except Fault (Heap T × Deque) :=
  match destroy_range d.allocator_ d.data_ d.end_ (walk_bound d.data_) h d.begin_ with
  | .error f => .error f
  | .ok h1 =>
    match deallocate_all d.allocator_ d.data_ h1 with
    | .error f => .error f
    | .ok h2 => .ok (h2, { d with data_ := [] })

/-- Outcome of the `k`-th construction of an element of value `x`: the exception
`throws k` when there is one, the value otherwise. -/
def outcome (throws : Nat → Option E) (k : Nat) (x : T) : Except E T :=
  match throws k with
  | some e => .error e
  | none => .ok x

/-- Outcomes of constructing the values of a list in order, the first one being the
`k`-th construction. -/
def outcomes (throws : Nat → Option E) : Nat → List T → List (Except E T)
  | _, [] => []
  | k, x :: xs => outcome throws k x :: outcomes throws (k + 1) xs

/-- The loop of a filling constructor: `emplace_back` for each construction in turn,
left at the first one that does not return normally. -/
def fill : List (Except E T) → Heap T → Deque → Res E T
  | [], h, d => Res.ok h d
  | c :: cs, h, d =>
    match emplace_back c h d with
    | Res.ok h1 d1 => fill cs h1 d1
    | r => r

/-- Body `try { ... } catch (...) { ...; throw; }` of a constructor around a loop that
ended with `r`. -/
def guarded (r : Res E T) : Res E T :=
  match r with
  | Res.ok h d => Res.ok h d
  | Res.throw e h d =>
    match rollback h d with
    | .error f => Res.fault f
    | .ok (h1, d1) => Res.throw e h1 d1
  | Res.fault f => Res.fault f

/-- Constructor `Deque(size_t count, const Allocator& alloc)`: `count` elements of the
value `T()` produces. -/
def Deque.from_count (count : Nat) (dflt : T) (throws : Nat → Option E) (alloc : Nat)
    (h : Heap T) : Res E T :=
  guarded (fill (outcomes throws 0 (List.replicate count dflt)) h (Deque.init alloc))

/-- Constructor `Deque(size_t count, const T& value, const Allocator& alloc)`. -/
def Deque.from_value (count : Nat) (value : T) (throws : Nat → Option E) (alloc : Nat)
    (h : Heap T) : Res E T :=
  guarded (fill (outcomes throws 0 (List.replicate count value)) h (Deque.init alloc))

/-- Constructor `Deque(std::initializer_list<T> init, const Allocator& alloc)`. -/
def Deque.from_list (init : List T) (throws : Nat → Option E) (alloc : Nat) (h : Heap T) :
    Res E T :=
  guarded (fill (outcomes throws 0 init) h (Deque.init alloc))

/-- The loop `for (iter = deq.begin_; iter != deq.end_; ++iter) emplace_back(*iter)` of
the copy constructor; `k` counts the constructions.  The element `*iter` of the other
container is read when it is copied. -/
def copy_fill (src : Deque) (throws : Nat → Option E) :
    Nat → Nat → Heap T → Deque → BaseIterator → Res E T
  | 0, _, _, _, _ => Res.fault Fault.diverged
  | fuel + 1, k, h, d, iter =>
    if operator_ne iter src.end_ then
      match elem_ptr src.data_ iter with
      | .error f => Res.fault f
      | .ok r =>
        match h.read r with
        | .error f => Res.fault f
        | .ok x =>
          match emplace_back (outcome throws k x) h d with
          | Res.ok h1 d1 => copy_fill src throws fuel (k + 1) h1 d1 (operator_inc iter)
          | r => r
    else Res.ok h d

/-- Constructor `Deque(const Deque& deq, const Allocator& alloc)`. -/
def Deque.copy (src : Deque) (throws : Nat → Option E) (alloc : Nat) (h : Heap T) : Res E T :=
  guarded (copy_fill src throws (walk_bound src.data_) 0 h (Deque.init alloc) src.begin_)

/-! ## Evaluation helpers -/

/-- Whether a result is the undefined behaviour `f`. -/
def Res.is_fault (r : Res E T) (f : Fault) : Bool :=
  match r with
  | Res.fault g => decide (g = f)
  | _ => false

/-- Run a sequence of end operations on a default-constructed container and continue
with `k` when all of them return normally. -/
def after_ops (ops : List (Op T)) (k : Heap T → Deque → Res E T) : Res E T :=
  match run_ops (E := E) ops Heap.empty (Deque.init 0) with
  | Res.ok h d => k h d
  | r => r

/-- The value-producing constructors. -/
inductive Ctor (T : Type) where
  /-- `Deque(count, alloc)`, with the value `T()` produces. -/
  | count (n : Nat) (dflt : T)
  /-- `Deque(count, value, alloc)`. -/
  | value (n : Nat) (v : T)
  /-- `Deque(init, alloc)`. -/
  | list (init : List T)
  /-- `Deque(deq, alloc)`. -/
  | copy (src : Deque)

/-- Run a constructor. -/
def Ctor.run (c : Ctor T) (throws : Nat → Option E) (alloc : Nat) (h : Heap T) : Res E T :=
  match c with
  | Ctor.count n dflt => Deque.from_count n dflt throws alloc h
  | Ctor.value n v => Deque.from_value n v throws alloc h
  | Ctor.list init => Deque.from_list init throws alloc h
  | Ctor.copy src => Deque.copy src throws alloc h


/-! ## Abstraction: the cells of the map -/

/-- The bucket address held by map slot `s`, when the slot is inside the map and not null. -/
def bucket_at (data : List (Option Nat)) (s : Int) : Option Nat :=
  if 0 ≤ s ∧ s < data.length then data.getD s.toNat none else none

/-- The content of the element slot at linear position `L`, when its bucket is in the
map and allocated. -/
def cell (h : Heap T) (data : List (Option Nat)) (L : Int) : Option (Option T) :=
  match bucket_at data (L / 60) with
  | none => none
  | some p =>
    match h.mem p with
    | none => none
    | some b => some (b (L % 60).toNat)

/-- The buckets of a map are allocated and no bucket is held by two slots; addresses
from `next` on are free. -/
structure MapOk (h : Heap T) (data : List (Option Nat)) : Prop where
  fresh : ∀ p, h.next ≤ p → h.mem p = none
  alloc : ∀ s p, bucket_at data s = some p → ∃ b, h.mem p = some b
  distinct : ∀ s s' p, bucket_at data s = some p → bucket_at data s' = some p → s = s'


/-- The map `data` holds the list `xs` in the element slots at linear positions
`B, B + 1, ...`; the slot after the last one is mapped as soon as it shares its bucket
with an element or with `B`. -/
structure HoldsCore (h : Heap T) (data : List (Option Nat)) (xs : List T) (B : Int) : Prop where
  map_ok : MapOk h data
  B_nonneg : 0 ≤ B
  end_le : B + xs.length ≤ 60 * data.length
  map_ne : data ≠ []
  live : ∀ (k : Nat) (v : T), xs[k]? = some v → cell h data (B + k) = some (some v)
  end_mapped : (B + xs.length) % 60 ≠ 0 → ∃ c, cell h data (B + xs.length) = some c

/-- The container `d` holds the list `xs` at linear positions `B, B + 1, ...` of its
non-empty map: `begin_` is position `B`, `end_` is position `B + size_`. -/
structure HoldsAt (h : Heap T) (d : Deque) (xs : List T) (B : Int)
    extends HoldsCore h d.data_ xs B : Prop where
  size_eq : d.size_ = xs.length
  begin_eq : d.begin_ = ofLin B
  end_eq : d.end_ = ofLin (B + xs.length)

/-- The container `d` holds the list `xs`: either it is in the state the default
constructor leaves (no map, null `begin_` and `end_`) and `xs` is empty, or it holds
`xs` at some place of a non-empty map. -/
def Holds (h : Heap T) (d : Deque) (xs : List T) : Prop :=
  (MapOk h d.data_ ∧ d.data_ = [] ∧ d.size_ = 0 ∧ d.begin_ = BaseIterator.default ∧
      d.end_ = BaseIterator.default ∧ xs = []) ∨
    ∃ B, HoldsAt h d xs B

/-- The states a container reaches from default construction by element operations
that return normally: `emplace_back`/`push_back`, `emplace_front`/`push_front`,
`pop_back` and `pop_front` on a non-empty container, and `emplace`/`insert` and `erase`
at a position of the container. -/
inductive Reachable : Heap T → Deque → Prop where
  | init (h : Heap T) (alloc : Nat) (hf : ∀ p, h.next ≤ p → h.mem p = none) :
      Reachable h (Deque.init alloc)
  | emplace_back {E : Type} {h h1 : Heap T} {d d1 : Deque} (c : Except E T) :
      Reachable h d → emplace_back c h d = Res.ok h1 d1 → Reachable h1 d1
  | emplace_front {E : Type} {h h1 : Heap T} {d d1 : Deque} (c : Except E T) :
      Reachable h d → emplace_front c h d = Res.ok h1 d1 → Reachable h1 d1
  | pop_back {E : Type} {h h1 : Heap T} {d d1 : Deque} :
      Reachable h d → d.size_ ≠ 0 → pop_back (E := E) h d = Res.ok h1 d1 → Reachable h1 d1
  | pop_front {E : Type} {h h1 : Heap T} {d d1 : Deque} :
      Reachable h d → d.size_ ≠ 0 → pop_front (E := E) h d = Res.ok h1 d1 → Reachable h1 d1
  | emplace {E : Type} {h h1 : Heap T} {d d1 : Deque}
      (c : Heap T → Except Fault (Except E T)) (i : Nat) :
      Reachable h d → i ≤ d.size_ →
      emplace c h d (Nat.iterate operator_inc i d.begin_) = Res.ok h1 d1 → Reachable h1 d1
  | erase {E : Type} {h h1 : Heap T} {d d1 : Deque} (i : Nat) :
      Reachable h d → i < d.size_ →
      erase (E := E) h d (Nat.iterate operator_inc i d.begin_) = Res.ok h1 d1 → Reachable h1 d1

/-- From `(h, d)` to `(h1, d1)` the allocator is kept, every bucket of the map is
carried over to the new map, and at most one bucket was allocated, which the new map
holds. -/
def Grow (h : Heap T) (d : Deque) (h1 : Heap T) (d1 : Deque) : Prop :=
  d1.allocator_ = d.allocator_ ∧
    (∀ s p, bucket_at d.data_ s = some p → ∃ s1, bucket_at d1.data_ s1 = some p) ∧
    (h1 = h ∨ (h1 = (h.allocate d.allocator_).2 ∧ ∃ s, bucket_at d1.data_ s = some h.next))

/-! ## Instrumentation: reading the log -/

/-- Addresses from `next` on are free. -/
def Heap.fresh (h : Heap T) : Prop := ∀ p, h.next ≤ p → h.mem p = none

/-- The `construct` calls of a log, newest first: address and value. -/
def constructed : List (Event T) → List (Ref × T)
  | [] => []
  | Event.construct _ r v :: l => (r, v) :: constructed l
  | Event.allocate _ _ :: l => constructed l
  | Event.deallocate _ _ :: l => constructed l
  | Event.destroy _ _ _ :: l => constructed l

/-- The `destroy` calls of a log, newest first: address and the object destroyed. -/
def destroyed : List (Event T) → List (Ref × Option T)
  | [] => []
  | Event.destroy _ r c :: l => (r, c) :: destroyed l
  | Event.allocate _ _ :: l => destroyed l
  | Event.deallocate _ _ :: l => destroyed l
  | Event.construct _ _ _ :: l => destroyed l

/-- The addresses returned by the `allocate` calls of a log, newest first. -/
def allocated : List (Event T) → List Nat
  | [] => []
  | Event.allocate _ p :: l => p :: allocated l
  | Event.deallocate _ _ :: l => allocated l
  | Event.construct _ _ _ :: l => allocated l
  | Event.destroy _ _ _ :: l => allocated l

/-- The pointers passed to the `deallocate` calls of a log, newest first. -/
def freed : List (Event T) → List (Option Nat)
  | [] => []
  | Event.deallocate _ p :: l => p :: freed l
  | Event.allocate _ _ :: l => freed l
  | Event.construct _ _ _ :: l => freed l
  | Event.destroy _ _ _ :: l => freed l

/-- Address of the element slot at linear position `L`. -/
def ref_of (data : List (Option Nat)) (L : Int) : Ref :=
  match bucket_at data (L / 60) with
  | some p => (p, (L % 60).toNat)
  | none => (0, (L % 60).toNat)

/-- Addresses and values of a list placed at the linear positions `L, L + 1, ...`. -/
def placed (data : List (Option Nat)) : Int → List T → List (Ref × T)
  | _, [] => []
  | L, x :: xs => (ref_of data L, x) :: placed data (L + 1) xs

/-- A position moved by `k` map slots. -/
def shift_it (k : Nat) (it : BaseIterator) : BaseIterator :=
  { ind_j_ := it.ind_j_, arr_ := it.arr_.map fun a => (k : Int) + a }

/-- The non-null bucket pointers of a map, in slot order. -/
def ptrs (data : List (Option Nat)) : List Nat := data.filterMap id

/-- The list `xs` of values a constructor is asked to construct in heap `h`: the
repeated value, the initializer list, or the list the copied container holds. -/
def Ctor.builds (c : Ctor T) (h : Heap T) (xs : List T) : Prop :=
  match c with
  | Ctor.count n dflt => xs = List.replicate n dflt ∧ h.fresh
  | Ctor.value n v => xs = List.replicate n v ∧ h.fresh
  | Ctor.list init => xs = init ∧ h.fresh
  | Ctor.copy src => Holds h src xs

/-- A container under construction since heap `h0`: it holds `xs`, and the allocator
calls `new` made since `h0` are the allocations of exactly the buckets of its map and
the constructions of exactly its elements, in order; nothing was destroyed or freed. -/
structure Built (h0 h : Heap T) (d : Deque) (xs : List T) (new : List (Event T)) : Prop where
  holds : Holds h d xs
  log_eq : h.log = new ++ h0.log
  no_destroy : destroyed new = []
  no_free : freed new = []
  alloc_nodup : (allocated new).Nodup
  alloc_iff : ∀ p, p ∈ allocated new ↔ ∃ s, bucket_at d.data_ s = some p
  cons_len : (constructed new).length = xs.length
  cons_eq : ∀ B, HoldsAt h d xs B → (constructed new).reverse = placed d.data_ B xs

/-- A constructor that failed after constructing `xs` has rolled back: of the
allocator calls `new` it made since heap `h0`, the constructions are those of `xs`, at
different addresses; the destructions are exactly the constructions, each once; every
address it allocated was passed to `deallocate` exactly once and is free again; and
nothing else was deallocated. -/
structure RolledBack (h0 h : Heap T) (d : Deque) (xs : List T) (new : List (Event T)) : Prop where
  log_eq : h.log = new ++ h0.log
  constructed_vals : (constructed new).map Prod.snd = xs.reverse
  constructed_nodup : ((constructed new).map Prod.fst).Nodup
  destroyed_eq : destroyed new = (constructed new).map fun rv => (rv.1, some rv.2)
  alloc_nodup : (allocated new).Nodup
  freed_once : ∀ p, p ∈ allocated new → (freed new).count (some p) = 1
  freed_only : ∀ p, some p ∈ freed new → p ∈ allocated new
  released : ∀ p, p ∈ allocated new → h.mem p = none
  data_empty : d.data_ = []

/-! ## Destructor, swap, assignment -/

/-- Destructor `~Deque()`: destroy the elements of `[begin(), end())`, then deallocate
every slot of the map. -/
def Deque.destructor (h : Heap T) (d : Deque) : Except Fault (Heap T) :=
  match destroy_range d.allocator_ d.data_ d.end (walk_bound d.data_) h d.begin with
  | .error f => .error f
  | .ok h1 => deallocate_all d.allocator_ d.data_ h1

/-- Member `swap(deq)`: the five `std::swap` calls; the result is `(*this, deq)`.  The
slot pointers of `begin_`/`end_` travel with the map buffer they point into, so their
index in the map is kept. -/
def swap (self deq : Deque) : Deque × Deque :=
  ({ allocator_ := deq.allocator_, data_ := deq.data_, size_ := deq.size_,
     begin_ := deq.begin_, end_ := deq.end_ },
   { allocator_ := self.allocator_, data_ := self.data_, size_ := self.size_,
     begin_ := self.begin_, end_ := self.end_ })

/-- Member `move_swap(deq)`; `pocma` is
`propagate_on_container_move_assignment::value`. -/
def move_swap (pocma : Bool) (self deq : Deque) : Deque × Deque :=
  let s := swap self deq
  let alloc := s.1.allocator_
  let self1 := if pocma then { s.1 with allocator_ := s.2.allocator_ } else s.1
  (self1, { s.2 with allocator_ := alloc })

/-- Constructor `Deque(Deque&& other)`: `move_swap(other)` on default-initialised
members; `dflt` is the default-constructed allocator.  The result is
`(*this, other)`. -/
def Deque.from_move (pocma : Bool) (dflt : Nat) (other : Deque) : Deque × Deque :=
  move_swap pocma (Deque.init dflt) other

/-- Result of a member function that changes a second container too. -/
inductive Res2 (E T : Type) where
  | ok (h : Heap T) (self deq : Deque)
  | throw (e : E) (h : Heap T) (self deq : Deque)
  | fault (f : Fault)

/-- Copy assignment `operator=(const Deque& deq)` from another object `deq`, which it
does not change: build `new_deq(deq, new_alloc)`, `swap(new_deq)`, and the destructor
of `new_deq` at the end of the scope.  `pocca` is
`propagate_on_container_copy_assignment::value`. -/
def operator_assign (pocca : Bool) (throws : Nat → Option E) (h : Heap T) (self deq : Deque) :
    Res E T :=
  let new_alloc := if pocca then deq.allocator_ else self.allocator_
  match Deque.copy deq throws new_alloc h with
  | Res.fault f => Res.fault f
  | Res.throw e h1 _ => Res.throw e h1 self
  | Res.ok h1 new_deq =>
    let s := swap self new_deq
    match Deque.destructor h1 s.2 with
    | .error f => Res.fault f
    | .ok h2 => Res.ok h2 s.1

/-- Move assignment `operator=(Deque&& deq)` from another object `deq`.  `pocma` is
`propagate_on_container_move_assignment::value`, `dflt` the default-constructed
allocator of the local `new_deq`.  The loop over `new_deq` has the body of the loop
of the copy constructor; an element that was moved from keeps a value until it is
destroyed. -/
def operator_assign_move (pocma : Bool) (dflt : Nat) (throws : Nat → Option E) (h : Heap T)
    (self deq : Deque) : Res2 E T :=
  if pocma = true ∨ self.allocator_ = deq.allocator_ then
    let s := swap self deq
    Res2.ok h { s.1 with allocator_ := s.2.allocator_ } s.2
  else
    let alloc := deq.allocator_
    let s := swap (Deque.init dflt) deq
    let new_deq := s.1
    let deq1 := { s.2 with allocator_ := alloc }
    match copy_fill new_deq throws (walk_bound new_deq.data_) 0 h self new_deq.begin_ with
    | Res.fault f => Res2.fault f
    | Res.throw e h1 self1 =>
      match rollback h1 self1 with
      | .error f => Res2.fault f
      | .ok (h2, self2) =>
        match Deque.destructor h2 new_deq with
        | .error f => Res2.fault f
        | .ok h3 => Res2.throw e h3 self2 deq1
    | Res.ok h1 self1 =>
      match Deque.destructor h1 new_deq with
      | .error f => Res2.fault f
      | .ok h2 => Res2.ok h2 self1 deq1

/-! ## All mutating operations -/

/-- A mutating member call: `emplace_back`/`push_back`, `emplace_front`/`push_front`,
`pop_back`, `pop_front`, `emplace`/`insert` at a position, `erase` at a position,
`reserve`.  A push or insert is the emplace of a value whose construction succeeds. -/
inductive Mut (E T : Type) where
  | emplace_back (c : Except E T)
  | emplace_front (c : Except E T)
  | pop_back
  | pop_front
  | emplace (it : BaseIterator) (c : Heap T → Except Fault (Except E T))
  | erase (it : BaseIterator)
  | reserve

/-- The call on the container. -/
def Mut.run : Mut E T → Heap T → Deque → Res E T
  | Mut.emplace_back c, h, d => MiptDeque.emplace_back c h d
  | Mut.emplace_front c, h, d => MiptDeque.emplace_front c h d
  | Mut.pop_back, h, d => MiptDeque.pop_back h d
  | Mut.pop_front, h, d => MiptDeque.pop_front h d
  | Mut.emplace it c, h, d => MiptDeque.emplace c h d it
  | Mut.erase it, h, d => MiptDeque.erase h d it
  | Mut.reserve, h, d => Res.ok h (MiptDeque.reserve d)

/-- The call is within its contract: a pop needs an element, `emplace` a position of
`[begin(), end()]`, `erase` a position of `[begin(), end())`. -/
def Mut.valid : Mut E T → Deque → Prop
  | Mut.pop_back, d => d.size_ ≠ 0
  | Mut.pop_front, d => d.size_ ≠ 0
  | Mut.emplace it _, d => ∃ i, i ≤ d.size_ ∧ it = Nat.iterate operator_inc i d.begin_
  | Mut.erase it, d => ∃ i, i < d.size_ ∧ it = Nat.iterate operator_inc i d.begin_
  | _, _ => True

/-- The states a container reaches from default construction by calls within their
contract that return normally, `reserve` included. -/
inductive ReachableAll : Heap T → Deque → Prop where
  | init (h : Heap T) (alloc : Nat) (hf : ∀ p, h.next ≤ p → h.mem p = none) :
      ReachableAll h (Deque.init alloc)
  | step {E : Type} {h h1 : Heap T} {d d1 : Deque} (m : Mut E T) :
      ReachableAll h d → m.valid d → m.run h d = Res.ok h1 d1 → ReachableAll h1 d1

/-- A container whose map has no bucket at all and that has no element: what `reserve`
calls make of a default-constructed container. -/
def Barren (d : Deque) : Prop :=
  d.data_ ≠ [] ∧ (∀ s, bucket_at d.data_ s = none) ∧ d.size_ = 0 ∧
    ∃ B : Int, B % 60 = 30 ∧ d.begin_ = ofLin B ∧ d.end_ = ofLin B

/-- From heap `h` to heap `h1` nothing was allocated and only buckets of the map `data`
changed. -/
def Touches (data : List (Option Nat)) (h h1 : Heap T) : Prop :=
  h1.next = h.next ∧ (∀ q, h.mem q = none → h1.mem q = none) ∧
    ∀ q, (∀ s, bucket_at data s ≠ some q) → h1.mem q = h.mem q

/-- No bucket of the map of `a` is in the map of `b`. -/
def Separate (a b : Deque) : Prop :=
  ∀ s q, bucket_at a.data_ s = some q → ∀ s1, bucket_at b.data_ s1 ≠ some q

/-- The allocator calls logged in the heap a result leaves. -/
def Res.log (r : Res E T) : List (Event T) :=
  match r with
  | Res.ok h _ => h.log
  | Res.throw _ h _ => h.log
  | Res.fault _ => []

/-- From heap `h` to heap `h1` no `deallocate` call was made and every allocated
address is still allocated. -/
def Keeps (h h1 : Heap T) : Prop :=
  freed h1.log = freed h.log ∧ ∀ p, h.mem p ≠ none → h1.mem p ≠ none

/-! ## Relational operators of `BaseIterator` -/

/-- Member `operator>`: `(*this - iter) > 0`.  There is no result when the slot
pointers have no difference. -/
def operator_gt (x y : BaseIterator) : Option Bool :=
  (operator_diff x y).map fun n => decide (n > 0)

/-- Member `operator<`: `iter > *this`. -/
def operator_lt (x y : BaseIterator) : Option Bool := operator_gt y x

/-- Member `operator>=`: `!(*this < iter)`. -/
def operator_ge (x y : BaseIterator) : Option Bool := (operator_lt x y).map fun r => !r

/-- Member `operator<=`: `!(*this > iter)`. -/
def operator_le (x y : BaseIterator) : Option Bool := (operator_gt x y).map fun r => !r

/-- A position of the map `data`: a slot pointer from `data_.data()` up to
`data_.data() + data_.size()` and an offset below `kBucketSize`. -/
def InMap (data : List (Option Nat)) (it : BaseIterator) : Prop :=
  it.ind_j_ < kBucketSize ∧ ∃ s : Int, it.arr_ = some s ∧ 0 ≤ s ∧ s ≤ data.length

/-! ## Which allocator allocated a bucket -/

/-- The allocator whose `allocate` call returned the bucket at address `p`, read from
the log of allocator calls. -/
def allocator_of : List (Event T) → Nat → Option Nat
  | [], _ => none
  | Event.allocate a q :: l, p => if q = p then some a else allocator_of l p
  | Event.deallocate _ _ :: l, p => allocator_of l p
  | Event.construct _ _ _ :: l, p => allocator_of l p
  | Event.destroy _ _ _ :: l, p => allocator_of l p

/-- The `deallocate` calls of a log that pass a bucket, newest first: the allocator
the call was made on and the bucket. -/
def deallocated_with : List (Event T) → List (Nat × Nat)
  | [] => []
  | Event.deallocate a (some p) :: l => (a, p) :: deallocated_with l
  | Event.deallocate _ none :: l => deallocated_with l
  | Event.allocate _ _ :: l => deallocated_with l
  | Event.construct _ _ _ :: l => deallocated_with l
  | Event.destroy _ _ _ :: l => deallocated_with l

/-- Every bucket in the map of `d` was allocated by an allocator equal to the one `d`
holds. -/
def Owned (h : Heap T) (d : Deque) : Prop :=
  ∀ s p, bucket_at d.data_ s = some p → allocator_of h.log p = some d.allocator_

/-! ## Iterator arithmetic -/

theorem operator_eq_iff (x y : BaseIterator) : operator_eq x y = true ↔ x = y := by
  cases x; cases y; simp [operator_eq]
  tauto

theorem operator_ne_iff (x y : BaseIterator) : operator_ne x y = true ↔ x ≠ y := by
  simp [operator_ne, ← operator_eq_iff]

theorem ofLin_lin (a : Int) (i : Nat) (hi : i < 60) :
    ofLin (a * 60 + i) = { ind_j_ := i, arr_ := some a } := by
  simp only [ofLin, BaseIterator.mk.injEq, Option.some.injEq]
  constructor <;> omega

theorem ofLin_ind_lt (L : Int) : (ofLin L).ind_j_ < 60 := by
  simp only [ofLin]; omega

theorem ofLin_inj {L M : Int} (h : ofLin L = ofLin M) : L = M := by
  simp only [ofLin, BaseIterator.mk.injEq, Option.some.injEq] at h
  omega

theorem operator_inc_ofLin (L : Int) : operator_inc (ofLin L) = ofLin (L + 1) := by
  simp only [operator_inc, ofLin, kBucketSize, toSizeT, BaseIterator.mk.injEq,
    Option.some.injEq]
  constructor
  · omega
  · split <;> omega

theorem operator_dec_ofLin (L : Int) : operator_dec (ofLin L) = ofLin (L - 1) := by
  simp only [operator_dec, ofLin, kBucketSize, toSizeT, BaseIterator.mk.injEq,
    Option.some.injEq]
  constructor
  · omega
  · split <;> omega

theorem iterate_inc_ofLin (n : Nat) (L : Int) :
    Nat.iterate operator_inc n (ofLin L) = ofLin (L + n) := by
  induction n generalizing L with
  | zero => simp
  | succ k ih =>
    rw [Function.iterate_succ_apply, operator_inc_ofLin, ih]
    congr 1; push_cast; ring

theorem iterate_dec_ofLin (n : Nat) (L : Int) :
    Nat.iterate operator_dec n (ofLin L) = ofLin (L - n) := by
  induction n generalizing L with
  | zero => simp
  | succ k ih =>
    rw [Function.iterate_succ_apply, operator_dec_ofLin, ih]
    congr 1; push_cast; ring

/-- In the range where the `int` computation does not overflow, `+=` moves the linear
index by `diff`. -/
theorem operator_plus_assign_ofLin (L d : Int)
    (hlo : -2147483648 ≤ d) (hhi : d < 2147483648)
    (hpos : 0 ≤ d → L % 60 + d < 2147483648)
    (hneg : d < 0 → 59 - L % 60 - d < 2147483648) :
    operator_plus_assign (ofLin L) d = ofLin (L + d) := by
  have hd : toInt32 d = d := by simp only [toInt32]; omega
  simp only [operator_plus_assign, ofLin, hd]
  split
  · rename_i h0
    have h1 := hpos h0
    have e1 : toInt32 (toInt32 ((L % 60).toNat : Int) + d) = L % 60 + d := by
      simp only [toInt32]; omega
    have e2 : toInt32 (kBucketSize : Int) = 60 := by simp [toInt32, kBucketSize]
    rw [e1, e2, Int.tdiv_eq_ediv (by omega) (by omega), Int.tmod_eq_emod (by omega) (by omega)]
    simp only [toSizeT, BaseIterator.mk.injEq, Option.some.injEq]
    constructor <;> omega
  · rename_i h0
    have h1 := hneg (by omega)
    have e2 : toInt32 (kBucketSize : Int) = 60 := by simp [toInt32, kBucketSize]
    have e1 : toInt32 (toInt32 (toSizeT ((kBucketSize : Int) - ((L % 60).toNat : Int))) - 1 - d)
        = 59 - L % 60 - d := by
      simp only [toInt32, toSizeT, kBucketSize]; omega
    have e3 : toInt32 (-(59 - L % 60 - d)) = -(59 - L % 60 - d) := by
      simp only [toInt32]; omega
    rw [e1, e2, e3, Int.neg_tdiv, Int.tdiv_eq_ediv (by omega) (by omega),
      Int.tmod_eq_emod (by omega) (by omega)]
    have e4 : toInt32 (60 - (59 - L % 60 - d) % 60 - 1) = 60 - (59 - L % 60 - d) % 60 - 1 := by
      simp only [toInt32]; omega
    rw [e4]
    simp only [toSizeT, BaseIterator.mk.injEq, Option.some.injEq]
    constructor <;> omega

theorem slot_read_some (data : List (Option Nat)) (s : Int) :
    slot_read data (some s) =
      if 0 ≤ s ∧ s < data.length then .ok (data.getD s.toNat none) else .error Fault.map_range := by
  simp only [slot_read, slot_index]
  by_cases hr : 0 ≤ s ∧ s < data.length <;> simp [hr]

theorem elem_ptr_ofLin (data : List (Option Nat)) (L : Int) :
    elem_ptr data (ofLin L) =
      match bucket_at data (L / 60) with
      | some p => .ok (p, (L % 60).toNat)
      | none => if 0 ≤ L / 60 ∧ L / 60 < data.length then .error Fault.null_bucket
                else .error Fault.map_range := by
  have hi := ofLin_ind_lt L
  simp only [elem_ptr, slot_read_some, bucket_at, ofLin] at *
  by_cases hr : 0 ≤ L / 60 ∧ L / 60 < data.length
  · simp only [hr, and_self, if_true]
    cases hg : data.getD (L / 60).toNat none with
    | none => simp
    | some p => simp [kBucketSize, hi]
  · simp [hr]

theorem elem_ptr_of_bucket {data : List (Option Nat)} {L : Int} {p : Nat}
    (hb : bucket_at data (L / 60) = some p) :
    elem_ptr data (ofLin L) = .ok (p, (L % 60).toNat) := by
  rw [elem_ptr_ofLin, hb]

theorem elem_ptr_ok_iff {data : List (Option Nat)} {L : Int} {r : Ref} :
    elem_ptr data (ofLin L) = .ok r ↔ bucket_at data (L / 60) = some r.1 ∧ r.2 = (L % 60).toNat := by
  rw [elem_ptr_ofLin]
  cases hb : bucket_at data (L / 60) with
  | none => simp; split <;> simp
  | some p =>
    obtain ⟨r1, r2⟩ := r
    simp only [Except.ok.injEq, Prod.mk.injEq, Option.some.injEq]
    constructor
    · rintro ⟨rfl, rfl⟩; exact ⟨rfl, rfl⟩
    · rintro ⟨rfl, rfl⟩; exact ⟨rfl, rfl⟩

theorem bucket_at_range {data : List (Option Nat)} {s : Int} {p : Nat}
    (hb : bucket_at data s = some p) : 0 ≤ s ∧ s < data.length := by
  unfold bucket_at at hb
  split at hb
  · assumption
  · cases hb

theorem cell_range {h : Heap T} {data : List (Option Nat)} {L : Int} {c : Option T}
    (hc : cell h data L = some c) : 0 ≤ L ∧ L < 60 * data.length := by
  unfold cell at hc
  cases hb : bucket_at data (L / 60) with
  | none => simp [hb] at hc
  | some p =>
    have := bucket_at_range hb
    omega

theorem cell_some_iff {h : Heap T} {data : List (Option Nat)} {L : Int} {c : Option T} :
    cell h data L = some c ↔
      ∃ p b, bucket_at data (L / 60) = some p ∧ h.mem p = some b ∧ b (L % 60).toNat = c := by
  unfold cell
  cases hb : bucket_at data (L / 60) with
  | none => simp
  | some p =>
    cases hm : h.mem p with
    | none => simp [hm]
    | some b => simp [hm]

theorem cell_load {h : Heap T} {data : List (Option Nat)} {L : Int} {c : Option T}
    (hc : cell h data L = some c) :
    ∃ r, elem_ptr data (ofLin L) = .ok r ∧ h.load r = .ok c := by
  obtain ⟨p, b, hb, hm, hv⟩ := cell_some_iff.mp hc
  exact ⟨(p, (L % 60).toNat), elem_ptr_of_bucket hb, by simp [Heap.load, hm, hv]⟩

theorem cell_read {h : Heap T} {data : List (Option Nat)} {L : Int} {v : T}
    (hc : cell h data L = some (some v)) :
    ∃ r, elem_ptr data (ofLin L) = .ok r ∧ h.read r = .ok v := by
  obtain ⟨r, hr, hl⟩ := cell_load hc
  exact ⟨r, hr, by simp [Heap.read, hl]⟩

/-- A mapped, allocated slot can be stored to, and the store changes that cell only. -/
theorem store_cell {h : Heap T} {data : List (Option Nat)} (hm : MapOk h data) {L : Int}
    {c0 : Option T} (hc : cell h data L = some c0) (c : Option T) :
    ∃ r h1, elem_ptr data (ofLin L) = .ok r ∧ h.store r c = .ok h1 ∧ MapOk h1 data ∧
      h1.next = h.next ∧ h1.log = h.log ∧
      (∀ p, h1.mem p = none ↔ h.mem p = none) ∧
      ∀ M, cell h1 data M = if M = L then some c else cell h data M := by
  obtain ⟨p, b, hb, hmem, -⟩ := cell_some_iff.mp hc
  refine ⟨(p, (L % 60).toNat),
    { h with mem := Function.update h.mem p (some (Function.update b (L % 60).toNat c)) },
    elem_ptr_of_bucket hb, by simp [Heap.store, hmem], ?_, rfl, rfl, ?_, ?_⟩
  · refine ⟨?_, ?_, hm.distinct⟩
    · intro q hq
      have hne : q ≠ p := by
        intro e; subst e
        have := hm.fresh q hq
        simp [hmem] at this
      simp [Function.update_noteq hne, hm.fresh q hq]
    · intro s q hq
      by_cases e : q = p
      · subst e; simp
      · simpa [Function.update_noteq e] using hm.alloc s q hq
  · intro q
    by_cases e : q = p
    · subst e; simp [hmem]
    · simp [Function.update_noteq e]
  · intro M
    by_cases e : M = L
    · subst e
      simp [cell, hb]
    · simp only [e, if_false]
      unfold cell
      cases hbM : bucket_at data (M / 60) with
      | none => rfl
      | some q =>
        by_cases eq : q = p
        · subst eq
          have hs := hm.distinct _ _ _ hbM hb
          have hoff : (M % 60).toNat ≠ (L % 60).toNat := by omega
          simp [hmem, Function.update_noteq hoff]
        · simp [Function.update_noteq eq]

/-! ## Map growth -/

theorem bucket_at_eq (data : List (Option Nat)) (s : Int) :
    bucket_at data s = if 0 ≤ s then data.getD s.toNat none else none := by
  unfold bucket_at
  by_cases h0 : 0 ≤ s
  · by_cases h1 : s < data.length
    · simp [h0, h1]
    · have : data.length ≤ s.toNat := by omega
      simp [h0, h1, List.getD_eq_getElem?_getD, List.getElem?_eq_none this]
  · simp [h0]

theorem reserve_fold_getElem? (data : List (Option Nat)) (init : List (Option Nat)) (off : Nat) :
    ∀ i j : Nat, ((List.range i).foldl
        (fun new_data ind => new_data.set (off + ind) (data.getD ind none)) init)[j]? =
      if off ≤ j ∧ j < off + i ∧ j < init.length then some (data.getD (j - off) none)
      else init[j]? := by
  intro i
  induction i with
  | zero =>
    intro j
    simp only [List.range_zero, List.foldl_nil]
    rw [if_neg]; omega
  | succ n ih =>
    intro j
    have hlen : ∀ m : Nat, ((List.range m).foldl
        (fun new_data ind => new_data.set (off + ind) (data.getD ind none)) init).length
          = init.length := by
      intro m
      induction m with
      | zero => simp
      | succ m ihm => rw [List.range_succ, List.foldl_append]; simpa using ihm
    rw [List.range_succ, List.foldl_append]
    simp only [List.foldl_cons, List.foldl_nil, List.getElem?_set, hlen, ih]
    by_cases e : off + n = j
    · subst e
      by_cases hl : off + n < init.length
      · simp [hl]
      · simp [hl, List.getElem?_eq_none (Nat.le_of_not_lt hl)]
    · simp only [e, if_false]
      by_cases c1 : off ≤ j ∧ j < off + n ∧ j < init.length
      · have : off ≤ j ∧ j < off + (n + 1) ∧ j < init.length := by omega
        simp [c1, this]
      · have : ¬ (off ≤ j ∧ j < off + (n + 1) ∧ j < init.length) := by omega
        simp [c1, this]

theorem reserve_data_length (data : List (Option Nat)) (N : Nat) :
    (reserve_data data N).length = N := by
  unfold reserve_data
  generalize List.range data.length = l
  have : ∀ (l : List Nat) (init : List (Option Nat)), (l.foldl
      (fun new_data ind => new_data.set (kScale / 2 * data.length + ind) (data.getD ind none))
      init).length = init.length := by
    intro l
    induction l with
    | nil => intro init; rfl
    | cons a t ih => intro init; simp only [List.foldl_cons, ih, List.length_set]
  rw [this]; simp

theorem reserve_data_getD (data : List (Option Nat)) (N j : Nat) (hN : 2 * data.length ≤ N) :
    (reserve_data data N).getD j none =
      if data.length ≤ j ∧ j < 2 * data.length then data.getD (j - data.length) none
      else none := by
  have hk : kScale / 2 * data.length = data.length := by simp [kScale]
  unfold reserve_data
  rw [List.getD_eq_getElem?_getD, hk, reserve_fold_getElem?]
  by_cases c : data.length ≤ j ∧ j < 2 * data.length
  · have : data.length ≤ j ∧ j < data.length + data.length ∧
        j < (List.replicate N (none : Option Nat)).length := by
      simp; omega
    rw [if_pos this, if_pos c]; rfl
  · have : ¬ (data.length ≤ j ∧ j < data.length + data.length ∧
        j < (List.replicate N (none : Option Nat)).length) := by
      simp; omega
    rw [if_neg this, if_neg c, List.getElem?_replicate]
    split <;> rfl

theorem bucket_at_reserve_data (data : List (Option Nat)) (s : Int) :
    bucket_at (reserve_data data (3 * data.length)) s = bucket_at data (s - data.length) := by
  simp only [bucket_at, reserve_data_length]
  by_cases h1 : 0 ≤ s ∧ s < (3 * data.length : Nat)
  · rw [if_pos h1, reserve_data_getD _ _ _ (by omega)]
    by_cases h2 : data.length ≤ s.toNat ∧ s.toNat < 2 * data.length
    · have h3 : 0 ≤ s - data.length ∧ s - data.length < data.length := by omega
      rw [if_pos h2, if_pos h3]
      congr 1; omega
    · have h3 : ¬ (0 ≤ s - data.length ∧ s - data.length < data.length) := by omega
      rw [if_neg h2, if_neg h3]
  · have h3 : ¬ (0 ≤ s - data.length ∧ s - data.length < data.length) := by omega
    rw [if_neg h1, if_neg h3]

theorem reserve_nonempty (d : Deque) (hne : d.data_ ≠ []) :
    reserve d =
      { d with data_ := reserve_data d.data_ (3 * d.data_.length)
               begin_ := { ind_j_ := d.begin_.ind_j_
                           arr_ := d.begin_.arr_.map fun a => (d.data_.length : Int) + a }
               end_ := { ind_j_ := d.end_.ind_j_
                         arr_ := d.end_.arr_.map fun a => (d.data_.length : Int) + a } } := by
  have hpos : 0 < d.data_.length := List.length_pos.mpr hne
  have he : d.data_.isEmpty = false := by
    cases hd : d.data_ with
    | nil => exact absurd hd hne
    | cons a t => rfl
  have h3 : (3 * d.data_.length) / 3 = d.data_.length := by omega
  have h1 : ¬ (3 * d.data_.length = 1) := by omega
  simp only [reserve, he, new_data_size, kScale, reserve_data_length, Bool.false_eq_true,
    if_false, h1, h3]

theorem reserve_empty (d : Deque) (he : d.data_ = []) :
    reserve d =
      { d with data_ := [none]
               begin_ := { ind_j_ := 30, arr_ := some 0 }
               end_ := { ind_j_ := 30, arr_ := some 0 } } := by
  simp [reserve, he, reserve_data, kBucketSize]

theorem cell_reserve_data (h : Heap T) (data : List (Option Nat)) (L : Int) :
    cell h (reserve_data data (3 * data.length)) (L + 60 * data.length) = cell h data L := by
  unfold cell
  rw [bucket_at_reserve_data]
  have e1 : (L + 60 * (data.length : Int)) / 60 - data.length = L / 60 := by omega
  have e2 : (L + 60 * (data.length : Int)) % 60 = L % 60 := by omega
  rw [e1, e2]

theorem MapOk.of_reserve_data {h : Heap T} {data : List (Option Nat)} (hm : MapOk h data) :
    MapOk h (reserve_data data (3 * data.length)) := by
  refine ⟨hm.fresh, ?_, ?_⟩
  · intro s p hs
    rw [bucket_at_reserve_data] at hs
    exact hm.alloc _ _ hs
  · intro s s' p hs hs'
    rw [bucket_at_reserve_data] at hs hs'
    have := hm.distinct _ _ _ hs hs'
    omega

theorem ofLin_shift (L : Int) (n : Nat) :
    ({ ind_j_ := (ofLin L).ind_j_, arr_ := (ofLin L).arr_.map fun a => (n : Int) + a } : BaseIterator)
      = ofLin (L + 60 * n) := by
  simp only [ofLin, Option.map_some', BaseIterator.mk.injEq, Option.some.injEq]
  constructor <;> omega

/-- Growing the map keeps the list it holds; every position moves by the
`60 * data_.size()` slots of the new front third. -/
theorem HoldsCore.reserve_core {h : Heap T} {data : List (Option Nat)} {xs : List T} {B : Int}
    (hh : HoldsCore h data xs B) :
    HoldsCore h (reserve_data data (3 * data.length)) xs (B + 60 * data.length) := by
  have hpos : 0 < data.length := List.length_pos.mpr hh.map_ne
  refine ⟨hh.map_ok.of_reserve_data, by have := hh.B_nonneg; omega, ?_, ?_, ?_, ?_⟩
  · simp only [reserve_data_length]
    have := hh.end_le
    push_cast; omega
  · intro e
    have hl := congrArg List.length e
    rw [reserve_data_length, List.length_nil] at hl
    omega
  · intro k v hk
    have := hh.live k v hk
    rw [show B + 60 * (data.length : Int) + k = (B + k) + 60 * (data.length : Int) by ring,
      cell_reserve_data]
    exact this
  · intro hne
    have hne1 : (B + xs.length) % 60 ≠ 0 := by omega
    obtain ⟨c, hc⟩ := hh.end_mapped hne1
    refine ⟨c, ?_⟩
    rw [show B + 60 * (data.length : Int) + xs.length
        = (B + xs.length) + 60 * (data.length : Int) by ring, cell_reserve_data]
    exact hc

theorem HoldsAt.reserve_at {h : Heap T} {d : Deque} {xs : List T} {B : Int}
    (hh : HoldsAt h d xs B) :
    HoldsAt h (reserve d) xs (B + 60 * d.data_.length) := by
  rw [reserve_nonempty d hh.map_ne]
  refine ⟨hh.toHoldsCore.reserve_core, hh.size_eq, ?_, ?_⟩
  · simp only [hh.begin_eq, ofLin_shift]
  · simp only [hh.end_eq, ofLin_shift]
    congr 1; ring

/-! ## Allocation of a bucket -/

theorem bucket_at_set (data : List (Option Nat)) (s : Int) (hs : 0 ≤ s ∧ s < data.length)
    (p : Option Nat) (s1 : Int) :
    bucket_at (data.set s.toNat p) s1 = if s1 = s then p else bucket_at data s1 := by
  simp only [bucket_at, List.length_set, List.getD_eq_getElem?_getD, List.getElem?_set]
  by_cases e : s1 = s
  · subst e
    have : s1.toNat < data.length := by omega
    simp [hs, this]
  · by_cases r : 0 ≤ s1 ∧ s1 < data.length
    · have : s.toNat ≠ s1.toNat := by omega
      simp [e, r, this]
    · simp [e, r]

theorem slot_write_ok (data : List (Option Nat)) (s : Int) (hs : 0 ≤ s ∧ s < data.length)
    (p : Option Nat) : slot_write data (some s) p = .ok (data.set s.toNat p) := by
  simp [slot_write, slot_index, hs]

/-- Allocating a bucket into a null slot of the map leaves every mapped cell as it was
and maps the cells of that slot to raw storage. -/
theorem allocate_map_spec {h : Heap T} {data : List (Option Nat)} (hm : MapOk h data) {s : Int}
    (hs : 0 ≤ s ∧ s < data.length) (alloc : Nat) :
    MapOk (h.allocate alloc).2 (data.set s.toNat (some h.next)) ∧
      (∀ L, cell (h.allocate alloc).2 (data.set s.toNat (some h.next)) L =
        if L / 60 = s then some none else cell h data L) := by
  have hfree : h.mem h.next = none := hm.fresh _ (Nat.le_refl _)
  have hne : ∀ s1 q, bucket_at data s1 = some q → q ≠ h.next := by
    intro s1 q hq e
    obtain ⟨b, hb⟩ := hm.alloc s1 q hq
    rw [e, hfree] at hb; cases hb
  refine ⟨⟨?_, ?_, ?_⟩, ?_⟩
  · intro p hp
    simp only [Heap.allocate] at hp ⊢
    have : p ≠ h.next := by omega
    rw [Function.update_noteq this]
    exact hm.fresh p (by omega)
  · intro s1 p hp
    rw [bucket_at_set _ _ hs] at hp
    simp only [Heap.allocate]
    by_cases e : p = h.next
    · subst e; simp
    · rw [Function.update_noteq e]
      split at hp
      · simp at hp; exact absurd hp.symm e
      · exact hm.alloc s1 p hp
  · intro s1 s2 p h1 h2
    rw [bucket_at_set _ _ hs] at h1 h2
    split at h1 <;> split at h2
    · omega
    · simp at h1; exact absurd h1.symm (hne _ _ h2)
    · simp at h2; exact absurd h2.symm (hne _ _ h1)
    · exact hm.distinct _ _ _ h1 h2
  · intro L
    unfold cell
    rw [bucket_at_set _ _ hs]
    by_cases e : L / 60 = s
    · simp [e, Heap.allocate]
    · simp only [e, if_false]
      cases hb : bucket_at data (L / 60) with
      | none => rfl
      | some q => simp [Heap.allocate, Function.update_noteq (hne _ _ hb)]

theorem HoldsCore.allocate_core {h : Heap T} {data : List (Option Nat)} {xs : List T} {B : Int}
    (hh : HoldsCore h data xs B) {s : Int} (hs : 0 ≤ s ∧ s < data.length)
    (hnone : bucket_at data s = none) (alloc : Nat) :
    HoldsCore (h.allocate alloc).2 (data.set s.toNat (some h.next)) xs B ∧
      (∀ L, L / 60 = s → cell (h.allocate alloc).2 (data.set s.toNat (some h.next)) L = some none) ∧
      (∀ s1 p, bucket_at data s1 = some p →
        bucket_at (data.set s.toNat (some h.next)) s1 = some p) ∧
      bucket_at (data.set s.toNat (some h.next)) s = some h.next := by
  obtain ⟨hm1, hc⟩ := allocate_map_spec hh.map_ok hs alloc
  have keep : ∀ L c, cell h data L = some c →
      cell (h.allocate alloc).2 (data.set s.toNat (some h.next)) L = some c := by
    intro L c hL
    rw [hc]
    have : L / 60 ≠ s := by
      intro e
      obtain ⟨p, b, hb, -, -⟩ := cell_some_iff.mp hL
      rw [e, hnone] at hb; cases hb
    simp [this, hL]
  refine ⟨⟨hm1, hh.B_nonneg, ?_, ?_, ?_, ?_⟩, ?_, ?_, ?_⟩
  · simpa using hh.end_le
  · intro e
    have hl := congrArg List.length e
    rw [List.length_set, List.length_nil] at hl
    omega
  · intro k v hk
    exact keep _ _ (hh.live k v hk)
  · intro hne
    obtain ⟨c, hcc⟩ := hh.end_mapped hne
    exact ⟨c, keep _ _ hcc⟩
  · intro L hL
    simp only [hc, hL, if_true]
  · intro s1 p hp
    simp only [bucket_at_set _ _ hs]
    have : s1 ≠ s := by
      intro e; rw [e, hnone] at hp; cases hp
    simp [this, hp]
  · simp [bucket_at_set _ _ hs]

theorem allocate_data_eq (h : Heap T) (d : Deque) {s : Int} (hs : 0 ≤ s ∧ s < d.data_.length)
    (it : BaseIterator) (hit : it.arr_ = some s) :
    allocate_data h d it =
      .ok ((h.allocate d.allocator_).2, { d with data_ := d.data_.set s.toNat (some h.next) }) := by
  simp [allocate_data, hit, slot_write_ok _ _ hs, Heap.allocate]

theorem Grow.refl (h : Heap T) (d : Deque) : Grow h d h d :=
  ⟨rfl, fun s p hp => ⟨s, hp⟩, Or.inl rfl⟩

theorem Grow.of_reserve {h : Heap T} {d : Deque} (hne : d.data_ ≠ []) {h1 : Heap T} {d1 : Deque}
    (hg : Grow h (reserve d) h1 d1) : Grow h d h1 d1 := by
  obtain ⟨ha, hb, hc⟩ := hg
  have hal : (reserve d).allocator_ = d.allocator_ := by rw [reserve_nonempty d hne]
  refine ⟨by rw [ha, hal], ?_, ?_⟩
  · intro s p hp
    apply hb (s + d.data_.length) p
    rw [reserve_nonempty d hne]
    simp only [bucket_at_reserve_data]
    rwa [show s + (d.data_.length : Int) - d.data_.length = s by ring]
  · rw [hal] at hc; exact hc

/-! ## `emplace_back` -/

theorem ofLin_ind_eq_zero (L : Int) : (ofLin L).ind_j_ = 0 ↔ L % 60 = 0 := by
  simp only [ofLin]; omega

theorem ofLin_arr (L : Int) : (ofLin L).arr_ = some (L / 60) := rfl

/-- The map `[p]` whose one slot holds a bucket allocated just now. -/
theorem first_bucket (h : Heap T) (alloc : Nat) (hf : ∀ p, h.next ≤ p → h.mem p = none) :
    MapOk (h.allocate alloc).2 [some h.next] ∧
      (∀ L : Int, L / 60 = 0 → cell (h.allocate alloc).2 [some h.next] L = some none) ∧
      (∀ s : Int, bucket_at [some h.next] s = if s = 0 then some h.next else none) := by
  have hb : ∀ s : Int, bucket_at [some h.next] s = if s = 0 then some h.next else none := by
    intro s
    rw [bucket_at_eq]
    by_cases h0 : 0 ≤ s
    · by_cases e : s = 0
      · subst e; rfl
      · have : ∃ n, s.toNat = n + 1 := ⟨s.toNat - 1, by omega⟩
        obtain ⟨n, hn⟩ := this
        simp [h0, e, hn]
    · have : s ≠ 0 := by omega
      simp [h0, this]
  refine ⟨⟨?_, ?_, ?_⟩, ?_, hb⟩
  · intro p hp
    simp only [Heap.allocate] at hp ⊢
    have : p ≠ h.next := by omega
    rw [Function.update_noteq this]
    exact hf p (by omega)
  · intro s p hp
    rw [hb] at hp
    split at hp
    · simp only [Option.some.injEq] at hp
      subst hp
      simp [Heap.allocate]
    · cases hp
  · intro s s1 p hp hp1
    rw [hb] at hp hp1
    split at hp
    · split at hp1
      · omega
      · cases hp1
    · cases hp
  · intro L hL
    simp [cell, hb, hL, Heap.allocate]

theorem prepare_back_default (h : Heap T) (d : Deque) (hd : d.data_ = []) :
    prepare_back h d = .ok ((h.allocate d.allocator_).2,
      { d with data_ := [some h.next]
               begin_ := { ind_j_ := 30, arr_ := some 0 }
               end_ := { ind_j_ := 30, arr_ := some 0 } }) := by
  simp [prepare_back, hd, reserve_empty, allocate_data, slot_write, slot_index, Heap.allocate]

/-- The first statement of `emplace_back` succeeds on every container that holds a
list: afterwards the same list is held and the slot at `end_` is mapped. -/
theorem prepare_back_spec {h : Heap T} {d : Deque} {xs : List T} (hh : Holds h d xs) :
    ∃ h1 d1 B, prepare_back h d = .ok (h1, d1) ∧ HoldsAt h1 d1 xs B ∧ Grow h d h1 d1 ∧
      ∃ c, cell h1 d1.data_ (B + xs.length) = some c := by
  rcases hh with ⟨hm, hd, hsz, hb, he, hx⟩ | ⟨B, hh⟩
  · -- default-constructed container
    subst hx
    obtain ⟨hm1, hc1, hb1⟩ := first_bucket h d.allocator_ hm.fresh
    refine ⟨_, _, 30, prepare_back_default h d hd, ⟨⟨hm1, by omega, by simp, by simp, ?_, ?_⟩,
      by simpa using hsz, ?_, ?_⟩, ⟨rfl, ?_, Or.inr ⟨rfl, 0, ?_⟩⟩, ?_⟩
    · intro k v hk; simp at hk
    · intro _; exact ⟨none, hc1 _ (by simp)⟩
    · exact (ofLin_lin 0 30 (by omega)).symm
    · exact (ofLin_lin 0 30 (by omega)).symm
    · intro s p hp
      rw [hd] at hp
      simp [bucket_at] at hp
    · simp [hb1]
    · exact ⟨none, hc1 _ (by simp)⟩
  · have hpos : 0 < d.data_.length := List.length_pos.mpr hh.map_ne
    have hemp : d.data_.isEmpty = false := by
      cases hdd : d.data_ with
      | nil => exact absurd hdd hh.map_ne
      | cons a t => rfl
    have hB := hh.B_nonneg
    have hle := hh.end_le
    by_cases hfull : (B + xs.length) % 60 = 0 ∧ (B + xs.length) / 60 = d.data_.length
    · -- `end_` is one past the last slot of the map: grow, then allocate
      have hr := hh.reserve_at
      have hlen : (reserve d).data_.length = 3 * d.data_.length := by
        rw [reserve_nonempty d hh.map_ne]; simp [reserve_data_length]
      have hnone : bucket_at (reserve d).data_ (2 * d.data_.length) = none := by
        rw [reserve_nonempty d hh.map_ne]
        simp only [bucket_at_reserve_data]
        simp only [bucket_at]
        rw [if_neg]; omega
      have harr : (reserve d).end_.arr_ = some (2 * (d.data_.length : Int)) := by
        rw [hr.end_eq, ofLin_arr]; congr 1; omega
      have hs : (0 : Int) ≤ 2 * d.data_.length ∧ 2 * (d.data_.length : Int) < (reserve d).data_.length := by
        rw [hlen]; push_cast; omega
      obtain ⟨hc1, hcell, hkeep, hnew⟩ := hr.toHoldsCore.allocate_core hs hnone (reserve d).allocator_
      refine ⟨(h.allocate (reserve d).allocator_).2,
        { reserve d with
          data_ := (reserve d).data_.set (2 * (d.data_.length : Int)).toNat (some h.next) }, _, ?_,
        ⟨hc1, hr.size_eq, hr.begin_eq, hr.end_eq⟩,
        Grow.of_reserve hh.map_ne ⟨rfl, fun s p hp => ⟨s, hkeep s p hp⟩, Or.inr ⟨rfl, _, hnew⟩⟩,
        ⟨none, hcell _ (by omega)⟩⟩
      have hcond : (d.end_.ind_j_ = 0 ∧ d.end_.arr_ = some (d.data_.length : Int)) := by
        rw [hh.end_eq, ofLin_ind_eq_zero, ofLin_arr]
        exact ⟨hfull.1, by rw [hfull.2]⟩
      simp only [prepare_back, hemp, hcond, and_self, or_true, if_true]
      exact allocate_data_eq h (reserve d) hs _ harr
    · have hcond : ¬ (d.end_.ind_j_ = 0 ∧ d.end_.arr_ = some (d.data_.length : Int)) := by
        rw [hh.end_eq, ofLin_ind_eq_zero, ofLin_arr]
        intro ⟨a, b⟩
        exact hfull ⟨a, by simpa using b⟩
      have hpb : prepare_back h d = match fulled_back d with
          | .error f => .error f
          | .ok true => allocate_data h d d.end_
          | .ok false => .ok (h, d) := by
        have hc1 : ¬ (d.data_.isEmpty = true ∨
            (d.end_.ind_j_ = 0 ∧ d.end_.arr_ = some (d.data_.length : Int))) := by
          rw [hemp]
          rintro (h1 | h1)
          · cases h1
          · exact hcond h1
        unfold prepare_back
        rw [if_neg hc1] <;> rfl
      by_cases hz : (B + xs.length) % 60 = 0
      · have hrange : 0 ≤ (B + xs.length) / 60 ∧ (B + xs.length) / 60 < d.data_.length := by
          omega
        cases hb : bucket_at d.data_ ((B + xs.length) / 60) with
        | none =>
          have hfb : fulled_back d = .ok true := by
            have hg : d.data_.getD ((B + xs.length) / 60).toNat none = none := by
              have := hb
              unfold bucket_at at this
              rwa [if_pos hrange] at this
            simp only [fulled_back, hh.end_eq]
            rw [if_pos ((ofLin_ind_eq_zero _).mpr hz), ofLin_arr, slot_read_some, if_pos hrange, hg]
            rfl
          obtain ⟨hc1, hcell, hkeep, hnew⟩ := hh.toHoldsCore.allocate_core hrange hb d.allocator_
          refine ⟨(h.allocate d.allocator_).2,
            { d with data_ := d.data_.set ((B + xs.length) / 60).toNat (some h.next) }, B, ?_,
            ⟨hc1, hh.size_eq, hh.begin_eq, hh.end_eq⟩,
            ⟨rfl, fun s p hp => ⟨s, hkeep s p hp⟩, Or.inr ⟨rfl, _, hnew⟩⟩, ⟨none, hcell _ rfl⟩⟩
          rw [hpb, hfb]
          exact allocate_data_eq h d hrange _ (by rw [hh.end_eq, ofLin_arr])
        | some p =>
          have hfb : fulled_back d = .ok false := by
            have hg : d.data_.getD ((B + xs.length) / 60).toNat none = some p := by
              have := hb
              unfold bucket_at at this
              rwa [if_pos hrange] at this
            simp only [fulled_back, hh.end_eq]
            rw [if_pos ((ofLin_ind_eq_zero _).mpr hz), ofLin_arr, slot_read_some, if_pos hrange, hg]
            rfl
          obtain ⟨b, hmb⟩ := hh.map_ok.alloc _ _ hb
          refine ⟨h, d, B, ?_, hh, Grow.refl h d, ⟨_, cell_some_iff.mpr ⟨p, b, hb, hmb, rfl⟩⟩⟩
          rw [hpb, hfb]
      · have hfb : fulled_back d = .ok false := by
          simp [fulled_back, hh.end_eq, ofLin_ind_eq_zero, hz]
        refine ⟨h, d, B, ?_, hh, Grow.refl h d, hh.end_mapped hz⟩
        rw [hpb, hfb]

/-! ## Construction and destruction of an element -/

theorem cell_same_slot {h : Heap T} {data : List (Option Nat)} {L M : Int} {c : Option T}
    (hc : cell h data L = some c) (hs : M / 60 = L / 60) : ∃ c1, cell h data M = some c1 := by
  obtain ⟨p, b, hb, hm, -⟩ := cell_some_iff.mp hc
  exact ⟨_, cell_some_iff.mpr ⟨p, b, by rw [hs]; exact hb, hm, rfl⟩⟩

theorem construct_cell {h : Heap T} {data : List (Option Nat)} (hm : MapOk h data) {L : Int}
    {c0 : Option T} (hc : cell h data L = some c0) (a : Nat) (v : T) :
    ∃ r h1, elem_ptr data (ofLin L) = .ok r ∧ h.construct a r v = .ok h1 ∧ MapOk h1 data ∧
      h1.next = h.next ∧ h1.log = Event.construct a r v :: h.log ∧
      (∀ p, h1.mem p = none ↔ h.mem p = none) ∧
      ∀ M, cell h1 data M = if M = L then some (some v) else cell h data M := by
  obtain ⟨r, h1, hr, hs, hm1, hn, hl, hmem, hcell⟩ := store_cell hm hc (some v)
  refine ⟨r, { h1 with log := Event.construct a r v :: h1.log }, hr, ?_,
    ⟨hm1.fresh, hm1.alloc, hm1.distinct⟩, hn, ?_, hmem, hcell⟩
  · simp [Heap.construct, hs]
  · simp [hl]

theorem destroy_cell {h : Heap T} {data : List (Option Nat)} (hm : MapOk h data) {L : Int}
    {c0 : Option T} (hc : cell h data L = some c0) (a : Nat) :
    ∃ r h1, elem_ptr data (ofLin L) = .ok r ∧ h.destroy a r = .ok h1 ∧ MapOk h1 data ∧
      h1.next = h.next ∧ h1.log = Event.destroy a r c0 :: h.log ∧
      (∀ p, h1.mem p = none ↔ h.mem p = none) ∧
      ∀ M, cell h1 data M = if M = L then some none else cell h data M := by
  obtain ⟨r, h1, hr, hs, hm1, hn, hl, hmem, hcell⟩ := store_cell hm hc none
  obtain ⟨r1, hr1, hload⟩ := cell_load hc
  have e : r1 = r := by rw [hr] at hr1; cases hr1; rfl
  subst e
  refine ⟨r1, { h1 with log := Event.destroy a r1 c0 :: h1.log }, hr, ?_,
    ⟨hm1.fresh, hm1.alloc, hm1.distinct⟩, hn, ?_, hmem, hcell⟩
  · simp [Heap.destroy, hload, hs]
  · simp [hl]

/-! ## `emplace_back`, `emplace_front`, `pop_back`, `pop_front` on a container that
holds a list -/

/-- Appending: `emplace_back` returns normally and the container holds `xs ++ [v]`. -/
theorem emplace_back_ok {h : Heap T} {d : Deque} {xs : List T} (hh : Holds h d xs) (v : T) :
    ∃ h2 d2 B, emplace_back (E := E) (.ok v) h d = Res.ok h2 d2 ∧ HoldsAt h2 d2 (xs ++ [v]) B ∧
      ∃ h1 d1, Grow h d h1 d1 ∧ d2.data_ = d1.data_ ∧ d2.allocator_ = d1.allocator_ ∧
        d2.begin_ = d1.begin_ ∧ h2.next = h1.next ∧
        ∃ r, h2.log = Event.construct d1.allocator_ r v :: h1.log := by
  obtain ⟨h1, d1, B, hp, hh1, hg, c, hc⟩ := prepare_back_spec hh
  obtain ⟨r, h2, hr, hcons, hm2, hn, hl, -, hcell⟩ := construct_cell hh1.map_ok hc d1.allocator_ v
  have hrange := cell_range hc
  refine ⟨h2, { d1 with end_ := operator_inc d1.end_, size_ := d1.size_ + 1 }, B, ?_,
    ⟨⟨hm2, hh1.B_nonneg, ?_, hh1.map_ne, ?_, ?_⟩, ?_, hh1.begin_eq, ?_⟩,
    ⟨h1, d1, hg, rfl, rfl, rfl, hn, r, hl⟩⟩
  · rw [← hh1.end_eq] at hr
    simp only [emplace_back, hp, hr, hcons]
  · simp only [List.length_append, List.length_singleton]
    push_cast; omega
  · intro k w hk
    rw [hcell]
    by_cases e : k = xs.length
    · subst e
      simp at hk
      simp [hk]
    · have hlt : k < xs.length := by
        have := (List.getElem?_eq_some.mp hk).1
        simp at this; omega
      rw [List.getElem?_append_left hlt] at hk
      have : B + (k : Int) ≠ B + xs.length := by omega
      simp only [this, if_false]
      exact hh1.live k w hk
  · intro hne
    simp only [List.length_append, List.length_singleton] at hne ⊢
    push_cast at hne ⊢
    rw [hcell]
    have : B + ((xs.length : Int) + 1) ≠ B + xs.length := by omega
    simp only [this, if_false]
    exact cell_same_slot hc (by omega)
  · simp [hh1.size_eq]
  · simp only [hh1.end_eq, operator_inc_ofLin, List.length_append, List.length_singleton]
    congr 1; push_cast; ring

/-- A throwing construction in `emplace_back`: the exception leaves the state reached
by the first statement, which still holds the list. -/
theorem emplace_back_throw {h : Heap T} {d : Deque} {xs : List T} (hh : Holds h d xs) (e : E) :
    ∃ h1 d1 B, emplace_back (T := T) (.error e) h d = Res.throw e h1 d1 ∧ HoldsAt h1 d1 xs B ∧
      Grow h d h1 d1 := by
  obtain ⟨h1, d1, B, hp, hh1, hg, c, hc⟩ := prepare_back_spec hh
  obtain ⟨r, hr, -⟩ := cell_load hc
  refine ⟨h1, d1, B, ?_, hh1, hg⟩
  rw [← hh1.end_eq] at hr
  simp only [emplace_back, hp, hr]

theorem operator_dec_30 :
    operator_dec { ind_j_ := 30, arr_ := some 0 } = { ind_j_ := 29, arr_ := some 0 } := by
  have := operator_dec_ofLin 30
  rw [show (30 : Int) - 1 = 0 * 60 + (29 : Nat) by norm_num,
    show (30 : Int) = 0 * 60 + (30 : Nat) by norm_num, ofLin_lin 0 29 (by omega),
    ofLin_lin 0 30 (by omega)] at this
  exact this

theorem prepare_front_default (h : Heap T) (d : Deque) (hd : d.data_ = []) :
    prepare_front h d = .ok ((h.allocate d.allocator_).2,
      { d with data_ := [some h.next]
               begin_ := { ind_j_ := 29, arr_ := some 0 }
               end_ := { ind_j_ := 30, arr_ := some 0 } }) := by
  simp [prepare_front, hd, reserve_empty, operator_dec_30, allocate_data, slot_write, slot_index,
    Heap.allocate]

/-- The first statement of `emplace_front` succeeds on every container that holds a
list: afterwards the list is still in place and `begin_` is the mapped slot before it. -/
theorem prepare_front_spec {h : Heap T} {d : Deque} {xs : List T} (hh : Holds h d xs) :
    ∃ h1 d1 B, prepare_front h d = .ok (h1, d1) ∧ HoldsCore h1 d1.data_ xs B ∧
      d1.size_ = xs.length ∧ d1.begin_ = ofLin (B - 1) ∧ d1.end_ = ofLin (B + xs.length) ∧
      1 ≤ B ∧ Grow h d h1 d1 ∧ ∃ c, cell h1 d1.data_ (B - 1) = some c := by
  rcases hh with ⟨hm, hd, hsz, hb, he, hx⟩ | ⟨B, hh⟩
  · subst hx
    obtain ⟨hm1, hc1, hb1⟩ := first_bucket h d.allocator_ hm.fresh
    refine ⟨_, _, 30, prepare_front_default h d hd, ⟨hm1, by omega, by simp, by simp, ?_, ?_⟩,
      by simpa using hsz, ?_, ?_, by omega, ⟨rfl, ?_, Or.inr ⟨rfl, 0, ?_⟩⟩, ?_⟩
    · intro k v hk; simp at hk
    · intro _; exact ⟨none, hc1 _ (by simp)⟩
    · exact (ofLin_lin 0 29 (by omega)).symm
    · exact (ofLin_lin 0 30 (by omega)).symm
    · intro s p hp
      rw [hd] at hp
      simp [bucket_at] at hp
    · simp [hb1]
    · exact ⟨none, hc1 _ (by simp)⟩
  · have hpos : 0 < d.data_.length := List.length_pos.mpr hh.map_ne
    have hemp : d.data_.isEmpty = false := by
      cases hdd : d.data_ with
      | nil => exact absurd hdd hh.map_ne
      | cons a t => rfl
    have hB := hh.B_nonneg
    have hle := hh.end_le
    by_cases hfull : B = 0
    · -- `begin_` is the first position of the map: grow, step back, allocate
      subst hfull
      have hr := hh.reserve_at
      have hlen : (reserve d).data_.length = 3 * d.data_.length := by
        rw [reserve_nonempty d hh.map_ne]; simp [reserve_data_length]
      have hnone : bucket_at (reserve d).data_ ((d.data_.length : Int) - 1) = none := by
        rw [reserve_nonempty d hh.map_ne]
        simp only [bucket_at_reserve_data]
        simp only [bucket_at]
        rw [if_neg]; omega
      have hdec : operator_dec (reserve d).begin_ = ofLin (60 * (d.data_.length : Int) - 1) := by
        rw [hr.begin_eq, operator_dec_ofLin]; congr 1; ring
      have hs : (0 : Int) ≤ (d.data_.length : Int) - 1 ∧
          (d.data_.length : Int) - 1 < (reserve d).data_.length := by
        rw [hlen]; push_cast; omega
      obtain ⟨hc1, hcell, hkeep, hnew⟩ := hr.toHoldsCore.allocate_core hs hnone (reserve d).allocator_
      refine ⟨(h.allocate (reserve d).allocator_).2,
        { reserve d with
          begin_ := operator_dec (reserve d).begin_
          data_ := (reserve d).data_.set ((d.data_.length : Int) - 1).toNat (some h.next) },
        _, ?_, hc1, hr.size_eq, ?_, hr.end_eq, by omega,
        Grow.of_reserve hh.map_ne ⟨rfl, fun s p hp => ⟨s, hkeep s p hp⟩, Or.inr ⟨rfl, _, hnew⟩⟩,
        ⟨none, hcell _ (by omega)⟩⟩
      · have hcond : (d.begin_.ind_j_ = 0 ∧ d.begin_.arr_ = some 0) := by
          rw [hh.begin_eq]; exact ⟨rfl, rfl⟩
        simp only [prepare_front, hemp, hcond, and_self, or_true, if_true]
        exact allocate_data_eq h { reserve d with begin_ := operator_dec (reserve d).begin_ } hs _
          (by simp only [hdec, ofLin_arr]; congr 1; omega)
      · simp only [hdec]; congr 1; ring
    · have hcond : ¬ (d.begin_.ind_j_ = 0 ∧ d.begin_.arr_ = some 0) := by
        rw [hh.begin_eq, ofLin_ind_eq_zero, ofLin_arr]
        intro ⟨a, b⟩
        simp only [Option.some.injEq] at b
        omega
      have hdec : operator_dec d.begin_ = ofLin (B - 1) := by
        rw [hh.begin_eq, operator_dec_ofLin]
      have hpf : prepare_front h d = match fulled_front d with
          | .error f => .error f
          | .ok true =>
            allocate_data h { d with begin_ := operator_dec d.begin_ } (operator_dec d.begin_)
          | .ok false => .ok (h, { d with begin_ := operator_dec d.begin_ }) := by
        have hc1 : ¬ (d.data_.isEmpty = true ∨ (d.begin_.ind_j_ = 0 ∧ d.begin_.arr_ = some 0)) := by
          rw [hemp]
          rintro (h1 | h1)
          · cases h1
          · exact hcond h1
        unfold prepare_front
        rw [if_neg hc1] <;> rfl
      by_cases hz : B % 60 = 0
      · have hrange : 0 ≤ B / 60 - 1 ∧ B / 60 - 1 < d.data_.length := by omega
        cases hb : bucket_at d.data_ (B / 60 - 1) with
        | none =>
          have hfb : fulled_front d = .ok true := by
            have hg : d.data_.getD (B / 60 - 1).toNat none = none := by
              have := hb
              unfold bucket_at at this
              rwa [if_pos hrange] at this
            simp only [fulled_front, hh.begin_eq]
            rw [if_pos ((ofLin_ind_eq_zero _).mpr hz), ofLin_arr, Option.map_some',
              slot_read_some, if_pos hrange, hg]
            rfl
          obtain ⟨hc1, hcell, hkeep, hnew⟩ := hh.toHoldsCore.allocate_core hrange hb d.allocator_
          refine ⟨(h.allocate d.allocator_).2,
            { d with begin_ := operator_dec d.begin_
                     data_ := d.data_.set (B / 60 - 1).toNat (some h.next) }, B, ?_,
            hc1, hh.size_eq, hdec, hh.end_eq, by omega,
            ⟨rfl, fun s p hp => ⟨s, hkeep s p hp⟩, Or.inr ⟨rfl, _, hnew⟩⟩,
            ⟨none, hcell _ (by omega)⟩⟩
          rw [hpf, hfb]
          exact allocate_data_eq h { d with begin_ := operator_dec d.begin_ } hrange _
            (by rw [hdec, ofLin_arr]; congr 1; omega)
        | some p =>
          have hfb : fulled_front d = .ok false := by
            have hg : d.data_.getD (B / 60 - 1).toNat none = some p := by
              have := hb
              unfold bucket_at at this
              rwa [if_pos hrange] at this
            simp only [fulled_front, hh.begin_eq]
            rw [if_pos ((ofLin_ind_eq_zero _).mpr hz), ofLin_arr, Option.map_some',
              slot_read_some, if_pos hrange, hg]
            rfl
          obtain ⟨b, hmb⟩ := hh.map_ok.alloc _ _ hb
          refine ⟨h, { d with begin_ := operator_dec d.begin_ }, B, ?_, hh.toHoldsCore,
            hh.size_eq, hdec, hh.end_eq, by omega, ⟨rfl, fun s p hp => ⟨s, hp⟩, Or.inl rfl⟩,
            ⟨_, cell_some_iff.mpr ⟨p, b, by rw [show (B - 1) / 60 = B / 60 - 1 by omega]; exact hb,
              hmb, rfl⟩⟩⟩
          rw [hpf, hfb]
      · have hfb : fulled_front d = .ok false := by
          simp [fulled_front, hh.begin_eq, ofLin_ind_eq_zero, hz]
        have hmapped : ∃ c, cell h d.data_ B = some c := by
          cases hx : xs with
          | nil =>
            have := hh.end_mapped
            rw [hx] at this
            simpa using this (by simpa using hz)
          | cons v t =>
            exact ⟨_, by simpa using hh.live 0 v (by simp [hx])⟩
        obtain ⟨c, hc⟩ := hmapped
        refine ⟨h, { d with begin_ := operator_dec d.begin_ }, B, ?_, hh.toHoldsCore,
          hh.size_eq, hdec, hh.end_eq, by omega, ⟨rfl, fun s p hp => ⟨s, hp⟩, Or.inl rfl⟩,
          cell_same_slot hc (by omega)⟩
        rw [hpf, hfb]

/-- Prepending: `emplace_front` returns normally and the container holds `v :: xs`. -/
theorem emplace_front_ok {h : Heap T} {d : Deque} {xs : List T} (hh : Holds h d xs) (v : T) :
    ∃ h2 d2 B, emplace_front (E := E) (.ok v) h d = Res.ok h2 d2 ∧ HoldsAt h2 d2 (v :: xs) B ∧
      ∃ h1 d1, Grow h d h1 d1 ∧ d2.data_ = d1.data_ ∧ d2.allocator_ = d1.allocator_ ∧
        h2.next = h1.next ∧ ∃ r, h2.log = Event.construct d1.allocator_ r v :: h1.log := by
  obtain ⟨h1, d1, B, hp, hc1, hsz, hbeg, hend, hB, hg, c, hc⟩ := prepare_front_spec hh
  obtain ⟨r, h2, hr, hcons, hm2, hn, hl, -, hcell⟩ := construct_cell hc1.map_ok hc d1.allocator_ v
  refine ⟨h2, { d1 with size_ := d1.size_ + 1 }, B - 1, ?_,
    ⟨⟨hm2, by omega, ?_, hc1.map_ne, ?_, ?_⟩, ?_, hbeg, ?_⟩,
    ⟨h1, d1, hg, rfl, rfl, hn, r, hl⟩⟩
  · rw [← hbeg] at hr
    simp only [emplace_front, hp, hr, hcons]
  · have := hc1.end_le
    simp only [List.length_cons]
    push_cast; omega
  · intro k w hk
    rw [hcell]
    cases k with
    | zero =>
      simp at hk
      simp [hk]
    | succ j =>
      simp only [List.getElem?_cons_succ] at hk
      have : B - 1 + ((j + 1 : Nat) : Int) ≠ B - 1 := by push_cast; omega
      simp only [this, if_false]
      have e : B - 1 + ((j + 1 : Nat) : Int) = B + j := by push_cast; ring
      rw [e]
      exact hc1.live j w hk
  · intro hne
    simp only [List.length_cons] at hne ⊢
    have e : B - 1 + ((xs.length + 1 : Nat) : Int) = B + xs.length := by push_cast; ring
    rw [e] at hne ⊢
    rw [hcell]
    have : B + (xs.length : Int) ≠ B - 1 := by omega
    simp only [this, if_false]
    exact hc1.end_mapped hne
  · simp [hsz]
  · simp only [hend, List.length_cons]
    congr 1; push_cast; ring

/-- Removing the last element. -/
theorem pop_back_spec {h : Heap T} {d : Deque} {xs : List T} {B : Int} (hh : HoldsAt h d xs B)
    (hne : xs ≠ []) :
    ∃ h1 r, pop_back (E := E) h d =
        Res.ok h1 { d with end_ := operator_dec d.end_, size_ := size_dec d.size_ } ∧
      HoldsAt h1 { d with end_ := operator_dec d.end_, size_ := size_dec d.size_ } xs.dropLast B ∧
      h1.next = h.next ∧ h1.log = Event.destroy d.allocator_ r (xs.getLast? ) :: h.log := by
  have hpos : 0 < xs.length := List.length_pos.mpr hne
  obtain ⟨v, hv⟩ : ∃ v, xs[xs.length - 1]? = some v :=
    ⟨xs[xs.length - 1], List.getElem?_eq_getElem (by omega)⟩
  have hlast : xs.getLast? = some v := by
    rw [List.getLast?_eq_getElem?]; exact hv
  have hc := hh.live _ v hv
  have e1 : B + ((xs.length - 1 : Nat) : Int) = B + xs.length - 1 := by omega
  rw [e1] at hc
  obtain ⟨r, h1, hr, hdes, hm1, hn, hl, -, hcell⟩ := destroy_cell hh.map_ok hc d.allocator_
  have hdec : operator_dec d.end_ = ofLin (B + xs.length - 1) := by
    rw [hh.end_eq, operator_dec_ofLin]
  have hlen : (xs.dropLast.length : Int) = xs.length - 1 := by
    simp only [List.length_dropLast]; omega
  refine ⟨h1, r, ?_, ⟨⟨hm1, hh.B_nonneg, ?_, hh.map_ne, ?_, ?_⟩, ?_, hh.begin_eq, ?_⟩, hn, ?_⟩
  · rw [← hdec] at hr
    simp only [pop_back, hr, hdes]
  · show B + (xs.dropLast.length : Int) ≤ 60 * d.data_.length
    have := hh.end_le
    rw [hlen]; omega
  · intro k w hk
    have hk1 : k < xs.length - 1 := by
      have := (List.getElem?_eq_some.mp hk).1
      simpa using this
    have hk2 : xs[k]? = some w := by
      rw [List.dropLast_eq_take, List.getElem?_take] at hk
      simpa [hk1] using hk
    rw [hcell]
    have : B + (k : Int) ≠ B + xs.length - 1 := by omega
    simp only [this, if_false]
    exact hh.live k w hk2
  · intro _
    refine ⟨none, ?_⟩
    rw [hlen, hcell]
    simp [show B + ((xs.length : Int) - 1) = B + xs.length - 1 by ring]
  · simp only [hh.size_eq, size_dec, List.length_dropLast]
    rw [if_neg (by omega)]
  · simp only [hdec, hlen]
    congr 1; ring
  · rw [hl, hlast]

/-- Removing the first element. -/
theorem pop_front_spec {h : Heap T} {d : Deque} {v : T} {xs : List T} {B : Int}
    (hh : HoldsAt h d (v :: xs) B) :
    ∃ h1 r, pop_front (E := E) h d =
        Res.ok h1 { d with begin_ := operator_inc d.begin_, size_ := size_dec d.size_ } ∧
      HoldsAt h1 { d with begin_ := operator_inc d.begin_, size_ := size_dec d.size_ } xs (B + 1) ∧
      h1.next = h.next ∧ h1.log = Event.destroy d.allocator_ r (some v) :: h.log := by
  have hc := hh.live 0 v (by simp)
  simp only [Nat.cast_zero, add_zero] at hc
  obtain ⟨r, h1, hr, hdes, hm1, hn, hl, -, hcell⟩ := destroy_cell hh.map_ok hc d.allocator_
  have hinc : operator_inc d.begin_ = ofLin (B + 1) := by
    rw [hh.begin_eq, operator_inc_ofLin]
  have hlen : ((v :: xs).length : Int) = xs.length + 1 := by simp
  have hend := hh.end_eq
  have hle := hh.end_le
  have hem := hh.end_mapped
  rw [hlen] at hend hle hem
  refine ⟨h1, r, ?_, ⟨⟨hm1, by have := hh.B_nonneg; omega, ?_, hh.map_ne, ?_, ?_⟩, ?_, hinc, ?_⟩,
    hn, hl⟩
  · rw [← hh.begin_eq] at hr
    simp only [pop_front, hr, hdes]
  · show B + 1 + (xs.length : Int) ≤ 60 * d.data_.length
    omega
  · intro k w hk
    rw [hcell]
    have : B + 1 + (k : Int) ≠ B := by omega
    simp only [this, if_false]
    have := hh.live (k + 1) w (by simpa using hk)
    rw [show B + ((k + 1 : Nat) : Int) = B + 1 + k by push_cast; ring] at this
    exact this
  · intro hne
    rw [hcell]
    have : B + 1 + (xs.length : Int) ≠ B := by omega
    simp only [this, if_false]
    rw [show B + 1 + (xs.length : Int) = B + (xs.length + 1) by ring] at hne ⊢
    exact hem hne
  · simp only [hh.size_eq, size_dec, List.length_cons]
    rw [if_neg (by omega)]; omega
  · simp only [hend]
    congr 1; ring

/-! ## Reading the elements back -/

theorem operator_ne_ofLin (L M : Int) : operator_ne (ofLin L) (ofLin M) = true ↔ L ≠ M := by
  rw [operator_ne_iff]
  constructor
  · intro hne e; exact hne (by rw [e])
  · intro hne e; exact hne (ofLin_inj e)

theorem operator_ne_self (it : BaseIterator) : operator_ne it it = false := by
  cases hv : operator_ne it it with
  | false => rfl
  | true => exact absurd rfl ((operator_ne_iff it it).mp hv)

theorem read_range_spec (h : Heap T) (data : List (Option Nat)) (ys : List T) :
    ∀ (L : Int) (fuel : Nat), ys.length < fuel →
      (∀ (k : Nat) (v : T), ys[k]? = some v → cell h data (L + k) = some (some v)) →
      read_range h data (ofLin (L + ys.length)) fuel (ofLin L) = .ok ys := by
  induction ys with
  | nil =>
    intro L fuel hf _
    obtain ⟨f, rfl⟩ : ∃ f, fuel = f + 1 := ⟨fuel - 1, by simp at hf; omega⟩
    simp [read_range, operator_ne_self]
  | cons v t ih =>
    intro L fuel hf hlive
    obtain ⟨f, rfl⟩ : ∃ f, fuel = f + 1 := ⟨fuel - 1, by omega⟩
    have hne : operator_ne (ofLin L) (ofLin (L + ((v :: t).length : Nat))) = true := by
      rw [operator_ne_ofLin]; simp only [List.length_cons]; push_cast; omega
    obtain ⟨r, hr, hrd⟩ := cell_read (by simpa using hlive 0 v (by simp))
    have hrec := ih (L + 1) f (by simp at hf; omega) (by
      intro k w hk
      have := hlive (k + 1) w (by simpa using hk)
      rw [show L + ((k + 1 : Nat) : Int) = L + 1 + k by push_cast; ring] at this
      exact this)
    rw [show L + 1 + (t.length : Int) = L + ((v :: t).length : Nat) by
      simp only [List.length_cons]; push_cast; ring] at hrec
    simp only [read_range, hne, if_true, hr, hrd, operator_inc_ofLin, hrec]

theorem read_range_rev_spec (h : Heap T) (data : List (Option Nat)) (L : Int) (ys : List T) :
    ∀ (fuel : Nat), ys.length < fuel →
      (∀ (k : Nat) (v : T), ys[k]? = some v → cell h data (L + k) = some (some v)) →
      read_range_rev h data (ofLin L) fuel (ofLin (L + ys.length)) = .ok ys.reverse := by
  induction ys using List.reverseRecOn with
  | nil =>
    intro fuel hf _
    obtain ⟨f, rfl⟩ : ∃ f, fuel = f + 1 := ⟨fuel - 1, by simp at hf; omega⟩
    simp [read_range_rev, operator_ne_self]
  | append_singleton t v ih =>
    intro fuel hf hlive
    simp only [List.length_append, List.length_singleton] at hf
    obtain ⟨f, rfl⟩ : ∃ f, fuel = f + 1 := ⟨fuel - 1, by omega⟩
    have hlen : ((t ++ [v]).length : Int) = t.length + 1 := by simp
    have hne : operator_ne (ofLin (L + ((t ++ [v]).length : Nat))) (ofLin L) = true := by
      rw [operator_ne_ofLin, hlen]; omega
    have hdec : operator_dec (ofLin (L + ((t ++ [v]).length : Nat))) = ofLin (L + t.length) := by
      rw [operator_dec_ofLin, hlen]; congr 1; ring
    obtain ⟨r, hr, hrd⟩ := cell_read (hlive t.length v (by simp))
    have hrec := ih f (by omega) (by
      intro k w hk
      have hlt : k < t.length := (List.getElem?_eq_some.mp hk).1
      exact hlive k w (by rw [List.getElem?_append_left hlt]; exact hk))
    simp only [read_range_rev, hne, if_true, hdec, hr, hrd, hrec, List.reverse_append,
      List.reverse_cons, List.reverse_nil, List.nil_append, List.singleton_append]

theorem Holds.size_eq_length {h : Heap T} {d : Deque} {xs : List T} (hh : Holds h d xs) :
    d.size_ = xs.length := by
  rcases hh with ⟨-, -, hsz, -, -, hx⟩ | ⟨B, hh⟩
  · simp [hsz, hx]
  · exact hh.size_eq

theorem walk_bound_gt {h : Heap T} {d : Deque} {xs : List T} {B : Int} (hh : HoldsAt h d xs B) :
    xs.length < walk_bound d.data_ := by
  have := hh.end_le
  have := hh.B_nonneg
  simp only [walk_bound, kBucketSize]
  omega

/-- Reading from `begin()` to `end()` by increments yields the list held. -/
theorem Holds.to_list_eq {h : Heap T} {d : Deque} {xs : List T} (hh : Holds h d xs) :
    to_list h d = .ok xs := by
  rcases hh with ⟨-, hd, -, hb, he, hx⟩ | ⟨B, hh⟩
  · simp [MiptDeque.to_list, hd, hb, he, hx, walk_bound, read_range, operator_ne_self]
  · simp only [MiptDeque.to_list, hh.begin_eq, hh.end_eq]
    exact read_range_spec h d.data_ xs B _ (walk_bound_gt hh) hh.live

/-- Reading from `rbegin()` to `rend()` yields the list held, reversed. -/
theorem Holds.to_list_rev_eq {h : Heap T} {d : Deque} {xs : List T} (hh : Holds h d xs) :
    to_list_rev h d = .ok xs.reverse := by
  rcases hh with ⟨-, hd, -, hb, he, hx⟩ | ⟨B, hh⟩
  · simp [MiptDeque.to_list_rev, hd, hb, he, hx, walk_bound, read_range_rev, operator_ne_self]
  · simp only [MiptDeque.to_list_rev, hh.begin_eq, hh.end_eq]
    exact read_range_rev_spec h d.data_ B xs _ (walk_bound_gt hh) hh.live

/-! ## The four end operations preserve `Holds` -/

theorem Holds.of_init (h : Heap T) (alloc : Nat) (hf : ∀ p, h.next ≤ p → h.mem p = none) :
    Holds h (Deque.init alloc) [] := by
  refine Or.inl ⟨⟨hf, ?_, ?_⟩, rfl, rfl, rfl, rfl, rfl⟩
  · intro s p hp; simp [Deque.init, bucket_at] at hp
  · intro s s1 p hp; simp [Deque.init, bucket_at] at hp

theorem Holds.after_emplace_back {h : Heap T} {d : Deque} {xs : List T} (hh : Holds h d xs) (v : T) :
    ∃ h2 d2, emplace_back (E := E) (.ok v) h d = Res.ok h2 d2 ∧ Holds h2 d2 (xs ++ [v]) := by
  obtain ⟨h2, d2, B, he, hh2, -⟩ := emplace_back_ok (E := E) hh v
  exact ⟨h2, d2, he, Or.inr ⟨B, hh2⟩⟩

theorem Holds.after_emplace_front {h : Heap T} {d : Deque} {xs : List T} (hh : Holds h d xs) (v : T) :
    ∃ h2 d2, emplace_front (E := E) (.ok v) h d = Res.ok h2 d2 ∧ Holds h2 d2 (v :: xs) := by
  obtain ⟨h2, d2, B, he, hh2, -⟩ := emplace_front_ok (E := E) hh v
  exact ⟨h2, d2, he, Or.inr ⟨B, hh2⟩⟩

theorem Holds.after_pop_back {h : Heap T} {d : Deque} {xs : List T} (hh : Holds h d xs)
    (hne : xs ≠ []) :
    ∃ h1 d1, pop_back (E := E) h d = Res.ok h1 d1 ∧ Holds h1 d1 xs.dropLast := by
  rcases hh with ⟨-, -, -, -, -, hx⟩ | ⟨B, hh⟩
  · exact absurd hx hne
  · obtain ⟨h1, r, he, hh1, -⟩ := pop_back_spec (E := E) hh hne
    exact ⟨h1, _, he, Or.inr ⟨B, hh1⟩⟩

theorem Holds.after_pop_front {h : Heap T} {d : Deque} {xs : List T} (hh : Holds h d xs)
    (hne : xs ≠ []) :
    ∃ h1 d1, pop_front (E := E) h d = Res.ok h1 d1 ∧ Holds h1 d1 xs.tail := by
  rcases hh with ⟨-, -, -, -, -, hx⟩ | ⟨B, hh⟩
  · exact absurd hx hne
  · cases xs with
    | nil => exact absurd rfl hne
    | cons v t =>
      obtain ⟨h1, r, he, hh1, -⟩ := pop_front_spec (E := E) hh
      exact ⟨h1, _, he, Or.inr ⟨B + 1, hh1⟩⟩

theorem run_ops_spec (ops : List (Op T)) :
    ∀ (h : Heap T) (d : Deque) (xs : List T), Holds h d xs → pops_ok ops xs →
      ∃ h1 d1, run_ops (E := E) ops h d = Res.ok h1 d1 ∧ Holds h1 d1 (ref_ops ops xs) := by
  induction ops with
  | nil => intro h d xs hh _; exact ⟨h, d, rfl, hh⟩
  | cons op rest ih =>
    intro h d xs hh hok
    obtain ⟨hpop, hrest⟩ := hok
    have step : ∃ h1 d1, op.run (E := E) h d = Res.ok h1 d1 ∧ Holds h1 d1 (op.ref xs) := by
      cases op with
      | push_back v => exact hh.after_emplace_back v
      | push_front v => exact hh.after_emplace_front v
      | pop_back => exact hh.after_pop_back (hpop rfl)
      | pop_front => exact hh.after_pop_front (hpop rfl)
    obtain ⟨h1, d1, he, hh1⟩ := step
    obtain ⟨h2, d2, he2, hh2⟩ := ih h1 d1 _ hh1 hrest
    exact ⟨h2, d2, by simp only [run_ops, he, he2], hh2⟩

/-! ## `emplace` and `erase` inside the sequence -/

theorem operator_plus_eq (it : BaseIterator) (d : Int) :
    operator_plus it d = operator_plus_assign it d := by
  cases it; rfl

theorem operator_minus_eq (it : BaseIterator) (d : Int) :
    operator_minus it d = operator_plus_assign it (toInt32 (-toInt32 d)) := by
  cases it; rfl

theorem operator_plus_one (L : Int) : operator_plus (ofLin L) 1 = ofLin (L + 1) := by
  rw [operator_plus_eq]
  exact operator_plus_assign_ofLin L 1 (by omega) (by omega) (by intro _; omega) (by intro h; omega)

theorem operator_minus_one (L : Int) : operator_minus (ofLin L) 1 = ofLin (L - 1) := by
  rw [operator_minus_eq, show toInt32 (-toInt32 1) = -1 by decide]
  exact operator_plus_assign_ofLin L (-1) (by omega) (by omega) (by intro h; omega)
    (by intro _; omega)

theorem copy_assign_cell {h : Heap T} {data : List (Option Nat)} (hm : MapOk h data)
    {S D : Int} {c c0 : Option T} (hsrc : cell h data S = some c)
    (hdst : cell h data D = some c0) :
    ∃ rs rd h1, elem_ptr data (ofLin S) = .ok rs ∧ elem_ptr data (ofLin D) = .ok rd ∧
      h.copy_assign rd rs = .ok h1 ∧ MapOk h1 data ∧ h1.next = h.next ∧ h1.log = h.log ∧
      ∀ M, cell h1 data M = if M = D then some c else cell h data M := by
  obtain ⟨rs, hrs, hload⟩ := cell_load hsrc
  obtain ⟨rd, h1, hrd, hst, hm1, hn, hl, -, hcell⟩ := store_cell hm hdst c
  exact ⟨rs, rd, h1, hrs, hrd, by simp [Heap.copy_assign, hload, hst], hm1, hn, hl, hcell⟩

/-- The shifting loop of `emplace`: every cell in `(P, P + m]` receives the content of
its predecessor. -/
theorem emplace_shift_spec (data : List (Option Nat)) (P : Int) :
    ∀ (m fuel : Nat) (h : Heap T), MapOk h data → m < fuel →
      (∀ j : Nat, j ≤ m → ∃ c, cell h data (P + j) = some c) →
      ∃ h1, emplace_shift data (ofLin P) fuel h (ofLin (P + m)) = .ok h1 ∧ MapOk h1 data ∧
        h1.next = h.next ∧ h1.log = h.log ∧
        ∀ M, cell h1 data M = if P < M ∧ M ≤ P + m then cell h data (M - 1) else cell h data M := by
  intro m
  induction m with
  | zero =>
    intro fuel h hm hf _
    obtain ⟨f, rfl⟩ : ∃ f, fuel = f + 1 := ⟨fuel - 1, by omega⟩
    refine ⟨h, ?_, hm, rfl, rfl, ?_⟩
    · simp [emplace_shift, operator_ne_self]
    · intro M
      rw [if_neg]; push_cast; omega
  | succ m ih =>
    intro fuel h hm hf hmapped
    obtain ⟨f, rfl⟩ : ∃ f, fuel = f + 1 := ⟨fuel - 1, by omega⟩
    obtain ⟨c, hc⟩ := hmapped m (by omega)
    obtain ⟨c0, hc0⟩ := hmapped (m + 1) (by omega)
    obtain ⟨rs, rd, h1, hrs, hrd, hca, hm1, hn1, hl1, hcell1⟩ := copy_assign_cell hm hc hc0
    have hne : operator_ne (ofLin (P + ((m + 1 : Nat) : Int))) (ofLin P) = true := by
      rw [operator_ne_ofLin]; push_cast; omega
    have hsrc : operator_minus (ofLin (P + ((m + 1 : Nat) : Int))) 1 = ofLin (P + m) := by
      rw [operator_minus_one]; congr 1; push_cast; ring
    have hdec : operator_dec (ofLin (P + ((m + 1 : Nat) : Int))) = ofLin (P + m) := by
      rw [operator_dec_ofLin]; congr 1; push_cast; ring
    obtain ⟨h2, he2, hm2, hn2, hl2, hcell2⟩ := ih f h1 hm1 (by omega) (by
      intro j hj
      obtain ⟨cj, hcj⟩ := hmapped j (by omega)
      refine ⟨cj, ?_⟩
      rw [hcell1]
      have : P + (j : Int) ≠ P + ((m + 1 : Nat) : Int) := by push_cast; omega
      simp only [this, if_false, hcj])
    refine ⟨h2, ?_, hm2, by rw [hn2, hn1], by rw [hl2, hl1], ?_⟩
    · simp only [emplace_shift, hne, if_true, hsrc, hrs, hrd, hca, hdec, he2]
    · intro M
      rw [hcell2]
      by_cases h1M : P < M ∧ M ≤ P + m
      · have h2M : P < M ∧ M ≤ P + ((m + 1 : Nat) : Int) := by push_cast; omega
        rw [if_pos h1M, if_pos h2M, hcell1]
        have : M - 1 ≠ P + ((m + 1 : Nat) : Int) := by push_cast; omega
        simp only [this, if_false]
      · rw [if_neg h1M, hcell1]
        by_cases e : M = P + ((m + 1 : Nat) : Int)
        · have h2M : P < M ∧ M ≤ P + ((m + 1 : Nat) : Int) := by push_cast at e ⊢; omega
          rw [if_pos e, if_pos h2M, ← hc]
          congr 1; rw [e]; push_cast; ring
        · have h2M : ¬ (P < M ∧ M ≤ P + ((m + 1 : Nat) : Int)) := by push_cast at e ⊢; omega
          rw [if_neg e, if_neg h2M]

/-- The shifting loop of `erase` when the slot at `end()` is mapped: every cell in
`[E - m, E)` receives the content of its successor. -/
theorem erase_loop_spec (d : Deque) (E : Int) (hE : d.end_ = ofLin E) :
    ∀ (m fuel : Nat) (h : Heap T), MapOk h d.data_ → m < fuel →
      (∀ j : Nat, j ≤ m → ∃ c, cell h d.data_ (E - j) = some c) →
      ∃ h1, erase_loop d fuel h (ofLin (E - m)) = .ok h1 ∧ MapOk h1 d.data_ ∧
        h1.next = h.next ∧ h1.log = h.log ∧
        ∀ M, cell h1 d.data_ M =
          if E - m ≤ M ∧ M < E then cell h d.data_ (M + 1) else cell h d.data_ M := by
  intro m
  induction m with
  | zero =>
    intro fuel h hm hf _
    obtain ⟨f, rfl⟩ : ∃ f, fuel = f + 1 := ⟨fuel - 1, by omega⟩
    refine ⟨h, ?_, hm, rfl, rfl, ?_⟩
    · simp [erase_loop, Deque.end, hE, operator_ne_self]
    · intro M
      rw [if_neg]; push_cast; omega
  | succ m ih =>
    intro fuel h hm hf hmapped
    obtain ⟨f, rfl⟩ : ∃ f, fuel = f + 1 := ⟨fuel - 1, by omega⟩
    obtain ⟨c, hc⟩ := hmapped m (by omega)
    obtain ⟨c0, hc0⟩ := hmapped (m + 1) (by omega)
    obtain ⟨rs, rd, h1, hrs, hrd, hca, hm1, hn1, hl1, hcell1⟩ := copy_assign_cell hm hc hc0
    have hne : operator_ne (ofLin (E - ((m + 1 : Nat) : Int))) d.end = true := by
      rw [Deque.end, hE, operator_ne_ofLin]; push_cast; omega
    have hsrc : operator_plus (ofLin (E - ((m + 1 : Nat) : Int))) 1 = ofLin (E - m) := by
      rw [operator_plus_one]; congr 1; push_cast; ring
    have hinc : operator_inc (ofLin (E - ((m + 1 : Nat) : Int))) = ofLin (E - m) := by
      rw [operator_inc_ofLin]; congr 1; push_cast; ring
    obtain ⟨h2, he2, hm2, hn2, hl2, hcell2⟩ := ih f h1 hm1 (by omega) (by
      intro j hj
      obtain ⟨cj, hcj⟩ := hmapped j (by omega)
      refine ⟨cj, ?_⟩
      rw [hcell1]
      have : E - (j : Int) ≠ E - ((m + 1 : Nat) : Int) := by push_cast; omega
      simp only [this, if_false, hcj])
    refine ⟨h2, ?_, hm2, by rw [hn2, hn1], by rw [hl2, hl1], ?_⟩
    · simp only [erase_loop, hne, if_true, hsrc, hrs, hrd, hca, hinc, he2]
    · intro M
      rw [hcell2]
      by_cases h1M : E - m ≤ M ∧ M < E
      · have h2M : E - ((m + 1 : Nat) : Int) ≤ M ∧ M < E := by push_cast; omega
        rw [if_pos h1M, if_pos h2M, hcell1]
        have : M + 1 ≠ E - ((m + 1 : Nat) : Int) := by push_cast; omega
        simp only [this, if_false]
      · rw [if_neg h1M, hcell1]
        by_cases e : M = E - ((m + 1 : Nat) : Int)
        · have h2M : E - ((m + 1 : Nat) : Int) ≤ M ∧ M < E := by push_cast at e ⊢; omega
          rw [if_pos e, if_pos h2M, ← hc]
          congr 1; rw [e]; push_cast; ring
        · have h2M : ¬ (E - ((m + 1 : Nat) : Int) ≤ M ∧ M < E) := by push_cast at e ⊢; omega
          rw [if_neg e, if_neg h2M]

/-- The loop of `erase` when the slot at `end()` is not mapped: the last iteration
dereferences `end()` and the loop does not return. -/
theorem erase_loop_fault (d : Deque) (E : Int) (hE : d.end_ = ofLin E) :
    ∀ (m fuel : Nat) (h : Heap T), MapOk h d.data_ → m + 1 < fuel →
      bucket_at d.data_ (E / 60) = none →
      (∀ j : Nat, 1 ≤ j → j ≤ m + 1 → ∃ c, cell h d.data_ (E - j) = some c) →
      ∃ f, erase_loop d fuel h (ofLin (E - ((m + 1 : Nat) : Int))) = .error f ∧
        (f = Fault.null_bucket ∨ f = Fault.map_range) := by
  intro m
  induction m with
  | zero =>
    intro fuel h hm hf hnone _
    obtain ⟨f, rfl⟩ : ∃ f, fuel = f + 1 := ⟨fuel - 1, by omega⟩
    have hne : operator_ne (ofLin (E - ((0 + 1 : Nat) : Int))) d.end = true := by
      rw [Deque.end, hE, operator_ne_ofLin]; push_cast; omega
    have hsrc : operator_plus (ofLin (E - ((0 + 1 : Nat) : Int))) 1 = ofLin E := by
      rw [operator_plus_one]; congr 1; push_cast; ring
    have hptr := elem_ptr_ofLin d.data_ E
    rw [hnone] at hptr
    simp only at hptr
    by_cases hr : 0 ≤ E / 60 ∧ E / 60 < d.data_.length
    · rw [if_pos hr] at hptr
      exact ⟨_, by simp only [erase_loop, hne, if_true, hsrc, hptr], Or.inl rfl⟩
    · rw [if_neg hr] at hptr
      exact ⟨_, by simp only [erase_loop, hne, if_true, hsrc, hptr], Or.inr rfl⟩
  | succ m ih =>
    intro fuel h hm hf hnone hmapped
    obtain ⟨f, rfl⟩ : ∃ f, fuel = f + 1 := ⟨fuel - 1, by omega⟩
    obtain ⟨c, hc⟩ := hmapped (m + 1) (by omega) (by omega)
    obtain ⟨c0, hc0⟩ := hmapped (m + 1 + 1) (by omega) (by omega)
    obtain ⟨rs, rd, h1, hrs, hrd, hca, hm1, hn1, hl1, hcell1⟩ := copy_assign_cell hm hc hc0
    have hne : operator_ne (ofLin (E - ((m + 1 + 1 : Nat) : Int))) d.end = true := by
      rw [Deque.end, hE, operator_ne_ofLin]; push_cast; omega
    have hsrc : operator_plus (ofLin (E - ((m + 1 + 1 : Nat) : Int))) 1
        = ofLin (E - ((m + 1 : Nat) : Int)) := by
      rw [operator_plus_one]; congr 1; push_cast; ring
    have hinc : operator_inc (ofLin (E - ((m + 1 + 1 : Nat) : Int)))
        = ofLin (E - ((m + 1 : Nat) : Int)) := by
      rw [operator_inc_ofLin]; congr 1; push_cast; ring
    obtain ⟨flt, he2, hflt⟩ := ih f h1 hm1 (by omega) hnone (by
      intro j hj1 hj
      obtain ⟨cj, hcj⟩ := hmapped j hj1 (by omega)
      refine ⟨cj, ?_⟩
      rw [hcell1]
      have : E - (j : Int) ≠ E - ((m + 1 + 1 : Nat) : Int) := by push_cast; omega
      simp only [this, if_false, hcj])
    exact ⟨flt, by simp only [erase_loop, hne, if_true, hsrc, hrs, hrd, hca, hinc, he2], hflt⟩

/-! ## `emplace` and `erase` on a container that holds a list -/

theorem operator_eq_false_iff (x y : BaseIterator) : operator_eq x y = false ↔ x ≠ y := by
  constructor
  · intro hf e
    rw [(operator_eq_iff x y).mpr e] at hf
    cases hf
  · intro hne
    cases hv : operator_eq x y with
    | false => rfl
    | true => exact absurd ((operator_eq_iff x y).mp hv) hne

theorem exists_getElem? (xs : List T) (k : Nat) (hk : k < xs.length) :
    ∃ w, xs[k]? = some w :=
  ⟨xs.get ⟨k, hk⟩, List.getElem?_eq_getElem hk⟩

theorem getElem?_insert_shift (xs : List T) (i : Nat) (hi : i < xs.length) (v : T) (k : Nat) :
    (xs.take i ++ v :: (xs.drop i).dropLast)[k]? =
      if k < i then xs[k]? else if k = i then some v
      else if k < xs.length then xs[k - 1]? else none := by
  rw [List.getElem?_append]
  simp only [List.length_take, Nat.min_eq_left (Nat.le_of_lt hi)]
  by_cases h1 : k < i
  · simp [h1, List.getElem?_take]
  · simp only [h1, if_false]
    by_cases h2 : k = i
    · subst h2; simp
    · obtain ⟨j, hj⟩ : ∃ j, k - i = j + 1 := ⟨k - i - 1, by omega⟩
      simp only [h2, if_false, hj, List.getElem?_cons_succ, List.dropLast_eq_take,
        List.getElem?_take, List.length_drop, List.getElem?_drop]
      by_cases h3 : k < xs.length
      · have : j < xs.length - i - 1 := by omega
        simp [h3, this]
        congr 1; omega
      · have : ¬ j < xs.length - i - 1 := by omega
        simp [h3, this]

theorem insert_shift_append (xs : List T) (i : Nat) (hi : i < xs.length) (v l : T)
    (hl : xs.getLast? = some l) :
    (xs.take i ++ v :: (xs.drop i).dropLast) ++ [l] = xs.take i ++ v :: xs.drop i := by
  have : (xs.drop i).getLast? = some l := by
    rw [List.getLast?_drop, if_neg (by omega), hl]
  rw [List.append_assoc, List.cons_append, List.dropLast_append_getLast? l this]

/-- Removing the last cell of a container whose first `size_ - 1` cells hold `ys`,
whatever the last cell holds. -/
theorem pop_back_gen {h : Heap T} {d : Deque} {ys : List T} {B : Int}
    (hc : HoldsCore h d.data_ ys B) (hsz : d.size_ = ys.length + 1) (hb : d.begin_ = ofLin B)
    (he : d.end_ = ofLin (B + ys.length + 1)) {c : Option T}
    (hlast : cell h d.data_ (B + ys.length) = some c) :
    ∃ h1 r, pop_back (E := E) h d =
        Res.ok h1 { d with end_ := operator_dec d.end_, size_ := size_dec d.size_ } ∧
      HoldsAt h1 { d with end_ := operator_dec d.end_, size_ := size_dec d.size_ } ys B ∧
      h1.next = h.next ∧ h1.log = Event.destroy d.allocator_ r c :: h.log := by
  obtain ⟨r, h1, hr, hdes, hm1, hn, hl, -, hcell⟩ := destroy_cell hc.map_ok hlast d.allocator_
  have hdec : operator_dec d.end_ = ofLin (B + ys.length) := by
    rw [he, operator_dec_ofLin]; congr 1; ring
  refine ⟨h1, r, ?_, ⟨⟨hm1, hc.B_nonneg, hc.end_le, hc.map_ne, ?_, ?_⟩, ?_, hb, hdec⟩, hn, hl⟩
  · rw [← hdec] at hr
    simp only [pop_back, hr, hdes]
  · intro k w hk
    have hk1 : k < ys.length := (List.getElem?_eq_some.mp hk).1
    rw [hcell]
    have : B + (k : Int) ≠ B + ys.length := by omega
    simp only [this, if_false]
    exact hc.live k w hk
  · intro _
    exact ⟨none, by rw [hcell]; simp⟩
  · simp only [hsz, size_dec]
    rw [if_neg (by omega)]; omega

/-- Inserting strictly inside the sequence shifts the tail by one slot, evaluates the
constructor arguments in the heap `h1` the shift leaves, and appends the saved last
element. -/
theorem emplace_middle {h : Heap T} {d : Deque} {xs : List T} {B : Int}
    (hh : HoldsAt h d xs B) (i : Nat) (hi0 : 0 < i) (hin : i < xs.length) :
    ∃ h1 : Heap T,
      (∀ M : Int, cell h1 d.data_ M =
        if B + i < M ∧ M ≤ B + i + ((xs.length - 1 - i : Nat) : Int)
        then cell h d.data_ (M - 1) else cell h d.data_ M) ∧
      ∀ c : Heap T → Except Fault (Except E T),
        (∀ f, c h1 = .error f → emplace c h d (ofLin (B + i)) = Res.fault f) ∧
        (∀ e, c h1 = .ok (.error e) → emplace c h d (ofLin (B + i)) = Res.throw e h1 d) ∧
        (∀ v, c h1 = .ok (.ok v) →
          ∃ h2 d2 B2, emplace c h d (ofLin (B + i)) = Res.ok h2 d2 ∧
            HoldsAt h2 d2 (xs.take i ++ v :: xs.drop i) B2) := by
  have hbeg : operator_eq (ofLin (B + i)) d.begin = false := by
    rw [operator_eq_false_iff, Deque.begin, hh.begin_eq]
    intro e; have := ofLin_inj e; omega
  have hend : operator_eq (ofLin (B + i)) d.end = false := by
    rw [operator_eq_false_iff, Deque.end, hh.end_eq]
    intro e; have := ofLin_inj e; omega
  obtain ⟨l, hl⟩ := exists_getElem? xs (xs.length - 1) (by omega)
  have hlast : xs.getLast? = some l := by rw [List.getLast?_eq_getElem?]; exact hl
  have hcl := hh.live _ l hl
  have e1 : B + ((xs.length - 1 : Nat) : Int) = B + xs.length - 1 := by omega
  rw [e1] at hcl
  obtain ⟨rt, hrt, hread⟩ := cell_read hcl
  have hdec : operator_dec d.end = ofLin (B + xs.length - 1) := by
    rw [Deque.end, hh.end_eq, operator_dec_ofLin]
  have hstart : operator_minus d.end 1 = ofLin (B + i + ((xs.length - 1 - i : Nat) : Int)) := by
    rw [Deque.end, hh.end_eq, operator_minus_one]; congr 1; omega
  have hmapped : ∀ j : Nat, j ≤ xs.length - 1 - i →
      ∃ c, cell h d.data_ (B + i + j) = some c := by
    intro j hj
    obtain ⟨w, hw⟩ := exists_getElem? xs (i + j) (by omega)
    refine ⟨some w, ?_⟩
    have := hh.live _ w hw
    rw [show B + ((i + j : Nat) : Int) = B + i + j by push_cast; ring] at this
    exact this
  obtain ⟨h1, hshift, hm1, hn1, hl1, hcell1⟩ := emplace_shift_spec d.data_ (B + i)
    (xs.length - 1 - i) (walk_bound d.data_) h hh.map_ok
    (by have := walk_bound_gt hh; omega) hmapped
  refine ⟨h1, hcell1, fun c => ⟨?_, ?_, ?_⟩⟩
  · intro f hc
    simp only [emplace, hbeg, hend, Bool.false_eq_true, if_false, hdec, hrt, hread, hstart,
      hshift, hc]
  · intro e hc
    simp only [emplace, hbeg, hend, Bool.false_eq_true, if_false, hdec, hrt, hread, hstart,
      hshift, hc]
  intro v hc
  obtain ⟨ci, hci⟩ : ∃ c, cell h1 d.data_ (B + i) = some c := by
    obtain ⟨c, hc⟩ := hmapped 0 (by omega)
    refine ⟨c, ?_⟩
    rw [hcell1, if_neg (by omega)]
    simpa using hc
  obtain ⟨ri, h2, hri, hst, hm2, hn2, hl2, -, hcell2⟩ := store_cell hm1 hci (some v)
  have hlen : (xs.take i ++ v :: (xs.drop i).dropLast).length = xs.length := by
    simp only [List.length_append, List.length_take, List.length_cons, List.length_dropLast,
      List.length_drop]
    omega
  have hh2 : HoldsAt h2 d (xs.take i ++ v :: (xs.drop i).dropLast) B := by
    refine ⟨⟨hm2, hh.B_nonneg, by rw [hlen]; exact hh.end_le, hh.map_ne, ?_, ?_⟩,
      by rw [hlen]; exact hh.size_eq, hh.begin_eq, by rw [hlen]; exact hh.end_eq⟩
    · intro k w hk
      rw [getElem?_insert_shift xs i hin v k] at hk
      rw [hcell2]
      by_cases h1k : k < i
      · rw [if_pos h1k] at hk
        have : B + (k : Int) ≠ B + i := by omega
        rw [if_neg this, hcell1, if_neg (by omega)]
        exact hh.live k w hk
      · rw [if_neg h1k] at hk
        by_cases h2k : k = i
        · subst h2k
          simp only [if_true, Option.some.injEq] at hk
          subst hk
          simp
        · rw [if_neg h2k] at hk
          have : B + (k : Int) ≠ B + i := by omega
          rw [if_neg this, hcell1]
          by_cases h3k : k < xs.length
          · rw [if_pos h3k] at hk
            rw [if_pos (by omega)]
            have := hh.live (k - 1) w hk
            rw [show B + ((k - 1 : Nat) : Int) = B + k - 1 by omega] at this
            exact this
          · rw [if_neg h3k] at hk; cases hk
    · intro hne
      rw [hlen] at hne ⊢
      obtain ⟨c, hc⟩ := hh.end_mapped hne
      refine ⟨c, ?_⟩
      rw [hcell2, if_neg (by omega), hcell1, if_neg (by omega)]
      exact hc
  obtain ⟨h3, d3, B3, heb, hh3, -⟩ := emplace_back_ok (E := E) (Or.inr ⟨B, hh2⟩) l
  rw [insert_shift_append xs i hin v l hlast] at hh3
  refine ⟨h3, d3, B3, ?_, hh3⟩
  simp only [emplace, hbeg, hend, Bool.false_eq_true, if_false, hdec, hrt, hread, hstart, hshift,
    hc, hri, Heap.assign, hst, heb]

/-- Inserting at the position of index `i ≤ size()` when the constructor arguments
yield `v` in the heap of the call and, for a position strictly inside the sequence, in
the heap the shift of the tail leaves. -/
theorem Holds.after_emplace_of {h : Heap T} {d : Deque} {xs : List T} (hh : Holds h d xs)
    (i : Nat) (hi : i ≤ xs.length) (c : Heap T → Except Fault (Except E T)) (v : T)
    (hc0 : c h = .ok (.ok v))
    (hc1 : ∀ (B : Int) (h1 : Heap T), HoldsAt h d xs B → 0 < i → i < xs.length →
      (∀ M : Int, cell h1 d.data_ M =
        if B + i < M ∧ M ≤ B + i + ((xs.length - 1 - i : Nat) : Int)
        then cell h d.data_ (M - 1) else cell h d.data_ M) →
      c h1 = .ok (.ok v)) :
    ∃ h2 d2, emplace c h d (Nat.iterate operator_inc i d.begin_) = Res.ok h2 d2 ∧
      Holds h2 d2 (xs.take i ++ v :: xs.drop i) := by
  by_cases hi0 : i = 0
  · subst hi0
    obtain ⟨h2, d2, he, hh2⟩ := hh.after_emplace_front (E := E) v
    refine ⟨h2, d2, ?_, by simpa using hh2⟩
    have : operator_eq d.begin_ d.begin = true := (operator_eq_iff _ _).mpr rfl
    simp only [Function.iterate_zero, id_eq, emplace, this, if_true, hc0, he]
  · rcases hh with ⟨-, -, -, -, -, hx⟩ | ⟨B, hh⟩
    · subst hx; simp at hi; exact absurd hi hi0
    · have hpos : Nat.iterate operator_inc i d.begin_ = ofLin (B + i) := by
        rw [hh.begin_eq, iterate_inc_ofLin]
      rw [hpos]
      by_cases hin : i = xs.length
      · subst hin
        obtain ⟨h2, d2, he, hh2⟩ := Holds.after_emplace_back (E := E) (Or.inr ⟨B, hh⟩) v
        refine ⟨h2, d2, ?_, by simpa using hh2⟩
        have hb : operator_eq (ofLin (B + xs.length)) d.begin = false := by
          rw [operator_eq_false_iff, Deque.begin, hh.begin_eq]
          intro e; have := ofLin_inj e; omega
        have hen : operator_eq (ofLin (B + xs.length)) d.end = true := by
          rw [operator_eq_iff, Deque.end, hh.end_eq]
        simp only [emplace, hb, hen, Bool.false_eq_true, if_false, if_true, hc0, he]
      · obtain ⟨h1, hcell, hm⟩ := emplace_middle hh i (by omega) (by omega)
        obtain ⟨h2, d2, B2, he, hh2⟩ :=
          (hm c).2.2 v (hc1 B h1 hh (by omega) (by omega) hcell)
        exact ⟨h2, d2, he, Or.inr ⟨B2, hh2⟩⟩

/-- Inserting at the position of index `i ≤ size()` a value that the constructor
arguments yield whenever they are evaluated. -/
theorem Holds.after_emplace {h : Heap T} {d : Deque} {xs : List T} (hh : Holds h d xs)
    (i : Nat) (hi : i ≤ xs.length) (c : Heap T → Except Fault (Except E T)) (v : T)
    (hc : ∀ h1, c h1 = .ok (.ok v)) :
    ∃ h2 d2, emplace c h d (Nat.iterate operator_inc i d.begin_) = Res.ok h2 d2 ∧
      Holds h2 d2 (xs.take i ++ v :: xs.drop i) :=
  hh.after_emplace_of i hi c v (hc h) (fun _ h1 _ _ _ _ => hc h1)

/-- Erasing at index `i` when the slot at `end()` lies in a mapped bucket. -/
theorem erase_ok {h : Heap T} {d : Deque} {xs : List T} {B : Int} (hh : HoldsAt h d xs B)
    (i : Nat) (hin : i < xs.length) {c : Option T}
    (hend : cell h d.data_ (B + xs.length) = some c) :
    ∃ h2 d2, erase (E := E) h d (ofLin (B + i)) = Res.ok h2 d2 ∧
      HoldsAt h2 d2 (xs.eraseIdx i) B := by
  have hstart : ofLin (B + i) = ofLin (B + xs.length - ((xs.length - i : Nat) : Int)) := by
    congr 1; omega
  have hmapped : ∀ j : Nat, j ≤ xs.length - i →
      ∃ c, cell h d.data_ (B + xs.length - j) = some c := by
    intro j hj
    by_cases hj0 : j = 0
    · subst hj0; exact ⟨c, by simpa using hend⟩
    · obtain ⟨w, hw⟩ := exists_getElem? xs (xs.length - j) (by omega)
      refine ⟨some w, ?_⟩
      have := hh.live _ w hw
      rw [show B + ((xs.length - j : Nat) : Int) = B + xs.length - j by omega] at this
      exact this
  obtain ⟨h1, hloop, hm1, hn1, hl1, hcell1⟩ := erase_loop_spec d (B + xs.length) hh.end_eq
    (xs.length - i) (walk_bound d.data_) h hh.map_ok
    (by have := walk_bound_gt hh; omega) hmapped
  have hlen : (xs.eraseIdx i).length = xs.length - 1 := by
    rw [List.length_eraseIdx, if_pos hin]
  have hcore : HoldsCore h1 d.data_ (xs.eraseIdx i) B := by
    refine ⟨hm1, hh.B_nonneg, ?_, hh.map_ne, ?_, ?_⟩
    · have := hh.end_le; rw [hlen]; omega
    · intro k w hk
      have hk1 : k < xs.length - 1 := by
        have := (List.getElem?_eq_some.mp hk).1
        rwa [hlen] at this
      rw [List.getElem?_eraseIdx] at hk
      rw [hcell1]
      by_cases hki : k < i
      · rw [if_pos hki] at hk
        rw [if_neg (by omega)]
        exact hh.live k w hk
      · rw [if_neg hki] at hk
        rw [if_pos (by omega)]
        have := hh.live (k + 1) w hk
        rw [show B + ((k + 1 : Nat) : Int) = B + k + 1 by push_cast; ring] at this
        exact this
    · intro _
      refine ⟨c, ?_⟩
      rw [hcell1, hlen, if_pos (by omega), ← hend]
      congr 1; omega
  have hlastc : cell h1 d.data_ (B + (xs.eraseIdx i).length) = some c := by
    rw [hcell1, hlen, if_pos (by omega), ← hend]
    congr 1; omega
  obtain ⟨h2, r, hpop, hh2, -⟩ := pop_back_gen (E := E) hcore
    (by rw [hh.size_eq, hlen]; omega) hh.begin_eq
    (by rw [hh.end_eq, hlen]; congr 1; omega) hlastc
  refine ⟨h2, _, ?_, hh2⟩
  rw [hstart]
  simp only [erase, hloop, hpop]

/-- Erasing when the slot at `end()` is in no bucket of the map: the loop of `erase`
dereferences `end()`, which is undefined. -/
theorem erase_fault {h : Heap T} {d : Deque} {xs : List T} {B : Int} (hh : HoldsAt h d xs B)
    (i : Nat) (hin : i < xs.length)
    (hend : bucket_at d.data_ ((B + xs.length) / 60) = none) :
    ∃ f, erase (E := E) h d (ofLin (B + i)) = Res.fault f ∧
      (f = Fault.null_bucket ∨ f = Fault.map_range) := by
  have hstart : ofLin (B + i) = ofLin (B + xs.length - ((xs.length - i - 1 + 1 : Nat) : Int)) := by
    congr 1; omega
  obtain ⟨f, hf, hcase⟩ := erase_loop_fault d (B + xs.length) hh.end_eq (xs.length - i - 1)
    (walk_bound d.data_) h hh.map_ok (by have := walk_bound_gt hh; omega) hend (by
      intro j hj1 hj
      obtain ⟨w, hw⟩ := exists_getElem? xs (xs.length - j) (by omega)
      refine ⟨some w, ?_⟩
      have := hh.live _ w hw
      rw [show B + ((xs.length - j : Nat) : Int) = B + xs.length - j by omega] at this
      exact this)
  refine ⟨f, ?_, hcase⟩
  rw [hstart]
  simp only [erase, hf]

/-! ## Every reachable state holds a list -/

theorem emplace_back_error_ne_ok (e : E) (h h1 : Heap T) (d d1 : Deque) :
    emplace_back (.error e) h d ≠ Res.ok h1 d1 := by
  unfold emplace_back
  intro heq
  split at heq
  · cases heq
  · split at heq
    · cases heq
    · cases heq

theorem emplace_front_error_ne_ok (e : E) (h h1 : Heap T) (d d1 : Deque) :
    emplace_front (.error e) h d ≠ Res.ok h1 d1 := by
  unfold emplace_front
  intro heq
  split at heq
  · cases heq
  · split at heq
    · cases heq
    · cases heq

/-- An `emplace` within the contract that returns normally inserted a value at its
position. -/
theorem Holds.emplace_inv {h h1 : Heap T} {d d1 : Deque} {xs : List T} (hh : Holds h d xs)
    (c : Heap T → Except Fault (Except E T)) (i : Nat) (hi : i ≤ xs.length)
    (he : emplace c h d (Nat.iterate operator_inc i d.begin_) = Res.ok h1 d1) :
    ∃ v, Holds h1 d1 (xs.take i ++ v :: xs.drop i) := by
  by_cases hi0 : i = 0
  · subst hi0
    have hq : operator_eq d.begin_ d.begin = true := (operator_eq_iff _ _).mpr rfl
    simp only [Function.iterate_zero, id_eq, emplace, hq, if_true] at he
    cases hch : c h with
    | error f => rw [hch] at he; cases he
    | ok o =>
      rw [hch] at he
      cases o with
      | error e => exact absurd he (emplace_front_error_ne_ok e _ _ _ _)
      | ok v =>
        obtain ⟨h2, d2, he2, hh2⟩ := hh.after_emplace_front (E := E) v
        simp only at he
        rw [he2] at he; cases he
        exact ⟨v, by simpa using hh2⟩
  · rcases hh with ⟨-, -, -, -, -, hx⟩ | ⟨B, hh⟩
    · subst hx; simp at hi; exact absurd hi hi0
    · have hpos : Nat.iterate operator_inc i d.begin_ = ofLin (B + i) := by
        rw [hh.begin_eq, iterate_inc_ofLin]
      rw [hpos] at he
      by_cases hin : i = xs.length
      · subst hin
        have hb : operator_eq (ofLin (B + xs.length)) d.begin = false := by
          rw [operator_eq_false_iff, Deque.begin, hh.begin_eq]
          intro e; have := ofLin_inj e; omega
        have hen : operator_eq (ofLin (B + xs.length)) d.end = true := by
          rw [operator_eq_iff, Deque.end, hh.end_eq]
        simp only [emplace, hb, hen, Bool.false_eq_true, if_false, if_true] at he
        cases hch : c h with
        | error f => rw [hch] at he; cases he
        | ok o =>
          rw [hch] at he
          cases o with
          | error e => exact absurd he (emplace_back_error_ne_ok e _ _ _ _)
          | ok v =>
            obtain ⟨h2, d2, he2, hh2⟩ := Holds.after_emplace_back (E := E) (Or.inr ⟨B, hh⟩) v
            simp only at he
            rw [he2] at he; cases he
            exact ⟨v, by simpa using hh2⟩
      · obtain ⟨h0, -, hm⟩ := emplace_middle hh i (by omega) (by omega)
        obtain ⟨hf, ht, hok⟩ := hm c
        cases hch : c h0 with
        | error f => rw [hf f hch] at he; cases he
        | ok o =>
          cases o with
          | error e => rw [ht e hch] at he; cases he
          | ok v =>
            obtain ⟨h2, d2, B2, he2, hh2⟩ := hok v hch
            rw [he2] at he; cases he
            exact ⟨v, Or.inr ⟨B2, hh2⟩⟩

theorem iterate_inc_default (i : Nat) :
    Nat.iterate operator_inc i BaseIterator.default = BaseIterator.default := by
  induction i with
  | zero => rfl
  | succ n ih => rw [Function.iterate_succ_apply, show operator_inc BaseIterator.default
      = BaseIterator.default from rfl, ih]

/-- Erasing at index `i < size()` either returns normally, leaving the list without
its `i`-th element, or stops in the dereference of `end()`. -/
theorem Holds.after_erase {h : Heap T} {d : Deque} {xs : List T} (hh : Holds h d xs)
    (i : Nat) (hi : i < xs.length) :
    (∃ h2 d2, erase (E := E) h d (Nat.iterate operator_inc i d.begin_) = Res.ok h2 d2 ∧
        Holds h2 d2 (xs.eraseIdx i)) ∨
      ∃ f, erase (E := E) h d (Nat.iterate operator_inc i d.begin_) = Res.fault f := by
  rcases hh with ⟨-, -, -, -, -, hx⟩ | ⟨B, hh⟩
  · subst hx; simp at hi
  · have hpos : Nat.iterate operator_inc i d.begin_ = ofLin (B + i) := by
      rw [hh.begin_eq, iterate_inc_ofLin]
    rw [hpos]
    cases hc : cell h d.data_ (B + xs.length) with
    | some c =>
      obtain ⟨h2, d2, he, hh2⟩ := erase_ok (E := E) hh i hi hc
      exact Or.inl ⟨h2, d2, he, Or.inr ⟨B, hh2⟩⟩
    | none =>
      have hb : bucket_at d.data_ ((B + xs.length) / 60) = none := by
        cases hb : bucket_at d.data_ ((B + xs.length) / 60) with
        | none => rfl
        | some p =>
          obtain ⟨b, hmb⟩ := hh.map_ok.alloc _ _ hb
          have := cell_some_iff.mpr ⟨p, b, hb, hmb, rfl⟩
          rw [hc] at this; cases this
      obtain ⟨f, hf, -⟩ := erase_fault (E := E) hh i hi hb
      exact Or.inr ⟨f, hf⟩

/-- Every reachable state holds a list. -/
theorem Reachable.holds {h : Heap T} {d : Deque} (hr : Reachable h d) :
    ∃ xs : List T, Holds h d xs := by
  induction hr with
  | init h alloc hf => exact ⟨[], Holds.of_init h alloc hf⟩
  | emplace_back c _ hs ih =>
    obtain ⟨xs, hh⟩ := ih
    cases c with
    | error e => exact absurd hs (emplace_back_error_ne_ok e _ _ _ _)
    | ok v =>
      obtain ⟨h2, d2, he, hh2⟩ := hh.after_emplace_back v
      rw [he] at hs; cases hs
      exact ⟨_, hh2⟩
  | emplace_front c _ hs ih =>
    obtain ⟨xs, hh⟩ := ih
    cases c with
    | error e => exact absurd hs (emplace_front_error_ne_ok e _ _ _ _)
    | ok v =>
      obtain ⟨h2, d2, he, hh2⟩ := hh.after_emplace_front v
      rw [he] at hs; cases hs
      exact ⟨_, hh2⟩
  | pop_back _ hne hs ih =>
    obtain ⟨xs, hh⟩ := ih
    have hx : xs ≠ [] := by
      intro e; apply hne; rw [hh.size_eq_length, e]; rfl
    obtain ⟨h2, d2, he, hh2⟩ := hh.after_pop_back hx
    rw [he] at hs; cases hs
    exact ⟨_, hh2⟩
  | pop_front _ hne hs ih =>
    obtain ⟨xs, hh⟩ := ih
    have hx : xs ≠ [] := by
      intro e; apply hne; rw [hh.size_eq_length, e]; rfl
    obtain ⟨h2, d2, he, hh2⟩ := hh.after_pop_front hx
    rw [he] at hs; cases hs
    exact ⟨_, hh2⟩
  | emplace c i _ hi hs ih =>
    obtain ⟨xs, hh⟩ := ih
    obtain ⟨v, hh2⟩ := hh.emplace_inv c i (by rw [← hh.size_eq_length]; exact hi) hs
    exact ⟨_, hh2⟩
  | erase i _ hi hs ih =>
    obtain ⟨xs, hh⟩ := ih
    rcases hh.after_erase i (by rw [← hh.size_eq_length]; exact hi) with
      ⟨h2, d2, he, hh2⟩ | ⟨f, hf⟩
    · rw [he] at hs; cases hs
      exact ⟨_, hh2⟩
    · rw [hf] at hs; cases hs

/-! ## Filling a container -/

theorem outcomes_none (k : Nat) (vs : List T) :
    outcomes (E := E) (fun _ => none) k vs = vs.map Except.ok := by
  induction vs generalizing k with
  | nil => rfl
  | cons v t ih => simp [outcomes, outcome, ih]

theorem fill_ok (vs : List T) :
    ∀ (h : Heap T) (d : Deque) (xs : List T), Holds h d xs →
      ∃ h1 d1, fill (E := E) (vs.map Except.ok) h d = Res.ok h1 d1 ∧ Holds h1 d1 (xs ++ vs) := by
  induction vs with
  | nil => intro h d xs hh; exact ⟨h, d, rfl, by simpa using hh⟩
  | cons v t ih =>
    intro h d xs hh
    obtain ⟨h1, d1, he, hh1⟩ := hh.after_emplace_back (E := E) v
    obtain ⟨h2, d2, hf, hh2⟩ := ih h1 d1 _ hh1
    exact ⟨h2, d2, by simp only [List.map_cons, fill, he, hf], by simpa using hh2⟩

theorem run_push_backs (vs : List T) :
    ∀ (h : Heap T) (d : Deque) (xs : List T), Holds h d xs →
      ∃ h1 d1, run_ops (E := E) (vs.map Op.push_back) h d = Res.ok h1 d1 ∧
        Holds h1 d1 (xs ++ vs) := by
  induction vs with
  | nil => intro h d xs hh; exact ⟨h, d, rfl, by simpa using hh⟩
  | cons v t ih =>
    intro h d xs hh
    obtain ⟨h1, d1, he, hh1⟩ := hh.after_emplace_back (E := E) v
    obtain ⟨h2, d2, hf, hh2⟩ := ih h1 d1 _ hh1
    exact ⟨h2, d2, by simp only [List.map_cons, run_ops, Op.run, push_back, he, hf],
      by simpa using hh2⟩

/-! ## The offset of `begin_` under `push_back` -/

theorem allocate_data_begin {h h1 : Heap T} {d d1 : Deque} {it : BaseIterator}
    (he : allocate_data h d it = .ok (h1, d1)) : d1.begin_ = d.begin_ ∧ d1.data_ ≠ [] := by
  unfold allocate_data at he
  split at he
  · cases he
  · rename_i data hw
    cases he
    refine ⟨rfl, ?_⟩
    unfold slot_write at hw
    split at hw
    · cases hw
    · rename_i k hk
      cases hw
      unfold slot_index at hk
      split at hk
      · cases hk
      · split at hk
        · intro e
          have hl := congrArg List.length e
          rw [List.length_set, List.length_nil] at hl
          omega
        · cases hk

theorem prepare_back_begin {h h1 : Heap T} {d d1 : Deque}
    (he : prepare_back h d = .ok (h1, d1)) :
    (d.data_ = [] → d1.begin_ = { ind_j_ := 30, arr_ := some 0 }) ∧
      (d.data_ ≠ [] → d1.begin_.ind_j_ = d.begin_.ind_j_) := by
  by_cases hd : d.data_ = []
  · rw [prepare_back_default h d hd] at he
    cases he
    exact ⟨fun _ => rfl, fun hne => absurd hd hne⟩
  · refine ⟨fun e => absurd e hd, fun _ => ?_⟩
    unfold prepare_back at he
    split at he
    · rw [(allocate_data_begin he).1, reserve_nonempty d hd]
    · split at he
      · cases he
      · rw [(allocate_data_begin he).1]
      · cases he; rfl

theorem emplace_back_begin {h h1 : Heap T} {d d1 : Deque} {c : Except E T}
    (he : emplace_back c h d = Res.ok h1 d1) :
    (d.data_ = [] → d1.begin_ = { ind_j_ := 30, arr_ := some 0 }) ∧
      (d.data_ ≠ [] → d1.begin_.ind_j_ = d.begin_.ind_j_) := by
  unfold emplace_back at he
  split at he
  · cases he
  · rename_i h2 d2 hp
    have := prepare_back_begin hp
    split at he
    · cases he
    · split at he
      · cases he
      · split at he
        · cases he
        · cases he
          exact this

theorem run_ops_append (l1 l2 : List (Op T)) :
    ∀ (h0 : Heap T) (d0 : Deque) (h2 : Heap T) (d2 : Deque),
      run_ops (E := E) l1 h0 d0 = Res.ok h2 d2 →
      run_ops (E := E) (l1 ++ l2) h0 d0 = run_ops (E := E) l2 h2 d2 := by
  induction l1 with
  | nil => intro h0 d0 h2 d2 e; simp only [run_ops] at e; cases e; rfl
  | cons op rest ihl =>
    intro h0 d0 h2 d2 e
    cases hr0 : op.run (E := E) h0 d0 with
    | ok h3 d3 =>
      simp only [List.cons_append, run_ops, hr0] at e ⊢
      exact ihl h3 d3 h2 d2 e
    | throw e0 h3 d3 => simp only [run_ops, hr0] at e; cases e
    | fault f => simp only [run_ops, hr0] at e; cases e

/-- Pushing `n + 1` values at the back of a default-constructed container gives a
container that holds them and whose `begin_` has offset 30. -/
theorem push_backs_from_init (v : T) (alloc : Nat) (n : Nat) :
    ∃ h d, run_ops (E := E) (List.replicate (n + 1) (Op.push_back v)) Heap.empty
        (Deque.init alloc) = Res.ok h d ∧
      Holds h d (List.replicate (n + 1) v) ∧ d.begin_.ind_j_ = 30 ∧ d.data_ ≠ [] := by
  induction n with
  | zero =>
    obtain ⟨h, d, he, hh⟩ := (Holds.of_init (T := T) Heap.empty alloc
      (fun _ _ => rfl)).after_emplace_back (E := E) v
    refine ⟨h, d, by simp only [List.replicate, run_ops, Op.run, push_back, he], by simpa using hh,
      ?_, ?_⟩
    · rw [(emplace_back_begin he).1 rfl]
    · rcases hh with ⟨-, -, -, -, -, hx⟩ | ⟨B, hh⟩
      · simp at hx
      · exact hh.map_ne
  | succ n ih =>
    obtain ⟨h, d, hr, hh, hb, hne⟩ := ih
    obtain ⟨h1, d1, he, hh1⟩ := hh.after_emplace_back (E := E) v
    refine ⟨h1, d1, ?_, ?_, ?_, ?_⟩
    · have hsplit : List.replicate (n + 1 + 1) (Op.push_back v)
          = List.replicate (n + 1) (Op.push_back v) ++ [Op.push_back v] := by
        rw [List.replicate_succ' (n + 1)]
      rw [hsplit, run_ops_append _ _ _ _ _ _ hr]
      simp only [run_ops, Op.run, push_back, he]
    · have : List.replicate (n + 1 + 1) v = List.replicate (n + 1) v ++ [v] := by
        rw [List.replicate_succ' (n + 1)]
      rw [this]; exact hh1
    · rw [(emplace_back_begin he).2 hne, hb]
    · rcases hh1 with ⟨-, -, -, -, -, hx⟩ | ⟨B, hh1⟩
      · simp at hx
      · exact hh1.map_ne

/-! ## Positions whose offset is outside the bucket -/

theorem elem_ptr_bad_offset (data : List (Option Nat)) (it : BaseIterator)
    (hi : 60 ≤ it.ind_j_) : ∃ f, elem_ptr data it = .error f := by
  unfold elem_ptr
  split
  · exact ⟨_, rfl⟩
  · exact ⟨_, rfl⟩
  · rw [if_neg (by simp only [kBucketSize]; omega)]
    exact ⟨_, rfl⟩

/-- With offset 30 at `begin_`, the `int` sum `30 + 2147483618` overflows: the position
`begin_ + 2147483618` has the offset `2^64 - 8`. -/
theorem operator_plus_overflow (a : Int) :
    (operator_plus { ind_j_ := 30, arr_ := some a } (2147483618 : Nat)).ind_j_
      = 18446744073709551608 := by
  simp only [operator_plus, operator_plus_assign]
  rw [show toInt32 ((2147483618 : Nat) : Int) = 2147483618 by decide]
  rw [if_pos (by decide)]
  rw [show toInt32 (toInt32 ((30 : Nat) : Int) + 2147483618) = -2147483648 by decide]
  rw [show toInt32 ((kBucketSize : Nat) : Int) = 60 by decide]
  show toSizeT (Int.tmod (-2147483648) 60) = 18446744073709551608
  decide

theorem store_inv {h h1 : Heap T} {r : Ref} {c : Option T} (he : h.store r c = .ok h1) :
    ∃ b, h.mem r.1 = some b ∧
      h1 = { h with mem := Function.update h.mem r.1 (some (Function.update b r.2 c)) } := by
  unfold Heap.store at he
  split at he
  · cases he
  · rename_i b hb
    cases he
    exact ⟨b, hb, rfl⟩

theorem construct_inv {h h1 : Heap T} {a : Nat} {r : Ref} {v : T}
    (he : h.construct a r v = .ok h1) :
    ∃ b, h.mem r.1 = some b ∧ h1.next = h.next ∧ h1.log = Event.construct a r v :: h.log ∧
      h1.mem = Function.update h.mem r.1 (some (Function.update b r.2 (some v))) := by
  unfold Heap.construct at he
  split at he
  · cases he
  · rename_i h2 hs
    obtain ⟨b, hb, rfl⟩ := store_inv hs
    cases he
    exact ⟨b, hb, rfl, rfl, rfl⟩

theorem elem_ptr_inv {data : List (Option Nat)} {it : BaseIterator} {r : Ref}
    (he : elem_ptr data it = .ok r) :
    ∃ s : Int, it.arr_ = some s ∧ bucket_at data s = some r.1 ∧ r.2 = it.ind_j_ ∧
      it.ind_j_ < 60 := by
  unfold elem_ptr at he
  cases harr : it.arr_ with
  | none => rw [harr] at he; simp [slot_read, slot_index] at he
  | some s =>
    rw [harr, slot_read_some] at he
    by_cases hr : 0 ≤ s ∧ s < data.length
    · rw [if_pos hr] at he
      cases hg : data.getD s.toNat none with
      | none => rw [hg] at he; cases he
      | some p =>
        rw [hg] at he
        simp only at he
        split at he
        · rename_i hlt
          cases he
          refine ⟨s, rfl, ?_, rfl, by simpa [kBucketSize] using hlt⟩
          simp only [bucket_at, if_pos hr, hg]
        · cases he
    · rw [if_neg hr] at he; cases he

theorem allocate_data_inv {h h1 : Heap T} {d d1 : Deque} {it : BaseIterator}
    (he : allocate_data h d it = .ok (h1, d1)) :
    ∃ s : Int, it.arr_ = some s ∧ 0 ≤ s ∧ s < d.data_.length ∧
      h1 = (h.allocate d.allocator_).2 ∧
      d1 = { d with data_ := d.data_.set s.toNat (some h.next) } := by
  unfold allocate_data at he
  cases harr : it.arr_ with
  | none => rw [harr] at he; simp [slot_write, slot_index] at he
  | some s =>
    by_cases hr : 0 ≤ s ∧ s < d.data_.length
    · rw [harr, slot_write_ok _ _ hr] at he
      simp only [Except.ok.injEq, Prod.mk.injEq] at he
      exact ⟨s, rfl, hr.1, hr.2, he.1.symm, he.2.symm⟩
    · rw [harr] at he
      simp [slot_write, slot_index, hr] at he

theorem fulled_back_true {d : Deque} (he : fulled_back d = .ok true) :
    ∃ s : Int, d.end_.arr_ = some s ∧ 0 ≤ s ∧ s < d.data_.length ∧ bucket_at d.data_ s = none := by
  unfold fulled_back at he
  split at he
  · cases harr : d.end_.arr_ with
    | none => rw [harr] at he; simp [slot_read, slot_index] at he
    | some s =>
      rw [harr, slot_read_some] at he
      by_cases hr : 0 ≤ s ∧ s < d.data_.length
      · rw [if_pos hr] at he
        simp only [Except.ok.injEq, Option.isNone_iff_eq_none] at he
        exact ⟨s, rfl, hr.1, hr.2, by simp only [bucket_at, if_pos hr, he]⟩
      · rw [if_neg hr] at he; cases he
  · cases he

/-- What the first statement of `emplace_back` can have done when it returns: nothing,
an allocation into a null slot, a growth followed by an allocation into the slot after
the old buckets, or the first allocation of a container without a map. -/
theorem prepare_back_inv {h h1 : Heap T} {d d1 : Deque}
    (he : prepare_back h d = .ok (h1, d1)) :
    (d.data_ ≠ [] ∧ h1 = h ∧ d1 = d) ∨
    (d.data_ ≠ [] ∧ h1 = (h.allocate d.allocator_).2 ∧
      ∃ s : Int, 0 ≤ s ∧ s < d.data_.length ∧ bucket_at d.data_ s = none ∧
        d1 = { d with data_ := d.data_.set s.toNat (some h.next) }) ∨
    (d.data_ ≠ [] ∧ h1 = (h.allocate d.allocator_).2 ∧
      d1 = { d with
        data_ := (reserve_data d.data_ (3 * d.data_.length)).set (2 * d.data_.length) (some h.next)
        begin_ := shift_it d.data_.length d.begin_
        end_ := shift_it d.data_.length d.end_ }) ∨
    (d.data_ = [] ∧ h1 = (h.allocate d.allocator_).2 ∧
      d1 = { d with data_ := [some h.next]
                    begin_ := { ind_j_ := 30, arr_ := some 0 }
                    end_ := { ind_j_ := 30, arr_ := some 0 } }) := by
  by_cases hd : d.data_ = []
  · rw [prepare_back_default h d hd] at he
    cases he
    exact Or.inr (Or.inr (Or.inr ⟨hd, rfl, rfl⟩))
  · have hemp : d.data_.isEmpty = false := by
      cases hdd : d.data_ with
      | nil => exact absurd hdd hd
      | cons a t => rfl
    unfold prepare_back at he
    split at he
    · rename_i hcond
      rw [hemp] at hcond
      have hc : d.end_.ind_j_ = 0 ∧ d.end_.arr_ = some (d.data_.length : Int) := by
        rcases hcond with hc | hc
        · cases hc
        · exact hc
      obtain ⟨s, hs, hs0, hs1, rfl, rfl⟩ := allocate_data_inv he
      refine Or.inr (Or.inr (Or.inl ⟨hd, ?_, ?_⟩))
      · rw [reserve_nonempty d hd]
      · rw [reserve_nonempty d hd] at hs ⊢
        simp only [hc.2, Option.map_some', Option.some.injEq] at hs
        have : s.toNat = 2 * d.data_.length := by omega
        rw [this]
        rfl
    · split at he
      · cases he
      · rename_i hfb
        obtain ⟨s, hs, hs0, hs1, hnone⟩ := fulled_back_true hfb
        obtain ⟨s1, hs2, -, -, rfl, rfl⟩ := allocate_data_inv he
        rw [hs] at hs2
        cases hs2
        exact Or.inr (Or.inl ⟨hd, rfl, s, hs0, hs1, hnone, rfl⟩)
      · cases he
        exact Or.inl ⟨hd, rfl, rfl⟩

theorem emplace_back_inv_ok {h h2 : Heap T} {d d2 : Deque} {c : Except E T}
    (he : emplace_back c h d = Res.ok h2 d2) :
    ∃ h1 d1 r v, prepare_back h d = .ok (h1, d1) ∧ elem_ptr d1.data_ d1.end_ = .ok r ∧
      c = .ok v ∧ h1.construct d1.allocator_ r v = .ok h2 ∧
      d2 = { d1 with end_ := operator_inc d1.end_, size_ := d1.size_ + 1 } := by
  unfold emplace_back at he
  split at he
  · cases he
  · rename_i h1 d1 hp
    split at he
    · cases he
    · rename_i r hr
      split at he
      · cases he
      · rename_i v
        split at he
        · cases he
        · rename_i h3 hc
          cases he
          exact ⟨h1, d1, r, v, hp, hr, rfl, hc, rfl⟩

theorem emplace_back_inv_throw {h h1 : Heap T} {d d1 : Deque} {c : Except E T} {e : E}
    (he : emplace_back c h d = Res.throw e h1 d1) :
    prepare_back h d = .ok (h1, d1) ∧ c = .error e := by
  unfold emplace_back at he
  split at he
  · cases he
  · rename_i h2 d2 hp
    split at he
    · cases he
    · split at he
      · cases he
        exact ⟨hp, rfl⟩
      · split at he
        · cases he
        · cases he

/-! ## The allocator calls of a filling loop -/

theorem ref_of_eq {data : List (Option Nat)} {L : Int} {r : Ref}
    (he : elem_ptr data (ofLin L) = .ok r) : ref_of data L = r := by
  obtain ⟨hb, h2⟩ := elem_ptr_ok_iff.mp he
  unfold ref_of
  rw [hb]
  obtain ⟨r1, r2⟩ := r
  simp only at h2
  rw [h2]

theorem placed_length (data : List (Option Nat)) (xs : List T) :
    ∀ L : Int, (placed data L xs).length = xs.length := by
  induction xs with
  | nil => intro L; rfl
  | cons x t ih => intro L; simp [placed, ih]

theorem placed_append (data : List (Option Nat)) (xs : List T) (v : T) :
    ∀ L : Int, placed data L (xs ++ [v]) = placed data L xs ++ [(ref_of data (L + xs.length), v)] := by
  induction xs with
  | nil => intro L; simp [placed]
  | cons x t ih =>
    intro L
    show (ref_of data L, x) :: placed data (L + 1) (t ++ [v]) =
      (ref_of data L, x) :: placed data (L + 1) t ++ [(ref_of data (L + ((x :: t).length : Nat)), v)]
    rw [ih (L + 1), show L + 1 + (t.length : Int) = L + ((x :: t).length : Nat) by
      simp only [List.length_cons]; push_cast; ring]
    rfl

theorem placed_congr (data data1 : List (Option Nat)) (xs : List T) :
    ∀ (L L1 : Int), (∀ i : Nat, i < xs.length → ref_of data1 (L1 + i) = ref_of data (L + i)) →
      placed data1 L1 xs = placed data L xs := by
  induction xs with
  | nil => intro L L1 _; rfl
  | cons x t ih =>
    intro L L1 hrefs
    simp only [placed]
    rw [ih (L + 1) (L1 + 1) (by
      intro i hi
      have := hrefs (i + 1) (by simp; omega)
      rw [show L1 + ((i + 1 : Nat) : Int) = L1 + 1 + i by push_cast; ring,
        show L + ((i + 1 : Nat) : Int) = L + 1 + i by push_cast; ring] at this
      exact this)]
    have := hrefs 0 (by simp)
    simp only [Nat.cast_zero, add_zero] at this
    rw [this]

theorem shift_it_ofLin (k : Nat) (L : Int) : shift_it k (ofLin L) = ofLin (L + 60 * k) :=
  ofLin_shift L k

theorem allocate_ne_self (h : Heap T) (a : Nat) : (h.allocate a).2 ≠ h := by
  intro e
  have := congrArg Heap.next e
  simp [Heap.allocate] at this

/-- How the buckets of the map move in the first statement of `emplace_back`: every
bucket is carried over `k` slots further, and the new map holds nothing else but the
bucket allocated in this call, if any. -/
theorem prepare_back_rel {h h1 : Heap T} {d d1 : Deque}
    (he : prepare_back h d = .ok (h1, d1)) :
    ∃ k : Nat,
      (∀ s p, bucket_at d.data_ s = some p → bucket_at d1.data_ (s + k) = some p) ∧
      (∀ s p, bucket_at d1.data_ s = some p →
        (p = h.next ∧ h1 = (h.allocate d.allocator_).2) ∨ bucket_at d.data_ (s - k) = some p) ∧
      (d.data_ ≠ [] → d1.begin_ = shift_it k d.begin_) ∧
      (h1 = h ∨ (h1 = (h.allocate d.allocator_).2 ∧ ∃ s, bucket_at d1.data_ s = some h.next)) ∧
      d1.allocator_ = d.allocator_ := by
  have hshift0 : ∀ it : BaseIterator, shift_it 0 it = it := by
    intro it
    cases it with
    | mk i a => cases a <;> simp [shift_it]
  rcases prepare_back_inv he with ⟨hd, rfl, rfl⟩ | ⟨hd, rfl, s, hs0, hs1, hnone, rfl⟩ |
    ⟨hd, rfl, rfl⟩ | ⟨hd, rfl, rfl⟩
  · refine ⟨0, ?_, ?_, fun _ => (hshift0 _).symm, Or.inl rfl, rfl⟩
    · intro s p hp; simpa using hp
    · intro s p hp; right; simpa using hp
  · refine ⟨0, ?_, ?_, fun _ => (hshift0 _).symm, Or.inr ⟨rfl, s, ?_⟩, rfl⟩
    · intro s1 p hp
      simp only [Nat.cast_zero, add_zero, bucket_at_set _ _ ⟨hs0, hs1⟩]
      have : s1 ≠ s := by intro e; rw [e, hnone] at hp; cases hp
      simp [this, hp]
    · intro s1 p hp
      simp only [bucket_at_set _ _ ⟨hs0, hs1⟩] at hp
      split at hp
      · left; simp at hp; exact ⟨hp.symm, rfl⟩
      · right; simpa using hp
    · simp [bucket_at_set _ _ ⟨hs0, hs1⟩]
  · have hpos : 0 < d.data_.length := List.length_pos.mpr hd
    have hr : (0 : Int) ≤ ((2 * d.data_.length : Nat) : Int) ∧
        ((2 * d.data_.length : Nat) : Int) < (reserve_data d.data_ (3 * d.data_.length)).length := by
      rw [reserve_data_length]; push_cast; omega
    have hset : ∀ s1 : Int, bucket_at ((reserve_data d.data_ (3 * d.data_.length)).set
        (2 * d.data_.length) (some h.next)) s1 =
        if s1 = ((2 * d.data_.length : Nat) : Int) then some h.next
        else bucket_at d.data_ (s1 - d.data_.length) := by
      intro s1
      have := bucket_at_set (reserve_data d.data_ (3 * d.data_.length))
        ((2 * d.data_.length : Nat) : Int) hr (some h.next) s1
      rw [Int.toNat_ofNat, bucket_at_reserve_data] at this
      exact this
    refine ⟨d.data_.length, ?_, ?_, fun _ => rfl, Or.inr ⟨rfl, ((2 * d.data_.length : Nat) : Int), ?_⟩,
      rfl⟩
    · intro s p hp
      simp only [hset]
      have hrange := bucket_at_range hp
      rw [if_neg (by push_cast; omega)]
      rw [show s + (d.data_.length : Int) - d.data_.length = s by ring]
      exact hp
    · intro s1 p hp
      simp only [hset] at hp
      split at hp
      · left; simp at hp; exact ⟨hp.symm, rfl⟩
      · right; exact hp
    · simp only [hset, if_true]
  · refine ⟨0, ?_, ?_, fun hne => absurd hd hne, Or.inr ⟨rfl, 0, ?_⟩, rfl⟩
    · intro s p hp
      rw [hd] at hp
      simp [bucket_at] at hp
    · intro s p hp
      left
      have hb : bucket_at [some h.next] s = some p := hp
      rw [bucket_at_eq] at hb
      split at hb
      · cases hs : s.toNat with
        | zero => rw [hs] at hb; simp at hb; exact ⟨hb.symm, rfl⟩
        | succ n => rw [hs] at hb; simp at hb
      · cases hb
    · rfl

theorem Holds.map_ok_of {h : Heap T} {d : Deque} {xs : List T} (hh : Holds h d xs) :
    MapOk h d.data_ := by
  rcases hh with ⟨hm, -⟩ | ⟨B, hh⟩
  · exact hm
  · exact hh.map_ok

theorem Built.at_init (h0 : Heap T) (alloc : Nat) (hf : h0.fresh) :
    Built h0 h0 (Deque.init alloc) [] [] := by
  refine ⟨Holds.of_init h0 alloc hf, rfl, rfl, rfl, List.nodup_nil, ?_, rfl, ?_⟩
  · intro p
    constructor
    · intro hp; cases hp
    · rintro ⟨s, hs⟩; simp [Deque.init, bucket_at] at hs
  · intro B _; rfl

/-- The first statement of `emplace_back` keeps a container under construction. -/
theorem Built.prepare {h0 h : Heap T} {d : Deque} {xs : List T} {new : List (Event T)}
    (hb : Built h0 h d xs new) :
    ∃ h1 d1 new1 B1, prepare_back h d = .ok (h1, d1) ∧ Built h0 h1 d1 xs new1 ∧
      HoldsAt h1 d1 xs B1 ∧ ∃ c, cell h1 d1.data_ (B1 + xs.length) = some c := by
  obtain ⟨h1, d1, B1, hp, hh1, hg, hc⟩ := prepare_back_spec hb.holds
  obtain ⟨k, hfwd, hbwd, hbeg, hheap, hal⟩ := prepare_back_rel hp
  have hmap := hb.holds.map_ok_of
  have hnext_not : ∀ s, bucket_at d.data_ s ≠ some h.next := by
    intro s hs
    obtain ⟨b, hmb⟩ := hmap.alloc s _ hs
    rw [hmap.fresh _ (Nat.le_refl _)] at hmb; cases hmb
  have hcons : ∀ new1 : List (Event T), constructed new1 = constructed new →
      ∀ B, HoldsAt h1 d1 xs B → (constructed new1).reverse = placed d1.data_ B xs := by
    intro new1 hc1 B' hat'
    rw [hc1]
    rcases hb.holds with ⟨-, -, -, -, -, hx⟩ | ⟨B, hat⟩
    · subst hx
      have := hb.cons_len
      simp only [List.length_nil, List.length_eq_zero] at this
      rw [this]; rfl
    · rw [hb.cons_eq B hat]
      have hB' : B' = B + 60 * k := by
        have e1 := hat'.begin_eq
        rw [hbeg hat.map_ne, hat.begin_eq, shift_it_ofLin] at e1
        exact (ofLin_inj e1).symm
      subst hB'
      symm
      apply placed_congr
      intro i hi
      obtain ⟨w, hw⟩ := exists_getElem? xs i hi
      obtain ⟨p, b, hbk, -, -⟩ := cell_some_iff.mp (hat.live i w hw)
      have h2 := hfwd _ _ hbk
      unfold ref_of
      rw [hbk, show (B + 60 * (k : Int) + i) / 60 = (B + i) / 60 + k by omega, h2,
        show (B + 60 * (k : Int) + i) % 60 = (B + i) % 60 by omega]
  rcases hheap with rfl | ⟨rfl, snew, hsnew⟩
  · refine ⟨h1, d1, new, B1, hp, ⟨Or.inr ⟨B1, hh1⟩, hb.log_eq, hb.no_destroy, hb.no_free,
      hb.alloc_nodup, ?_, hb.cons_len, hcons new rfl⟩, hh1, hc⟩
    intro p
    rw [hb.alloc_iff]
    constructor
    · rintro ⟨s, hs⟩; exact ⟨_, hfwd s p hs⟩
    · rintro ⟨s, hs⟩
      rcases hbwd s p hs with ⟨-, he⟩ | ho
      · exact absurd he.symm (allocate_ne_self _ _)
      · exact ⟨_, ho⟩
  · refine ⟨_, d1, Event.allocate d.allocator_ h.next :: new, B1, hp,
      ⟨Or.inr ⟨B1, hh1⟩, ?_, hb.no_destroy, hb.no_free, ?_, ?_, hb.cons_len, hcons _ rfl⟩, hh1, hc⟩
    · simp [Heap.allocate, hb.log_eq]
    · show (h.next :: allocated new).Nodup
      refine List.nodup_cons.mpr ⟨?_, hb.alloc_nodup⟩
      intro hmem
      obtain ⟨s, hs⟩ := (hb.alloc_iff _).mp hmem
      exact hnext_not s hs
    · intro p
      show p ∈ h.next :: allocated new ↔ _
      rw [List.mem_cons, hb.alloc_iff]
      constructor
      · rintro (rfl | ⟨s, hs⟩)
        · exact ⟨snew, hsnew⟩
        · exact ⟨_, hfwd s p hs⟩
      · rintro ⟨s, hs⟩
        rcases hbwd s p hs with ⟨he, -⟩ | ho
        · exact Or.inl he
        · exact Or.inr ⟨_, ho⟩

/-- A construction that succeeds keeps a container under construction. -/
theorem Built.step_ok {h0 h : Heap T} {d : Deque} {xs : List T} {new : List (Event T)}
    (hb : Built h0 h d xs new) (v : T) :
    ∃ h2 d2 new2, emplace_back (E := E) (.ok v) h d = Res.ok h2 d2 ∧
      Built h0 h2 d2 (xs ++ [v]) new2 := by
  obtain ⟨h1, d1, new1, B1, hp, hb1, hh1, c, hc⟩ := hb.prepare
  obtain ⟨r, h2, hr, hcons, hm2, hn, hl, -, hcell⟩ := construct_cell hh1.map_ok hc d1.allocator_ v
  have hrange := cell_range hc
  have hat2 : HoldsAt h2 { d1 with end_ := operator_inc d1.end_, size_ := d1.size_ + 1 }
      (xs ++ [v]) B1 := by
    refine ⟨⟨hm2, hh1.B_nonneg, ?_, hh1.map_ne, ?_, ?_⟩, ?_, hh1.begin_eq, ?_⟩
    · simp only [List.length_append, List.length_singleton]
      push_cast; omega
    · intro k w hk
      rw [hcell]
      by_cases e : k = xs.length
      · subst e
        simp at hk
        simp [hk]
      · have hlt : k < xs.length := by
          have := (List.getElem?_eq_some.mp hk).1
          simp at this; omega
        rw [List.getElem?_append_left hlt] at hk
        have : B1 + (k : Int) ≠ B1 + xs.length := by omega
        simp only [this, if_false]
        exact hh1.live k w hk
    · intro hne
      simp only [List.length_append, List.length_singleton] at hne ⊢
      push_cast at hne ⊢
      rw [hcell]
      have : B1 + ((xs.length : Int) + 1) ≠ B1 + xs.length := by omega
      simp only [this, if_false]
      exact cell_same_slot hc (by omega)
    · simp [hh1.size_eq]
    · simp only [hh1.end_eq, operator_inc_ofLin, List.length_append, List.length_singleton]
      congr 1; push_cast; ring
  refine ⟨h2, _, Event.construct d1.allocator_ r v :: new1, ?_,
    ⟨Or.inr ⟨B1, hat2⟩, ?_, hb1.no_destroy, hb1.no_free, hb1.alloc_nodup, hb1.alloc_iff, ?_, ?_⟩⟩
  · have hr1 := hr
    rw [← hh1.end_eq] at hr1
    simp only [emplace_back, hp, hr1, hcons]
  · rw [hl, hb1.log_eq]; rfl
  · show ((r, v) :: constructed new1).length = _
    simp [hb1.cons_len]
  · intro B hat
    have hB : B = B1 := by
      have e1 := hat.begin_eq
      have e2 := hat2.begin_eq
      rw [e1] at e2
      exact ofLin_inj e2
    subst hB
    show ((r, v) :: constructed new1).reverse = placed d1.data_ B (xs ++ [v])
    rw [List.reverse_cons, hb1.cons_eq B hh1, placed_append, ref_of_eq hr]

/-- A construction that throws leaves a container under construction that holds the
elements constructed so far. -/
theorem Built.step_throw {h0 h : Heap T} {d : Deque} {xs : List T} {new : List (Event T)}
    (hb : Built h0 h d xs new) (e : E) :
    ∃ h1 d1 new1 B1, emplace_back (T := T) (.error e) h d = Res.throw e h1 d1 ∧
      Built h0 h1 d1 xs new1 ∧ HoldsAt h1 d1 xs B1 := by
  obtain ⟨h1, d1, new1, B1, hp, hb1, hh1, c, hc⟩ := hb.prepare
  obtain ⟨r, hr, -⟩ := cell_load hc
  refine ⟨h1, d1, new1, B1, ?_, hb1, hh1⟩
  rw [← hh1.end_eq] at hr
  simp only [emplace_back, hp, hr]

theorem fill_throw (vs : List T) (e : E) (rest : List (Except E T)) :
    ∀ (h0 h : Heap T) (d : Deque) (xs : List T) (new : List (Event T)), Built h0 h d xs new →
      ∃ h1 d1 new1 B1, fill (vs.map Except.ok ++ Except.error e :: rest) h d = Res.throw e h1 d1 ∧
        Built h0 h1 d1 (xs ++ vs) new1 ∧ HoldsAt h1 d1 (xs ++ vs) B1 := by
  induction vs with
  | nil =>
    intro h0 h d xs new hb
    obtain ⟨h1, d1, new1, B1, he, hb1, hh1⟩ := hb.step_throw e
    refine ⟨h1, d1, new1, B1, by simp only [List.map_nil, List.nil_append, fill, he], ?_, ?_⟩
    · simpa using hb1
    · simpa using hh1
  | cons v t ih =>
    intro h0 h d xs new hb
    obtain ⟨h2, d2, new2, he, hb2⟩ := hb.step_ok (E := E) v
    obtain ⟨h1, d1, new1, B1, hf, hb1, hh1⟩ := ih h0 h2 d2 _ new2 hb2
    have hfill : fill (List.map Except.ok (v :: t) ++ Except.error e :: rest) h d
        = Res.throw e h1 d1 := by
      show fill (Except.ok v :: (List.map Except.ok t ++ Except.error e :: rest)) h d = _
      simp only [fill, he]
      exact hf
    refine ⟨h1, d1, new1, B1, hfill, ?_, ?_⟩
    · simpa using hb1
    · simpa using hh1

theorem outcomes_split (throws : Nat → Option E) (e : E) (L : List T) :
    ∀ (k0 k : Nat), k < L.length → throws (k0 + k) = some e →
      (∀ j, j < k → throws (k0 + j) = none) →
      outcomes throws k0 L =
        (L.take k).map Except.ok ++ Except.error e :: outcomes throws (k0 + k + 1) (L.drop (k + 1)) := by
  induction L with
  | nil => intro k0 k hk; simp at hk
  | cons x t ih =>
    intro k0 k hk hth hbefore
    cases k with
    | zero =>
      simp only [Nat.add_zero] at hth
      simp [outcomes, outcome, hth]
    | succ n =>
      have h0 : throws k0 = none := by simpa using hbefore 0 (by omega)
      have := ih (k0 + 1) n (by simpa using hk) (by rw [← hth]; congr 1; omega) (by
        intro j hj
        have := hbefore (j + 1) (by omega)
        rw [← this]; congr 1; omega)
      rw [show k0 + 1 + n + 1 = k0 + (n + 1) + 1 by omega] at this
      simp only [outcomes, outcome, h0, List.take_succ_cons, List.map_cons, List.cons_append,
        List.drop_succ_cons, this]

/-! ## The handler of the constructors -/

theorem constructed_append (a b : List (Event T)) :
    constructed (a ++ b) = constructed a ++ constructed b := by
  induction a with
  | nil => rfl
  | cons x t ih => cases x <;> simp [constructed, ih]

theorem destroyed_append (a b : List (Event T)) :
    destroyed (a ++ b) = destroyed a ++ destroyed b := by
  induction a with
  | nil => rfl
  | cons x t ih => cases x <;> simp [destroyed, ih]

theorem allocated_append (a b : List (Event T)) :
    allocated (a ++ b) = allocated a ++ allocated b := by
  induction a with
  | nil => rfl
  | cons x t ih => cases x <;> simp [allocated, ih]

theorem freed_append (a b : List (Event T)) :
    freed (a ++ b) = freed a ++ freed b := by
  induction a with
  | nil => rfl
  | cons x t ih => cases x <;> simp [freed, ih]

theorem placed_snd (data : List (Option Nat)) (xs : List T) :
    ∀ L : Int, (placed data L xs).map Prod.snd = xs := by
  induction xs with
  | nil => intro L; rfl
  | cons x t ih => intro L; simp [placed, ih]

theorem placed_fst (data : List (Option Nat)) (xs : List T) :
    ∀ L : Int, (placed data L xs).map Prod.fst
      = (List.range xs.length).map fun (i : Nat) => ref_of data (L + (i : Int)) := by
  induction xs with
  | nil => intro L; rfl
  | cons x t ih =>
    intro L
    simp only [placed, List.map_cons, ih, List.length_cons, List.range_succ_eq_map,
      List.map_map, Nat.cast_zero, add_zero, List.cons.injEq, true_and]
    apply List.map_congr_left
    intro i _
    simp only [Function.comp, Nat.succ_eq_add_one]
    congr 1; push_cast; ring

theorem placed_fst_nodup {h : Heap T} {data : List (Option Nat)} {xs : List T} {B : Int}
    (hm : MapOk h data)
    (hlive : ∀ (k : Nat) (v : T), xs[k]? = some v → cell h data (B + k) = some (some v)) :
    ((placed data B xs).map Prod.fst).Nodup := by
  rw [placed_fst]
  apply List.Nodup.map_on _ (List.nodup_range _)
  intro i hi j hj hij
  rw [List.mem_range] at hi hj
  obtain ⟨wi, hwi⟩ := exists_getElem? xs i hi
  obtain ⟨wj, hwj⟩ := exists_getElem? xs j hj
  obtain ⟨pi, -, hbi, -, -⟩ := cell_some_iff.mp (hlive i wi hwi)
  obtain ⟨pj, -, hbj, -, -⟩ := cell_some_iff.mp (hlive j wj hwj)
  unfold ref_of at hij
  rw [hbi, hbj] at hij
  simp only [Prod.mk.injEq] at hij
  obtain ⟨hp, hoff⟩ := hij
  subst hp
  have := hm.distinct _ _ _ hbi hbj
  omega

/-- The destroying loop of a handler: every element of `[begin_, end_)` is destroyed,
from the first to the last. -/
theorem destroy_range_spec (alloc : Nat) (data : List (Option Nat)) (xs : List T) :
    ∀ (L : Int) (fuel : Nat) (h : Heap T), MapOk h data → xs.length < fuel →
      (∀ (k : Nat) (v : T), xs[k]? = some v → cell h data (L + k) = some (some v)) →
      ∃ h1, destroy_range alloc data (ofLin (L + xs.length)) fuel h (ofLin L) = .ok h1 ∧
        MapOk h1 data ∧ h1.next = h.next ∧ (∀ p, h1.mem p = none ↔ h.mem p = none) ∧
        ∃ evs, h1.log = evs ++ h.log ∧
          destroyed evs = ((placed data L xs).map fun rv => (rv.1, some rv.2)).reverse ∧
          constructed evs = [] ∧ allocated evs = [] ∧ freed evs = [] := by
  induction xs with
  | nil =>
    intro L fuel h hm hf _
    obtain ⟨f, rfl⟩ : ∃ f, fuel = f + 1 := ⟨fuel - 1, by simp at hf; omega⟩
    refine ⟨h, ?_, hm, rfl, fun _ => Iff.rfl, [], rfl, rfl, rfl, rfl, rfl⟩
    simp [destroy_range, operator_ne_self]
  | cons x t ih =>
    intro L fuel h hm hf hlive
    obtain ⟨f, rfl⟩ : ∃ f, fuel = f + 1 := ⟨fuel - 1, by omega⟩
    have hne : operator_ne (ofLin L) (ofLin (L + ((x :: t).length : Nat))) = true := by
      rw [operator_ne_ofLin]; simp only [List.length_cons]; push_cast; omega
    have hc : cell h data L = some (some x) := by simpa using hlive 0 x (by simp)
    obtain ⟨r, h1, hr, hdes, hm1, hn1, hl1, hmem1, hcell1⟩ := destroy_cell hm hc alloc
    obtain ⟨h2, he2, hm2, hn2, hmem2, evs, hl2, hd2, hc2, ha2, hf2⟩ :=
      ih (L + 1) f h1 hm1 (by simp at hf; omega) (by
        intro k w hk
        have := hlive (k + 1) w (by simpa using hk)
        rw [hcell1, if_neg (by omega)]
        rw [show L + ((k + 1 : Nat) : Int) = L + 1 + k by push_cast; ring] at this
        exact this)
    rw [show L + 1 + (t.length : Int) = L + ((x :: t).length : Nat) by
      simp only [List.length_cons]; push_cast; ring] at he2
    refine ⟨h2, ?_, hm2, by rw [hn2, hn1], fun p => (hmem2 p).trans (hmem1 p),
      evs ++ [Event.destroy alloc r (some x)], ?_, ?_, ?_, ?_, ?_⟩
    · simp only [destroy_range, hne, if_true, hr, hdes, operator_inc_ofLin, he2]
    · rw [hl2, hl1]; simp
    · rw [destroyed_append, hd2]
      simp [destroyed, placed, ref_of_eq hr]
    · rw [constructed_append, hc2]; rfl
    · rw [allocated_append, ha2]; rfl
    · rw [freed_append, hf2]; rfl

theorem mem_ptrs_iff (data : List (Option Nat)) (p : Nat) :
    p ∈ ptrs data ↔ ∃ s, bucket_at data s = some p := by
  unfold ptrs
  rw [List.mem_filterMap]
  constructor
  · rintro ⟨a, ha, hid⟩
    simp only [id] at hid
    subst hid
    obtain ⟨i, hi⟩ := List.mem_iff_getElem?.mp ha
    refine ⟨(i : Int), ?_⟩
    rw [bucket_at_eq, if_pos (by omega), List.getD_eq_getElem?_getD, Int.toNat_ofNat, hi]
    rfl
  · rintro ⟨s, hs⟩
    refine ⟨some p, ?_, rfl⟩
    rw [bucket_at_eq] at hs
    split at hs
    · rw [List.getD_eq_getElem?_getD] at hs
      cases hg : data[s.toNat]? with
      | none => rw [hg] at hs; cases hs
      | some a =>
        rw [hg] at hs
        simp only [Option.getD_some] at hs
        subst hs
        exact List.mem_iff_getElem?.mpr ⟨_, hg⟩
    · cases hs

theorem ptrs_nodup (data : List (Option Nat)) :
    (∀ (i j : Nat) (p : Nat), data[i]? = some (some p) → data[j]? = some (some p) → i = j) →
      (ptrs data).Nodup := by
  induction data with
  | nil => intro _; exact List.nodup_nil
  | cons a t ih =>
    intro hd
    have ht : (ptrs t).Nodup := ih (by
      intro i j p hi hj
      have := hd (i + 1) (j + 1) p (by simpa using hi) (by simpa using hj)
      omega)
    cases a with
    | none => simpa [ptrs] using ht
    | some q =>
      have hq : q ∉ ptrs t := by
        intro hmem
        unfold ptrs at hmem
        rw [List.mem_filterMap] at hmem
        obtain ⟨a, ha, hid⟩ := hmem
        simp only [id] at hid
        subst hid
        obtain ⟨i, hi⟩ := List.mem_iff_getElem?.mp ha
        have := hd 0 (i + 1) q (by simp) (by simpa using hi)
        omega
      show (List.filterMap id (some q :: t)).Nodup
      rw [List.filterMap_cons_some (by rfl)]
      exact List.nodup_cons.mpr ⟨hq, ht⟩

theorem MapOk.ptrs_nodup_of {h : Heap T} {data : List (Option Nat)} (hm : MapOk h data) :
    (ptrs data).Nodup := by
  apply ptrs_nodup
  intro i j p hi hj
  have hbi : bucket_at data (i : Int) = some p := by
    rw [bucket_at_eq, if_pos (by omega), List.getD_eq_getElem?_getD, Int.toNat_ofNat, hi]; rfl
  have hbj : bucket_at data (j : Int) = some p := by
    rw [bucket_at_eq, if_pos (by omega), List.getD_eq_getElem?_getD, Int.toNat_ofNat, hj]; rfl
  have := hm.distinct _ _ _ hbi hbj
  omega

theorem count_some_eq (data : List (Option Nat)) (p : Nat) :
    data.count (some p) = (ptrs data).count p := by
  induction data with
  | nil => rfl
  | cons a t ih =>
    cases a with
    | none =>
      show (none :: t).count (some p) = (List.filterMap id (none :: t)).count p
      rw [List.filterMap_cons_none (by rfl), List.count_cons_of_ne (by simp)]
      exact ih
    | some q =>
      show (some q :: t).count (some p) = (List.filterMap id (some q :: t)).count p
      rw [List.filterMap_cons_some (by rfl)]
      by_cases e : q = p
      · subst e
        rw [List.count_cons_self, List.count_cons_self]
        exact congrArg (· + 1) ih
      · rw [List.count_cons_of_ne (by simpa using Ne.symm e), List.count_cons_of_ne (Ne.symm e)]
        exact ih

/-- The deallocating loop of a handler: every slot of the map, null or not, is passed
to `deallocate`, in slot order. -/
theorem deallocate_all_spec (alloc : Nat) :
    ∀ (data : List (Option Nat)) (h : Heap T), (ptrs data).Nodup →
      (∀ p, p ∈ ptrs data → ∃ b, h.mem p = some b) →
      ∃ h1, deallocate_all alloc data h = .ok h1 ∧ h1.next = h.next ∧
        (∀ p, p ∈ ptrs data → h1.mem p = none) ∧
        (∀ p, p ∉ ptrs data → h1.mem p = h.mem p) ∧
        ∃ evs, h1.log = evs ++ h.log ∧ freed evs = data.reverse ∧ destroyed evs = [] ∧
          constructed evs = [] ∧ allocated evs = [] := by
  intro data
  induction data with
  | nil =>
    intro h _ _
    exact ⟨h, rfl, rfl, fun p hp => (by simp [ptrs] at hp), fun _ _ => rfl, [], rfl, rfl, rfl,
      rfl, rfl⟩
  | cons a t ih =>
    intro h hnd hall
    cases a with
    | none =>
      have hpt : ptrs (none :: t) = ptrs t := by
        show List.filterMap id (none :: t) = _
        rw [List.filterMap_cons_none (by rfl)]; rfl
      rw [hpt] at hnd hall
      obtain ⟨h1, he, hn, hfree, hkeep, evs, hl, hfr, hde, hco, hal⟩ :=
        ih { h with log := Event.deallocate alloc none :: h.log } hnd hall
      refine ⟨h1, ?_, hn, by rw [hpt]; exact hfree, by rw [hpt]; exact hkeep,
        evs ++ [Event.deallocate alloc none], ?_, ?_, ?_, ?_, ?_⟩
      · simp only [deallocate_all, Heap.deallocate, he]
      · rw [hl]; simp
      · rw [freed_append, hfr]; simp [freed]
      · rw [destroyed_append, hde]; rfl
      · rw [constructed_append, hco]; rfl
      · rw [allocated_append, hal]; rfl
    | some q =>
      have hpt : ptrs (some q :: t) = q :: ptrs t := by
        show List.filterMap id (some q :: t) = _
        rw [List.filterMap_cons_some (by rfl)]; rfl
      rw [hpt] at hnd hall
      obtain ⟨hq, hnd1⟩ := List.nodup_cons.mp hnd
      obtain ⟨b, hb⟩ := hall q (List.mem_cons_self _ _)
      obtain ⟨h1, he, hn, hfree, hkeep, evs, hl, hfr, hde, hco, hal⟩ :=
        ih { mem := Function.update h.mem q none, next := h.next,
             log := Event.deallocate alloc (some q) :: h.log } hnd1 (by
          intro p hp
          have hne : p ≠ q := by intro e; subst e; exact hq hp
          obtain ⟨b1, hb1⟩ := hall p (List.mem_cons_of_mem _ hp)
          exact ⟨b1, by simp [Function.update_noteq hne, hb1]⟩)
      refine ⟨h1, ?_, hn, ?_, ?_, evs ++ [Event.deallocate alloc (some q)], ?_, ?_, ?_, ?_, ?_⟩
      · simp only [deallocate_all, Heap.deallocate, hb, he]
      · rw [hpt]
        intro p hp
        rcases List.mem_cons.mp hp with rfl | hp1
        · rw [hkeep _ hq]; simp
        · exact hfree p hp1
      · rw [hpt]
        intro p hp
        have hne : p ≠ q := by intro e; subst e; exact hp (List.mem_cons_self _ _)
        rw [hkeep p (fun hm => hp (List.mem_cons_of_mem _ hm))]
        simp [Function.update_noteq hne]
      · rw [hl]; simp
      · rw [freed_append, hfr]; simp [freed]
      · rw [destroyed_append, hde]; rfl
      · rw [constructed_append, hco]; rfl
      · rw [allocated_append, hal]; rfl

/-- The handler run on a container under construction rolls the construction back. -/
theorem Built.rollback_spec {h0 h : Heap T} {d : Deque} {xs : List T} {new : List (Event T)}
    {B : Int} (hb : Built h0 h d xs new) (hat : HoldsAt h d xs B) :
    ∃ h2 d2 new2, rollback h d = .ok (h2, d2) ∧ RolledBack h0 h2 d2 xs new2 := by
  obtain ⟨h1, hdr, hm1, hn1, hmem1, evs1, hl1, hd1, hc1, ha1, hf1⟩ :=
    destroy_range_spec d.allocator_ d.data_ xs B (walk_bound d.data_) h hat.map_ok
      (walk_bound_gt hat) hat.live
  have hnd := hm1.ptrs_nodup_of
  obtain ⟨h2, hda, hn2, hfree, hkeep, evs2, hl2, hf2, hd2, hc2, ha2⟩ :=
    deallocate_all_spec d.allocator_ d.data_ h1 hnd (by
      intro p hp
      obtain ⟨s, hs⟩ := (mem_ptrs_iff _ _).mp hp
      exact hm1.alloc s p hs)
  have hcons : constructed (evs2 ++ (evs1 ++ new)) = constructed new := by
    rw [constructed_append, constructed_append, hc2, hc1]; rfl
  have halloc : allocated (evs2 ++ (evs1 ++ new)) = allocated new := by
    rw [allocated_append, allocated_append, ha2, ha1]; rfl
  have hfreed : freed (evs2 ++ (evs1 ++ new)) = d.data_.reverse := by
    rw [freed_append, freed_append, hf2, hf1, hb.no_free]; simp
  have hrev : constructed new = (placed d.data_ B xs).reverse := by
    rw [← hb.cons_eq B hat, List.reverse_reverse]
  have hin : ∀ p, p ∈ allocated new ↔ p ∈ ptrs d.data_ := by
    intro p; rw [hb.alloc_iff, mem_ptrs_iff]
  refine ⟨h2, { d with data_ := [] }, evs2 ++ (evs1 ++ new), ?_, ?_⟩
  · simp only [rollback, hat.begin_eq, hat.end_eq, hdr, hda]
  · refine ⟨?_, ?_, ?_, ?_, ?_, ?_, ?_, ?_, rfl⟩
    · rw [hl2, hl1, hb.log_eq]; simp
    · rw [hcons, hrev, List.map_reverse, placed_snd]
    · rw [hcons, hrev, List.map_reverse, List.nodup_reverse]
      exact placed_fst_nodup hat.map_ok hat.live
    · rw [destroyed_append, destroyed_append, hd2, hd1, hb.no_destroy, hcons, hrev]
      simp [List.map_reverse]
    · rw [halloc]; exact hb.alloc_nodup
    · intro p hp
      rw [halloc] at hp
      rw [hfreed, List.count_reverse, count_some_eq]
      exact List.count_eq_one_of_mem hnd ((hin p).mp hp)
    · intro p hp
      rw [hfreed, List.mem_reverse] at hp
      rw [halloc, hin]
      unfold ptrs
      exact List.mem_filterMap.mpr ⟨some p, hp, rfl⟩
    · intro p hp
      rw [halloc] at hp
      exact hfree p ((hin p).mp hp)

/-- A filling constructor whose construction of index `k` throws rolls back. -/
theorem fill_rollback (L : List T) (throws : Nat → Option E) (alloc : Nat) (h0 : Heap T)
    (hf : h0.fresh) (k : Nat) (hk : k < L.length) (e : E) (hth : throws k = some e)
    (hbefore : ∀ j, j < k → throws j = none) :
    ∃ h d new, guarded (fill (outcomes throws 0 L) h0 (Deque.init alloc)) = Res.throw e h d ∧
      RolledBack h0 h d (L.take k) new := by
  have hsplit := outcomes_split throws e L 0 k hk (by simpa using hth) (by simpa using hbefore)
  obtain ⟨h1, d1, new1, B1, hfill, hb1, hat1⟩ :=
    fill_throw (L.take k) e (outcomes throws (0 + k + 1) (L.drop (k + 1))) h0 h0
      (Deque.init alloc) [] [] (Built.at_init h0 alloc hf)
  simp only [List.nil_append] at hb1 hat1
  obtain ⟨h2, d2, new2, hroll, hrb⟩ := hb1.rollback_spec hat1
  refine ⟨h2, d2, new2, ?_, hrb⟩
  rw [hsplit, hfill]
  simp only [guarded, hroll]

/-! ## The copy constructor -/

/-- `emplace_back` touches only buckets of the container it is called on and the
bucket it allocates. -/
theorem emplace_back_frame {h h2 : Heap T} {d d2 : Deque} {c : Except E T} (hf : h.fresh)
    (he : emplace_back c h d = Res.ok h2 d2) :
    h2.fresh ∧ ∀ q b, h.mem q = some b → (∀ s, bucket_at d.data_ s ≠ some q) →
      h2.mem q = some b ∧ ∀ s, bucket_at d2.data_ s ≠ some q := by
  obtain ⟨h1, d1, r, v, hp, hr, -, hc, rfl⟩ := emplace_back_inv_ok he
  obtain ⟨k, -, hbwd, -, hheap, -⟩ := prepare_back_rel hp
  obtain ⟨b1, hb1, hn2, -, hmem2⟩ := construct_inv hc
  obtain ⟨s0, -, hbr, -, -⟩ := elem_ptr_inv hr
  have hf1 : h1.fresh := by
    rcases hheap with rfl | ⟨rfl, -⟩
    · exact hf
    · intro p hp1
      simp only [Heap.allocate] at hp1 ⊢
      rw [Function.update_noteq (by omega)]
      exact hf p (by omega)
  have hkeep1 : ∀ q b, h.mem q = some b → h1.mem q = some b := by
    intro q b hq
    rcases hheap with rfl | ⟨rfl, -⟩
    · exact hq
    · have : q ≠ h.next := by
        intro e; rw [e, hf _ (Nat.le_refl _)] at hq; cases hq
      simp only [Heap.allocate]
      rw [Function.update_noteq this]; exact hq
  refine ⟨?_, ?_⟩
  · intro p hp1
    rw [hn2] at hp1
    have hne : p ≠ r.1 := by
      intro e
      have := hf1 r.1 (by rw [← e]; exact hp1)
      rw [hb1] at this; cases this
    rw [hmem2, Function.update_noteq hne]
    exact hf1 p hp1
  · intro q b hq hnot
    have hnot1 : ∀ s, bucket_at d1.data_ s ≠ some q := by
      intro s hs
      rcases hbwd s q hs with ⟨e, -⟩ | ho
      · rw [e, hf _ (Nat.le_refl _)] at hq; cases hq
      · exact hnot _ ho
    refine ⟨?_, hnot1⟩
    have hne : q ≠ r.1 := by
      intro e; rw [e] at hnot1; exact hnot1 s0 hbr
    rw [hmem2, Function.update_noteq hne]
    exact hkeep1 q b hq

/-- A container keeps holding its list when the heap changes outside its buckets. -/
theorem HoldsAt.frame {h h1 : Heap T} {src : Deque} {xs : List T} {Bs : Int}
    (hat : HoldsAt h src xs Bs) (hf1 : h1.fresh)
    (hkeep : ∀ q b s, bucket_at src.data_ s = some q → h.mem q = some b → h1.mem q = some b) :
    HoldsAt h1 src xs Bs := by
  have hcell : ∀ L c, cell h src.data_ L = some c → cell h1 src.data_ L = some c := by
    intro L c hc
    obtain ⟨p, b, hb, hm, hv⟩ := cell_some_iff.mp hc
    exact cell_some_iff.mpr ⟨p, b, hb, hkeep p b _ hb hm, hv⟩
  refine ⟨⟨⟨hf1, ?_, hat.map_ok.distinct⟩, hat.B_nonneg, hat.end_le, hat.map_ne, ?_, ?_⟩,
    hat.size_eq, hat.begin_eq, hat.end_eq⟩
  · intro s p hp
    obtain ⟨b, hb⟩ := hat.map_ok.alloc s p hp
    exact ⟨b, hkeep p b s hp hb⟩
  · intro k v hk
    exact hcell _ _ (hat.live k v hk)
  · intro hne
    obtain ⟨c, hc⟩ := hat.end_mapped hne
    exact ⟨c, hcell _ _ hc⟩

/-- The loop of the copy constructor is the filling loop over the list the copied
container holds. -/
theorem copy_fill_eq_fill (src : Deque) (throws : Nat → Option E) (xs : List T) (Bs : Int)
    (rest : List T) :
    ∀ (j k fuel : Nat) (h : Heap T) (d : Deque), HoldsAt h src xs Bs → xs.drop j = rest →
      j ≤ xs.length → rest.length < fuel →
      (∀ s q, bucket_at src.data_ s = some q → ∀ s1, bucket_at d.data_ s1 ≠ some q) →
      copy_fill src throws fuel k h d (ofLin (Bs + j)) = fill (outcomes throws k rest) h d := by
  induction rest with
  | nil =>
    intro j k fuel h d hat hdrop hj hfuel _
    obtain ⟨f, rfl⟩ : ∃ f, fuel = f + 1 := ⟨fuel - 1, by simp at hfuel; omega⟩
    have hjn : j = xs.length := by
      have := congrArg List.length hdrop
      simp at this; omega
    subst hjn
    simp [copy_fill, hat.end_eq, operator_ne_self, outcomes, fill]
  | cons x rest1 ih =>
    intro j k fuel h d hat hdrop hj hfuel hdisj
    obtain ⟨f, rfl⟩ : ∃ f, fuel = f + 1 := ⟨fuel - 1, by omega⟩
    have hlen := congrArg List.length hdrop
    simp only [List.length_drop, List.length_cons] at hlen
    have hjlt : j < xs.length := by omega
    have hx : xs[j]? = some x := by
      have := congrArg (fun l => l[0]?) hdrop
      simpa [List.getElem?_drop] using this
    have hdrop1 : xs.drop (j + 1) = rest1 := by
      have := congrArg List.tail hdrop
      simpa [List.tail_drop] using this
    have hne : operator_ne (ofLin (Bs + j)) src.end_ = true := by
      rw [hat.end_eq, operator_ne_ofLin]; omega
    obtain ⟨r, hr, hread⟩ := cell_read (hat.live j x hx)
    cases he : emplace_back (outcome throws k x) h d with
    | ok h1 d1 =>
      obtain ⟨hf1, hframe⟩ := emplace_back_frame hat.map_ok.fresh he
      have hat1 : HoldsAt h1 src xs Bs := by
        apply hat.frame hf1
        intro q b s hs hq
        exact (hframe q b hq (hdisj s q hs)).1
      have hdisj1 : ∀ s q, bucket_at src.data_ s = some q →
          ∀ s1, bucket_at d1.data_ s1 ≠ some q := by
        intro s q hs
        obtain ⟨b, hb⟩ := hat.map_ok.alloc s q hs
        exact (hframe q b hb (hdisj s q hs)).2
      have hrec := ih (j + 1) (k + 1) f h1 d1 hat1 hdrop1 (by omega)
        (by simp at hfuel; omega) hdisj1
      rw [show Bs + ((j + 1 : Nat) : Int) = Bs + j + 1 by push_cast; ring] at hrec
      simp only [copy_fill, hne, if_true, hr, hread, he, operator_inc_ofLin, hrec, outcomes, fill]
    | throw e0 h1 d1 =>
      simp only [copy_fill, hne, if_true, hr, hread, he, outcomes, fill]
    | fault f0 =>
      simp only [copy_fill, hne, if_true, hr, hread, he, outcomes, fill]

/-- Copying a container that holds `xs` is constructing from the list `xs`. -/
theorem copy_eq_from_list {h : Heap T} {src : Deque} {xs : List T} (hh : Holds h src xs)
    (throws : Nat → Option E) (alloc : Nat) :
    Deque.copy src throws alloc h = Deque.from_list xs throws alloc h := by
  unfold Deque.copy Deque.from_list
  congr 1
  rcases hh with ⟨-, hd, -, hb, he, hx⟩ | ⟨B, hat⟩
  · subst hx
    simp [hd, hb, he, walk_bound, copy_fill, operator_ne_self, outcomes, fill]
  · have := copy_fill_eq_fill src throws xs B xs 0 0 (walk_bound src.data_) h (Deque.init alloc)
      hat rfl (Nat.zero_le _) (walk_bound_gt hat) (by
        intro s q _ s1 hs1
        simp [Deque.init, bucket_at] at hs1)
    simp only [Nat.cast_zero, add_zero] at this
    rw [hat.begin_eq, this]

/-! ## Claims -/

/-- C1: for every finite sequence of `push_back` / `push_front` / `pop_back` /
`pop_front` applied to an empty deque, a pop being applied only when the sequence so
far is non-empty, every operation returns normally, `size()` is the length of the
reference list obtained with append, prepend, drop-last and drop-first, and reading
from `begin()` to `end()` by increments yields exactly the reference list. -/
theorem C1_end_operations (ops : List (Op T)) (alloc : Nat) (hok : pops_ok ops []) :
    ∃ h d, run_ops (E := E) ops Heap.empty (Deque.init alloc) = Res.ok h d ∧
      size d = (ref_ops ops []).length ∧ to_list h d = .ok (ref_ops ops []) := by
  obtain ⟨h, d, hr, hh⟩ := run_ops_spec (E := E) ops Heap.empty (Deque.init alloc) []
    (Holds.of_init _ _ (fun _ _ => rfl)) hok
  exact ⟨h, d, hr, hh.size_eq_length, hh.to_list_eq⟩

theorem C1_end_operations_witness :
    pops_ok [Op.push_back 1, Op.push_back 2, Op.push_front 0, Op.pop_back, Op.pop_front]
        ([] : List Nat) ∧
      ∃ h d, run_ops (E := Unit)
          [Op.push_back 1, Op.push_back 2, Op.push_front 0, Op.pop_back, Op.pop_front]
          Heap.empty (Deque.init 0) = Res.ok h d ∧
        size d = 1 ∧ to_list h d = .ok [1] :=
  ⟨by simp [pops_ok, Op.is_pop, Op.ref],
   C1_end_operations _ 0 (by simp [pops_ok, Op.is_pop, Op.ref])⟩

theorem eq_ofLin {it : BaseIterator} {a : Int} (harr : it.arr_ = some a)
    (hind : it.ind_j_ < 60) : it = ofLin (a * 60 + it.ind_j_) := by
  rw [ofLin_lin a _ hind]
  cases it
  simp only at harr
  subst harr
  rfl

theorem operator_diff_ofLin (L M : Int) (h1 : -9223372036854775000 ≤ L - M)
    (h2 : L - M ≤ 9223372036854775000) :
    operator_diff (ofLin L) (ofLin M) = some (L - M) := by
  simp only [operator_diff, ofLin, ptr_diff, Option.map_some', Option.some.injEq, toInt64,
    toInt32, kBucketSize]
  omega

/-- C7 (as amended): for every non-sentinel position whose offset is less than 60
and every `int` `d` for which the `int` arithmetic of `operator+=` does not overflow
(`offset + d ≤ 2^31 - 1` for `d ≥ 0`, `59 - offset - d ≤ 2^31 - 1` for `d < 0`), the
iterator difference `(it + d) - it` equals `d`. -/
theorem C7_plus_then_diff (it : BaseIterator) (a d : Int) (harr : it.arr_ = some a)
    (hind : it.ind_j_ < 60) (hlo : -2147483648 ≤ d) (hhi : d ≤ 2147483647)
    (hpos : 0 ≤ d → it.ind_j_ + d ≤ 2147483647)
    (hneg : d < 0 → 59 - it.ind_j_ - d ≤ 2147483647) :
    operator_diff (operator_plus it d) it = some d := by
  obtain ⟨L, hL, hmod⟩ : ∃ L : Int, it = ofLin L ∧ L % 60 = it.ind_j_ :=
    ⟨_, eq_ofLin harr hind, by omega⟩
  subst hL
  rw [operator_plus_eq, operator_plus_assign_ofLin _ d hlo (by omega)
      (by intro h0; have := hpos h0; omega) (by intro h0; have := hneg h0; omega),
    operator_diff_ofLin _ _ (by omega) (by omega)]
  congr 1; ring

theorem C7_plus_then_diff_witness :
    operator_diff (operator_plus { ind_j_ := 59, arr_ := some 3 } (-2147483647))
      { ind_j_ := 59, arr_ := some 3 } = some (-2147483647) :=
  C7_plus_then_diff { ind_j_ := 59, arr_ := some 3 } 3 (-2147483647) rfl (by decide) (by decide)
    (by decide) (by decide) (by decide)

/-- C7 (as stated) fails: at offset 1 and `d = INT_MAX` the sum `1 + d` overflows `int`
and `(it + d) - it` is not `d`. -/
theorem C7_counterexample :
    operator_diff (operator_plus { ind_j_ := 1, arr_ := some 0 } 2147483647)
      { ind_j_ := 1, arr_ := some 0 } ≠ some 2147483647 := by
  decide

/-- C8 (as amended): for every non-sentinel position with offset less than 60 and
every natural number `n`, if `offset + n ≤ 2^31 - 1` then `it + n` is the position
reached by `n` pre-increments, and if `59 - offset + n ≤ 2^31 - 1` then `it + (-n)` and
`it - n` are the position reached by `n` pre-decrements; the resulting offsets are
less than 60. -/
theorem C8_plus_is_steps (it : BaseIterator) (a : Int) (n : Nat) (harr : it.arr_ = some a)
    (hind : it.ind_j_ < 60) :
    (it.ind_j_ + n ≤ 2147483647 →
      operator_plus it n = Nat.iterate operator_inc n it ∧ (operator_plus it n).ind_j_ < 60) ∧
    (n + 59 ≤ 2147483647 + it.ind_j_ →
      operator_plus it (-(n : Int)) = Nat.iterate operator_dec n it ∧
      operator_minus it n = Nat.iterate operator_dec n it ∧
      (operator_minus it n).ind_j_ < 60) := by
  obtain ⟨L, hL, hmod⟩ : ∃ L : Int, it = ofLin L ∧ L % 60 = it.ind_j_ :=
    ⟨_, eq_ofLin harr hind, by omega⟩
  subst hL
  constructor
  · intro hn
    have hstep : operator_plus (ofLin L) n = ofLin (L + n) := by
      rw [operator_plus_eq]
      exact operator_plus_assign_ofLin _ n (by omega) (by omega) (by intro _; omega)
        (by intro h0; omega)
    rw [hstep, iterate_inc_ofLin]
    exact ⟨rfl, ofLin_ind_lt _⟩
  · intro hn
    have hstep : operator_plus_assign (ofLin L) (-(n : Int)) = ofLin (L - n) := by
      rw [operator_plus_assign_ofLin _ (-(n : Int)) (by omega) (by omega) (by intro _; omega)
        (by intro h0; omega)]
      congr 1
    have hneg : toInt32 (-toInt32 (n : Int)) = -(n : Int) := by
      simp only [toInt32]; omega
    refine ⟨?_, ?_, ?_⟩
    · rw [operator_plus_eq, hstep, iterate_dec_ofLin]
    · rw [operator_minus_eq, hneg, hstep, iterate_dec_ofLin]
    · rw [operator_minus_eq, hneg, hstep]
      exact ofLin_ind_lt _

theorem C8_plus_is_steps_witness :
    ((7 : Nat) + 65 ≤ 2147483647 →
      operator_plus { ind_j_ := 7, arr_ := some 2 } (65 : Nat) =
          Nat.iterate operator_inc 65 { ind_j_ := 7, arr_ := some 2 } ∧
        (operator_plus { ind_j_ := 7, arr_ := some 2 } (65 : Nat)).ind_j_ < 60) ∧
    (65 + 59 ≤ 2147483647 + (7 : Nat) →
      operator_plus { ind_j_ := 7, arr_ := some 2 } (-((65 : Nat) : Int)) =
          Nat.iterate operator_dec 65 { ind_j_ := 7, arr_ := some 2 } ∧
        operator_minus { ind_j_ := 7, arr_ := some 2 } (65 : Nat) =
          Nat.iterate operator_dec 65 { ind_j_ := 7, arr_ := some 2 } ∧
        (operator_minus { ind_j_ := 7, arr_ := some 2 } (65 : Nat)).ind_j_ < 60) :=
  C8_plus_is_steps { ind_j_ := 7, arr_ := some 2 } 2 65 rfl (by decide)

/-- C8 (as stated) fails: at offset 1 and `n = 2^31 - 1` the sum overflows `int`; the
offset of `it + n` is not less than 60 and `it + n` is not the position reached by `n`
pre-increments. -/
theorem C8_counterexample :
    ¬ ((operator_plus { ind_j_ := 1, arr_ := some 0 } (2147483647 : Nat)).ind_j_ < 60) ∧
      operator_plus { ind_j_ := 1, arr_ := some 0 } (2147483647 : Nat) ≠
        Nat.iterate operator_inc 2147483647 { ind_j_ := 1, arr_ := some 0 } := by
  have h1 : ¬ ((operator_plus { ind_j_ := 1, arr_ := some 0 } (2147483647 : Nat)).ind_j_ < 60) := by
    decide
  refine ⟨h1, ?_⟩
  intro e
  apply h1
  rw [e, show ({ ind_j_ := 1, arr_ := some 0 } : BaseIterator) = ofLin 1 from
    (ofLin_lin 0 1 (by omega)).symm ▸ (by norm_num), iterate_inc_ofLin]
  exact ofLin_ind_lt _

/-- C2: after exactly 30 `push_back` calls on an empty deque the slot at `end()` lies
one past the last slot of the one-slot map; `erase(begin() + 0)` copies `*(iter + 1)`
into `*iter` up to `iter = end() - 1`, reads the map out of range and does not
complete. -/
theorem C2_erase_reads_end :
    ∃ (h : Heap Nat) (d : Deque),
      run_ops (E := Unit) (List.replicate 30 (Op.push_back 0)) Heap.empty (Deque.init 0)
        = Res.ok h d ∧
      size d = 30 ∧ d.data_.length = 1 ∧ d.end = { ind_j_ := 0, arr_ := some 1 } ∧
      erase (E := Unit) h d (operator_plus d.begin 0) = Res.fault Fault.map_range := by
  obtain ⟨h, d, hr, -⟩ := push_backs_from_init (E := Unit) (0 : Nat) 0 29
  have hrun : run_ops (E := Unit) (List.replicate 30 (Op.push_back 0)) Heap.empty (Deque.init 0)
      = Res.ok h d := hr
  have hsz : (after_ops (E := Unit) (List.replicate 30 (Op.push_back (0 : Nat)))
      (fun _ d => if size d = 30 ∧ d.data_.length = 1 ∧ d.end = { ind_j_ := 0, arr_ := some 1 }
        then Res.fault Fault.diverged else Res.fault Fault.dangling)).is_fault Fault.diverged
      = true := by decide
  have hdec : (after_ops (E := Unit) (List.replicate 30 (Op.push_back (0 : Nat)))
      (fun h d => erase h d (operator_plus d.begin 0))).is_fault Fault.map_range = true := by
    decide
  simp only [after_ops, hrun] at hsz hdec
  refine ⟨h, d, hrun, ?_⟩
  have hshape : size d = 30 ∧ d.data_.length = 1 ∧ d.end = { ind_j_ := 0, arr_ := some 1 } := by
    by_contra hn
    rw [if_neg hn] at hsz
    simp [Res.is_fault] at hsz
  refine ⟨hshape.1, hshape.2.1, hshape.2.2, ?_⟩
  cases he : erase (E := Unit) h d (operator_plus d.begin 0) with
  | ok h1 d1 => rw [he] at hdec; simp [Res.is_fault] at hdec
  | throw e h1 d1 => rw [he] at hdec; simp [Res.is_fault] at hdec
  | fault f =>
    rw [he] at hdec
    simp only [Res.is_fault, decide_eq_true_eq] at hdec
    rw [hdec]

theorem operator_plus_begin {h : Heap T} {d : Deque} {xs : List T} (hh : Holds h d xs)
    (i : Nat) (hov : d.begin_.ind_j_ + i ≤ 2147483647) :
    operator_plus d.begin i = Nat.iterate operator_inc i d.begin_ := by
  rcases hh with ⟨-, -, -, hb, -, -⟩ | ⟨B, hh⟩
  · rw [Deque.begin, hb, iterate_inc_default]; rfl
  · have hmod : (((ofLin B).ind_j_ : Nat) : Int) = B % 60 := by
      have := hh.B_nonneg
      simp only [ofLin]; omega
    rw [hh.begin_eq] at hov
    rw [Deque.begin, hh.begin_eq, iterate_inc_ofLin, operator_plus_eq]
    exact operator_plus_assign_ofLin B i (by omega) (by omega) (by intro _; omega)
      (by intro h0; omega)

theorem begin_offset_30 {h : Heap T} {d : Deque} {xs : List T} (hh : Holds h d xs)
    (hb : d.begin_.ind_j_ = 30) (hne : d.data_ ≠ []) :
    ∃ B a, HoldsAt h d xs B ∧ d.begin_ = { ind_j_ := 30, arr_ := some a } := by
  rcases hh with ⟨-, hd, -, -, -, -⟩ | ⟨B, hh⟩
  · exact absurd hd hne
  · refine ⟨B, B / 60, hh, ?_⟩
    rw [hh.begin_eq] at hb ⊢
    simp only [ofLin] at hb ⊢
    rw [hb]

/-- C4: `at(i)` signals `std::out_of_range` exactly when `i ≥ size()`; for `i < size()`
it returns what `operator[](i)` returns; the container is left as it was. -/
theorem C4_at_checked (d : Deque) (i : Nat) :
    ((d.at_ i).1 = Access.out_of_range ↔ i ≥ size d) ∧
      (i < size d → (d.at_ i).1 =
        match operator_index d i with
        | .ok r => Access.ref r
        | .error f => Access.fault f) ∧
      (d.at_ i).2 = d := by
  unfold Deque.at_ operator_index size
  by_cases hi : i ≥ d.size_
  · simp only [hi, if_true, true_iff, and_true]
    exact ⟨trivial, fun hlt => absurd hi (by omega)⟩
  · simp only [hi, if_false]
    refine ⟨?_, ?_, ?_⟩
    · constructor
      · intro e
        split at e <;> cases e
      · intro e; exact e.elim
    · intro _
      split <;> rename_i heq <;> rw [heq]
    · split <;> rfl

/-- C5 (as amended): for every reachable deque and every index `i < size()` for which
`begin_ + i` does not overflow `int` (offset of `begin_` plus `i` at most `2^31 - 1`),
`operator[](i)` returns the element that dereferencing the iterator obtained by `i`
pre-increments of `begin()` returns, the `i`-th element of the sequence. -/
theorem C5_index_is_steps (h : Heap T) (d : Deque) (hr : Reachable h d) (i : Nat)
    (hi : i < size d) (hov : d.begin_.ind_j_ + i ≤ 2147483647) :
    ∃ r, operator_index d i = .ok r ∧
      elem_ptr d.data_ (Nat.iterate operator_inc i d.begin) = .ok r ∧
      ∃ xs x, to_list h d = .ok xs ∧ xs[i]? = some x ∧ h.read r = .ok x := by
  obtain ⟨xs, hh⟩ := hr.holds
  have hsz := hh.size_eq_length
  have hpos := operator_plus_begin hh i hov
  have hix : i < xs.length := by rw [← hsz]; exact hi
  obtain ⟨x, hx⟩ := exists_getElem? xs i hix
  rcases hh with ⟨-, -, -, -, -, he⟩ | ⟨B, hat⟩
  · subst he; simp at hix
  · obtain ⟨r, hr1, hr2⟩ := cell_read (hat.live i x hx)
    have hit : Nat.iterate operator_inc i d.begin_ = ofLin (B + i) := by
      rw [hat.begin_eq, iterate_inc_ofLin]
    refine ⟨r, ?_, by rw [Deque.begin, hit]; exact hr1, xs, x,
      Holds.to_list_eq (Or.inr ⟨B, hat⟩), hx, hr2⟩
    rw [operator_index, ← Deque.begin, hpos, hit]
    exact hr1

theorem C5_index_is_steps_witness :
    ∃ (h : Heap Nat) (d : Deque),
      run_ops (E := Unit) (List.replicate (64 + 1) (Op.push_back 5)) Heap.empty (Deque.init 0)
        = Res.ok h d ∧
      ∃ r, operator_index d 64 = .ok r ∧
        elem_ptr d.data_ (Nat.iterate operator_inc 64 d.begin) = .ok r ∧
        ∃ xs x, to_list h d = .ok xs ∧ xs[64]? = some x ∧ h.read r = .ok x := by
  obtain ⟨h, d, hr, hh, hb, hne⟩ := push_backs_from_init (E := Unit) (5 : Nat) 0 64
  have hreach : Reachable h d := by
    have key : ∀ (ops : List (Op Nat)) (h0 : Heap Nat) (d0 : Deque), Reachable h0 d0 →
        (∀ op ∈ ops, op.is_pop = false) →
        ∀ h1 d1, run_ops (E := Unit) ops h0 d0 = Res.ok h1 d1 → Reachable h1 d1 := by
      intro ops
      induction ops with
      | nil => intro h0 d0 hr0 _ h1 d1 e; simp only [run_ops] at e; cases e; exact hr0
      | cons op rest ih =>
        intro h0 d0 hr0 hp h1 d1 e
        cases hop : op.run (E := Unit) h0 d0 with
        | ok h3 d3 =>
          simp only [run_ops, hop] at e
          refine ih h3 d3 ?_ (fun o ho => hp o (List.mem_cons_of_mem _ ho)) h1 d1 e
          cases op with
          | push_back v => exact Reachable.emplace_back (.ok v) hr0 hop
          | push_front v => exact Reachable.emplace_front (.ok v) hr0 hop
          | pop_back => have := hp Op.pop_back (List.mem_cons_self _ _); cases this
          | pop_front => have := hp Op.pop_front (List.mem_cons_self _ _); cases this
        | throw e0 h3 d3 => simp only [run_ops, hop] at e; cases e
        | fault f => simp only [run_ops, hop] at e; cases e
    exact key _ _ _ (Reachable.init Heap.empty 0 (fun _ _ => rfl))
      (by intro op hop; rw [List.eq_of_mem_replicate hop]; rfl) h d hr
  exact ⟨h, d, hr, C5_index_is_steps h d hreach 64
    (by rw [size, hh.size_eq_length, List.length_replicate]; omega) (by rw [hb]; decide)⟩

/-- C5 (as stated) fails: on the deque built by 2147483619 `push_back` calls the offset
of `begin_` is 30 and `operator[](2147483618)` computes `30 + 2147483618` in `int`, which
overflows; the position it dereferences has offset `2^64 - 8`, outside every bucket,
while 2147483618 pre-increments of `begin()` reach an element. -/
theorem C5_counterexample :
    ∃ (h : Heap Nat) (d : Deque),
      run_ops (E := Unit) (List.replicate (2147483618 + 1) (Op.push_back 0)) Heap.empty
        (Deque.init 0) = Res.ok h d ∧
      2147483618 < size d ∧
      (∃ f, operator_index d 2147483618 = .error f) ∧
      ∃ r, elem_ptr d.data_ (Nat.iterate operator_inc 2147483618 d.begin) = .ok r := by
  obtain ⟨h, d, hr, hh, hb, hne⟩ := push_backs_from_init (E := Unit) (0 : Nat) 0 2147483618
  obtain ⟨B, a, hat, hbeg⟩ := begin_offset_30 hh hb hne
  refine ⟨h, d, hr, ?_, ?_, ?_⟩
  · rw [size, hh.size_eq_length, List.length_replicate]; omega
  · apply elem_ptr_bad_offset
    rw [hbeg, operator_plus_overflow]
    decide
  · have hx : (List.replicate (2147483618 + 1) (0 : Nat))[2147483618]? = some 0 := by
      rw [List.getElem?_replicate, if_pos (by omega)]
    obtain ⟨r, hr1, -⟩ := cell_read (hat.live 2147483618 0 hx)
    refine ⟨r, ?_⟩
    rw [Deque.begin, hat.begin_eq, iterate_inc_ofLin]
    exact hr1

/-- C6: for every list `L`, the deque constructed from `L` as an initializer list (no
element copy throwing) has `size() = length(L)`; reading from `begin()` to `end()` yields
`L` and reading from `rbegin()` to `rend()` yields the reverse of `L`. -/
theorem C6_from_list_round_trip (L : List T) (alloc : Nat) (h0 : Heap T)
    (hf : ∀ p, h0.next ≤ p → h0.mem p = none) :
    ∃ h d, Deque.from_list (E := E) L (fun _ => none) alloc h0 = Res.ok h d ∧
      size d = L.length ∧ to_list h d = .ok L ∧ to_list_rev h d = .ok L.reverse := by
  obtain ⟨h, d, he, hh⟩ := fill_ok (E := E) L h0 (Deque.init alloc) [] (Holds.of_init h0 alloc hf)
  simp only [List.nil_append] at hh
  refine ⟨h, d, ?_, hh.size_eq_length, hh.to_list_eq, hh.to_list_rev_eq⟩
  simp only [Deque.from_list, outcomes_none, he, guarded]

theorem C6_from_list_round_trip_witness :
    (∀ p, (Heap.empty : Heap Nat).next ≤ p → (Heap.empty : Heap Nat).mem p = none) ∧
      ∃ h d, Deque.from_list (E := Unit) [3, 1, 4, 1, 5] (fun _ => none) 0 Heap.empty = Res.ok h d ∧
        size d = 5 ∧ to_list h d = .ok [3, 1, 4, 1, 5] ∧ to_list_rev h d = .ok [5, 1, 4, 1, 3] :=
  ⟨fun _ _ => rfl, C6_from_list_round_trip [3, 1, 4, 1, 5] 0 Heap.empty (fun _ _ => rfl)⟩

theorem to_list_reserve {h : Heap T} {d : Deque} {xs : List T} (hh : Holds h d xs) :
    to_list h (reserve d) = .ok xs := by
  rcases hh with ⟨-, hd, -, -, -, hx⟩ | ⟨B, hh⟩
  · rw [reserve_empty d hd, hx]
    simp [to_list, walk_bound, read_range, operator_ne_self]
  · exact Holds.to_list_eq (Or.inr ⟨_, hh.reserve_at⟩)

theorem reserve_keeps_buckets (d : Deque) (i : Nat) (hi : i < d.data_.length) :
    (reserve d).data_.getD (d.data_.length + i) none = d.data_.getD i none := by
  have hne : d.data_ ≠ [] := by
    intro e; rw [e] at hi; simp at hi
  rw [reserve_nonempty d hne]
  simp only []
  rw [reserve_data_getD _ _ _ (by omega), if_pos (by omega)]
  congr 1; omega

/-- C10: for each value-producing constructor (`count` default values, `count` copies
of a value, initializer list, copy) asked to construct the list `L`, if the
construction of index `k` (the `k + 1`-th element) is the first to fail, with `e`, then
the constructor propagates `e`; of its allocator calls, the constructions are those of
the first `k` elements of `L`, each at its own address, the destructions are exactly
these constructions, each once, and every bucket it allocated was deallocated exactly
once and is free again. -/
theorem C10_constructor_rollback (c : Ctor T) (h0 : Heap T) (L : List T) (hc : c.builds h0 L)
    (throws : Nat → Option E) (alloc k : Nat) (e : E) (hk : k < L.length)
    (hth : throws k = some e) (hbefore : ∀ j, j < k → throws j = none) :
    ∃ h d new, c.run throws alloc h0 = Res.throw e h d ∧ RolledBack h0 h d (L.take k) new := by
  cases c with
  | count n dflt =>
    obtain ⟨rfl, hf⟩ := hc
    exact fill_rollback _ throws alloc h0 hf k hk e hth hbefore
  | value n v =>
    obtain ⟨rfl, hf⟩ := hc
    exact fill_rollback _ throws alloc h0 hf k hk e hth hbefore
  | list init =>
    obtain ⟨rfl, hf⟩ := hc
    exact fill_rollback _ throws alloc h0 hf k hk e hth hbefore
  | copy src =>
    have hh : Holds h0 src L := hc
    have hf : h0.fresh := hh.map_ok_of.fresh
    obtain ⟨h, d, new, he, hrb⟩ := fill_rollback L throws alloc h0 hf k hk e hth hbefore
    refine ⟨h, d, new, ?_, hrb⟩
    show Deque.copy src throws alloc h0 = _
    rw [copy_eq_from_list hh]
    exact he

theorem C10_constructor_rollback_witness :
    (Ctor.value 40 7).builds (Heap.empty : Heap Nat) (List.replicate 40 7) ∧
      ∃ h d new,
        (Ctor.value 40 (7 : Nat)).run (fun j => if j = 35 then some () else none) 0 Heap.empty
          = Res.throw () h d ∧
        RolledBack Heap.empty h d ((List.replicate 40 7).take 35) new :=
  ⟨⟨rfl, fun _ _ => rfl⟩,
   C10_constructor_rollback (Ctor.value 40 7) Heap.empty (List.replicate 40 7)
    ⟨rfl, fun _ _ => rfl⟩ (fun j => if j = 35 then some () else none) 0 35 ()
    (by simp) (by simp) (by intro j hj; simp; omega)⟩

/-! ## What single operations keep -/

theorem Keeps.same (h : Heap T) : Keeps h h := ⟨rfl, fun _ hp => hp⟩

theorem Keeps.then_keeps {h h1 h2 : Heap T} (a : Keeps h h1) (b : Keeps h1 h2) : Keeps h h2 :=
  ⟨b.1.trans a.1, fun p hp => b.2 p (a.2 p hp)⟩

theorem Keeps.of_allocate (h : Heap T) (a : Nat) : Keeps h (h.allocate a).2 := by
  refine ⟨rfl, ?_⟩
  intro p hp
  show Function.update h.mem h.next _ p ≠ none
  by_cases e : p = h.next
  · subst e; simp
  · rw [Function.update_noteq e]; exact hp

theorem Keeps.of_store {h h1 : Heap T} {r : Ref} {c : Option T} (he : h.store r c = .ok h1) :
    Keeps h h1 := by
  obtain ⟨b, hb, rfl⟩ := store_inv he
  refine ⟨rfl, ?_⟩
  intro p hp
  show Function.update h.mem r.1 _ p ≠ none
  by_cases e : p = r.1
  · subst e; simp
  · rw [Function.update_noteq e]; exact hp

theorem Keeps.of_construct {h h1 : Heap T} {a : Nat} {r : Ref} {v : T}
    (he : h.construct a r v = .ok h1) : Keeps h h1 := by
  obtain ⟨b, hb, -, hlog, hmem⟩ := construct_inv he
  refine ⟨by rw [hlog]; rfl, ?_⟩
  intro p hp
  rw [hmem]
  by_cases e : p = r.1
  · subst e; simp
  · rw [Function.update_noteq e]; exact hp

theorem destroy_inv {h h1 : Heap T} {a : Nat} {r : Ref} (he : h.destroy a r = .ok h1) :
    ∃ b, h.mem r.1 = some b ∧ h1.next = h.next ∧
      h1.log = Event.destroy a r (b r.2) :: h.log ∧
      h1.mem = Function.update h.mem r.1 (some (Function.update b r.2 none)) := by
  unfold Heap.destroy Heap.load at he
  cases hm : h.mem r.1 with
  | none => rw [hm] at he; cases he
  | some b =>
    rw [hm] at he
    simp only at he
    split at he
    · cases he
    · rename_i h2 hs
      obtain ⟨b2, hb2, rfl⟩ := store_inv hs
      rw [hm] at hb2
      cases hb2
      cases he
      exact ⟨b, rfl, rfl, rfl, rfl⟩

theorem Keeps.of_destroy {h h1 : Heap T} {a : Nat} {r : Ref} (he : h.destroy a r = .ok h1) :
    Keeps h h1 := by
  obtain ⟨b, hb, -, hlog, hmem⟩ := destroy_inv he
  refine ⟨by rw [hlog]; rfl, ?_⟩
  intro p hp
  rw [hmem]
  by_cases e : p = r.1
  · subst e; simp
  · rw [Function.update_noteq e]; exact hp

theorem Keeps.of_copy_assign {h h1 : Heap T} {dst src : Ref}
    (he : h.copy_assign dst src = .ok h1) : Keeps h h1 := by
  unfold Heap.copy_assign at he
  split at he
  · cases he
  · exact Keeps.of_store he

theorem emplace_shift_keeps (data : List (Option Nat)) (insert_it : BaseIterator) :
    ∀ (fuel : Nat) (h h1 : Heap T) (iter : BaseIterator),
      emplace_shift data insert_it fuel h iter = .ok h1 → Keeps h h1 := by
  intro fuel
  induction fuel with
  | zero => intro h h1 iter he; simp [emplace_shift] at he
  | succ n ih =>
    intro h h1 iter he
    unfold emplace_shift at he
    split at he
    · split at he
      · cases he
      · split at he
        · cases he
        · split at he
          · cases he
          · rename_i h2 hca
            exact (Keeps.of_copy_assign hca).then_keeps (ih _ _ _ he)
    · cases he; exact Keeps.same _

theorem erase_loop_keeps (d : Deque) :
    ∀ (fuel : Nat) (h h1 : Heap T) (iter : BaseIterator),
      erase_loop d fuel h iter = .ok h1 → Keeps h h1 := by
  intro fuel
  induction fuel with
  | zero => intro h h1 iter he; simp [erase_loop] at he
  | succ n ih =>
    intro h h1 iter he
    unfold erase_loop at he
    split at he
    · split at he
      · cases he
      · split at he
        · cases he
        · split at he
          · cases he
          · rename_i h2 hca
            exact (Keeps.of_copy_assign hca).then_keeps (ih _ _ _ he)
    · cases he; exact Keeps.same _

theorem allocate_data_keeps {h h1 : Heap T} {d d1 : Deque} {it : BaseIterator} {s : Int}
    (he : allocate_data h d it = .ok (h1, d1)) (hit : it.arr_ = some s)
    (hnone : bucket_at d.data_ s = none) :
    (∀ s1 p, bucket_at d.data_ s1 = some p → bucket_at d1.data_ s1 = some p) ∧
      h1 = (h.allocate d.allocator_).2 := by
  obtain ⟨s2, hs2, h0, h1s, rfl, rfl⟩ := allocate_data_inv he
  rw [hit] at hs2
  cases hs2
  refine ⟨?_, rfl⟩
  intro s1 p hp
  show bucket_at (d.data_.set s.toNat (some h.next)) s1 = some p
  rw [bucket_at_set _ _ ⟨h0, h1s⟩]
  have : s1 ≠ s := by intro e; rw [e, hnone] at hp; cases hp
  rw [if_neg this]; exact hp

theorem fulled_front_true {d : Deque} (he : fulled_front d = .ok true) :
    ∃ s : Int, d.begin_.arr_ = some s ∧ d.begin_.ind_j_ = 0 ∧ bucket_at d.data_ (s - 1) = none := by
  unfold fulled_front at he
  split at he
  · rename_i hind
    cases harr : d.begin_.arr_ with
    | none => rw [harr] at he; simp [slot_read, slot_index] at he
    | some s =>
      rw [harr, Option.map_some', slot_read_some] at he
      by_cases hr : 0 ≤ s - 1 ∧ s - 1 < d.data_.length
      · rw [if_pos hr] at he
        simp only [Except.ok.injEq, Option.isNone_iff_eq_none] at he
        refine ⟨s, rfl, hind, ?_⟩
        simp only [bucket_at, if_pos hr, he]
      · rw [if_neg hr] at he; cases he
  · cases he

theorem prepare_front_rel {h h1 : Heap T} {d d1 : Deque}
    (he : prepare_front h d = .ok (h1, d1)) :
    ∃ k : Nat,
      (∀ s p, bucket_at d.data_ s = some p → bucket_at d1.data_ (s + k) = some p) ∧
      (h1 = h ∨ h1 = (h.allocate d.allocator_).2) := by
  by_cases hd : d.data_ = []
  · refine ⟨0, ?_, ?_⟩
    · intro s p hp; rw [hd] at hp; simp [bucket_at] at hp
    · rw [prepare_front_default h d hd] at he
      simp only [Except.ok.injEq, Prod.mk.injEq] at he
      exact Or.inr he.1.symm
  · have hemp : d.data_.isEmpty = false := by
      cases hx : d.data_ with
      | nil => exact absurd hx hd
      | cons a t => rfl
    have hpos : 0 < d.data_.length := List.length_pos.mpr hd
    unfold prepare_front at he
    by_cases hc : d.begin_.ind_j_ = 0 ∧ d.begin_.arr_ = some 0
    · rw [if_pos (Or.inr hc)] at he
      simp only at he
      have hb : (operator_dec (reserve d).begin_).arr_ = some ((d.data_.length : Int) - 1) := by
        rw [reserve_nonempty d hd]
        simp [operator_dec, hc.1, hc.2]
      have hnone : bucket_at (reserve d).data_ ((d.data_.length : Int) - 1) = none := by
        rw [reserve_nonempty d hd]
        show bucket_at (reserve_data d.data_ (3 * d.data_.length)) _ = none
        rw [bucket_at_reserve_data]
        simp [bucket_at]
      obtain ⟨hk, hh⟩ := allocate_data_keeps he hb hnone
      refine ⟨d.data_.length, ?_, Or.inr ?_⟩
      · intro s p hp
        apply hk
        rw [reserve_nonempty d hd]
        show bucket_at (reserve_data d.data_ (3 * d.data_.length)) _ = some p
        rw [bucket_at_reserve_data, show s + (d.data_.length : Int) - d.data_.length = s by ring]
        exact hp
      · rw [hh, reserve_nonempty d hd]
    · have hc2 : ¬ (d.data_.isEmpty = true ∨ d.begin_.ind_j_ = 0 ∧ d.begin_.arr_ = some 0) := by
        rw [hemp]; simp only [Bool.false_eq_true, false_or]; exact hc
      rw [if_neg hc2] at he
      cases hff : fulled_front d with
      | error f => rw [hff] at he; cases he
      | ok b =>
        rw [hff] at he
        cases b with
        | false =>
          simp only [Except.ok.injEq, Prod.mk.injEq] at he
          obtain ⟨rfl, rfl⟩ := he
          exact ⟨0, by intro s p hp; simpa using hp, Or.inl rfl⟩
        | true =>
          simp only at he
          obtain ⟨s, hs, hind, hnone⟩ := fulled_front_true hff
          have hb : (operator_dec d.begin_).arr_ = some (s - 1) := by
            simp [operator_dec, hs, hind]
          obtain ⟨hk, hh⟩ := allocate_data_keeps he hb hnone
          exact ⟨0, by intro s1 p hp; simpa using hk s1 p hp, Or.inr hh⟩

theorem emplace_front_inv_ok {h h2 : Heap T} {d d2 : Deque} {c : Except E T}
    (he : emplace_front c h d = Res.ok h2 d2) :
    ∃ h1 d1 r v, prepare_front h d = .ok (h1, d1) ∧ elem_ptr d1.data_ d1.begin_ = .ok r ∧
      c = .ok v ∧ h1.construct d1.allocator_ r v = .ok h2 ∧
      d2 = { d1 with size_ := d1.size_ + 1 } := by
  unfold emplace_front at he
  cases hp : prepare_front h d with
  | error f => rw [hp] at he; cases he
  | ok x =>
    obtain ⟨h1, d1⟩ := x
    rw [hp] at he
    simp only at he
    cases hr : elem_ptr d1.data_ d1.begin_ with
    | error f => rw [hr] at he; cases he
    | ok r =>
      rw [hr] at he
      simp only at he
      cases c with
      | error e => cases he
      | ok v =>
        simp only at he
        cases hc : h1.construct d1.allocator_ r v with
        | error f => rw [hc] at he; cases he
        | ok h3 =>
          rw [hc] at he
          simp only [Res.ok.injEq] at he
          obtain ⟨rfl, rfl⟩ := he
          exact ⟨h1, d1, r, v, rfl, hr, rfl, hc, rfl⟩

theorem emplace_back_step {h h2 : Heap T} {d d2 : Deque} {c : Except E T}
    (he : emplace_back c h d = Res.ok h2 d2) :
    (∀ s p, bucket_at d.data_ s = some p → ∃ s1, bucket_at d2.data_ s1 = some p) ∧
      Keeps h h2 := by
  obtain ⟨h1, d1, r, v, hp, hr, -, hc, rfl⟩ := emplace_back_inv_ok he
  obtain ⟨k, hfwd, -, -, hheap, -⟩ := prepare_back_rel hp
  refine ⟨fun s p hsp => ⟨s + k, hfwd s p hsp⟩, ?_⟩
  have h01 : Keeps h h1 := by
    rcases hheap with rfl | ⟨rfl, -⟩
    · exact Keeps.same _
    · exact Keeps.of_allocate _ _
  exact h01.then_keeps (Keeps.of_construct hc)

theorem emplace_front_step {h h2 : Heap T} {d d2 : Deque} {c : Except E T}
    (he : emplace_front c h d = Res.ok h2 d2) :
    (∀ s p, bucket_at d.data_ s = some p → ∃ s1, bucket_at d2.data_ s1 = some p) ∧
      Keeps h h2 := by
  obtain ⟨h1, d1, r, v, hp, hr, -, hc, rfl⟩ := emplace_front_inv_ok he
  obtain ⟨k, hfwd, hheap⟩ := prepare_front_rel hp
  refine ⟨fun s p hsp => ⟨s + k, hfwd s p hsp⟩, ?_⟩
  have h01 : Keeps h h1 := by
    rcases hheap with rfl | rfl
    · exact Keeps.same _
    · exact Keeps.of_allocate _ _
  exact h01.then_keeps (Keeps.of_construct hc)

theorem pop_back_step {h h1 : Heap T} {d d1 : Deque}
    (he : pop_back (E := E) h d = Res.ok h1 d1) : d1.data_ = d.data_ ∧ Keeps h h1 := by
  unfold pop_back at he
  split at he
  · cases he
  · split at he
    · cases he
    · rename_i h2 hd
      cases he
      exact ⟨rfl, Keeps.of_destroy hd⟩

theorem pop_front_step {h h1 : Heap T} {d d1 : Deque}
    (he : pop_front (E := E) h d = Res.ok h1 d1) : d1.data_ = d.data_ ∧ Keeps h h1 := by
  unfold pop_front at he
  split at he
  · cases he
  · split at he
    · cases he
    · rename_i h2 hd
      cases he
      exact ⟨rfl, Keeps.of_destroy hd⟩

theorem emplace_step {h h2 : Heap T} {d d2 : Deque} {c : Heap T → Except Fault (Except E T)}
    {it : BaseIterator}
    (he : emplace c h d it = Res.ok h2 d2) :
    (∀ s p, bucket_at d.data_ s = some p → ∃ s1, bucket_at d2.data_ s1 = some p) ∧
      Keeps h h2 := by
  unfold emplace at he
  split at he
  · split at he
    · cases he
    · exact emplace_front_step he
  · split at he
    · split at he
      · cases he
      · exact emplace_back_step he
    · split at he
      · cases he
      · split at he
        · cases he
        · split at he
          · cases he
          · rename_i h1 hsh
            split at he
            · cases he
            · cases he
            · split at he
              · cases he
              · split at he
                · cases he
                · rename_i h3 has
                  obtain ⟨hm, hk⟩ := emplace_back_step he
                  exact ⟨hm, ((emplace_shift_keeps _ _ _ _ _ _ hsh).then_keeps
                    (Keeps.of_store has)).then_keeps hk⟩

theorem erase_step {h h2 : Heap T} {d d2 : Deque} {it : BaseIterator}
    (he : erase (E := E) h d it = Res.ok h2 d2) : d2.data_ = d.data_ ∧ Keeps h h2 := by
  unfold erase at he
  split at he
  · cases he
  · rename_i h1 hl
    obtain ⟨hd, hk⟩ := pop_back_step he
    exact ⟨hd, (erase_loop_keeps _ _ _ _ _ hl).then_keeps hk⟩

theorem reserve_keeps_map (d : Deque) :
    ∀ s p, bucket_at d.data_ s = some p → ∃ s1, bucket_at (reserve d).data_ s1 = some p := by
  intro s p hp
  have hd : d.data_ ≠ [] := by
    intro e; rw [e] at hp; simp [bucket_at] at hp
  refine ⟨s + d.data_.length, ?_⟩
  rw [reserve_nonempty d hd]
  show bucket_at (reserve_data d.data_ (3 * d.data_.length)) _ = some p
  rw [bucket_at_reserve_data, show s + (d.data_.length : Int) - d.data_.length = s by ring]
  exact hp

theorem Mut.run_keeps {h h1 : Heap T} {d d1 : Deque} (m : Mut E T)
    (he : m.run h d = Res.ok h1 d1) :
    (∀ s p, bucket_at d.data_ s = some p → ∃ s1, bucket_at d1.data_ s1 = some p) ∧
      Keeps h h1 := by
  cases m with
  | emplace_back c => exact emplace_back_step he
  | emplace_front c => exact emplace_front_step he
  | pop_back =>
    obtain ⟨hd, hk⟩ := pop_back_step he
    exact ⟨fun s p hp => ⟨s, by rw [hd]; exact hp⟩, hk⟩
  | pop_front =>
    obtain ⟨hd, hk⟩ := pop_front_step he
    exact ⟨fun s p hp => ⟨s, by rw [hd]; exact hp⟩, hk⟩
  | emplace it c => exact emplace_step he
  | erase it =>
    obtain ⟨hd, hk⟩ := erase_step he
    exact ⟨fun s p hp => ⟨s, by rw [hd]; exact hp⟩, hk⟩
  | reserve =>
    simp only [Mut.run, Res.ok.injEq] at he
    obtain ⟨rfl, rfl⟩ := he
    exact ⟨reserve_keeps_map d, Keeps.same _⟩

/-! ## States reachable with `reserve` -/

theorem Barren.elem_ptr_error {d : Deque} (hb : Barren d) (it : BaseIterator) :
    ∃ f, elem_ptr d.data_ it = .error f := by
  cases he : elem_ptr d.data_ it with
  | error f => exact ⟨f, rfl⟩
  | ok r =>
    obtain ⟨s, -, hs, -, -⟩ := elem_ptr_inv he
    rw [hb.2.1 s] at hs
    cases hs

theorem Barren.ind_ne_zero {d : Deque} (hb : Barren d) :
    d.begin_.ind_j_ ≠ 0 ∧ d.end_.ind_j_ ≠ 0 ∧ d.data_.isEmpty = false := by
  obtain ⟨hne, -, -, B, hB, hbe, hen⟩ := hb
  refine ⟨?_, ?_, ?_⟩
  · rw [hbe, Ne, ofLin_ind_eq_zero]; omega
  · rw [hen, Ne, ofLin_ind_eq_zero]; omega
  · cases hx : d.data_ with
    | nil => exact absurd hx hne
    | cons a t => rfl

theorem Barren.emplace_back_fault {d : Deque} (hb : Barren d) (c : Except E T) (h : Heap T) :
    ∃ f, emplace_back c h d = Res.fault f := by
  obtain ⟨hbi, hei, hemp⟩ := hb.ind_ne_zero
  have hp : prepare_back h d = .ok (h, d) := by
    unfold prepare_back fulled_back
    rw [hemp, if_neg (by simp [hei]), if_neg hei]
  obtain ⟨f, hf⟩ := hb.elem_ptr_error d.end_
  exact ⟨f, by simp only [emplace_back, hp, hf]⟩

theorem Barren.emplace_front_fault {d : Deque} (hb : Barren d) (c : Except E T) (h : Heap T) :
    ∃ f, emplace_front c h d = Res.fault f := by
  obtain ⟨hbi, hei, hemp⟩ := hb.ind_ne_zero
  have hp : prepare_front h d = .ok (h, { d with begin_ := operator_dec d.begin_ }) := by
    unfold prepare_front fulled_front
    rw [hemp, if_neg (by simp [hbi]), if_neg hbi]
  obtain ⟨f, hf⟩ := hb.elem_ptr_error (operator_dec d.begin_)
  exact ⟨f, by simp only [emplace_front, hp, hf]⟩

theorem Barren.reserve_barren {d : Deque} (hb : Barren d) : Barren (reserve d) := by
  obtain ⟨hne, hall, hsz, B, hB, hbe, hen⟩ := hb
  rw [reserve_nonempty d hne]
  refine ⟨?_, ?_, hsz, B + 60 * d.data_.length, by omega, ?_, ?_⟩
  · intro e
    have := congrArg List.length e
    simp only [reserve_data_length, List.length_nil] at this
    have hpos : 0 < d.data_.length := List.length_pos.mpr hne
    omega
  · intro s
    show bucket_at (reserve_data d.data_ (3 * d.data_.length)) s = none
    rw [bucket_at_reserve_data]; exact hall _
  · show ({ ind_j_ := d.begin_.ind_j_,
            arr_ := d.begin_.arr_.map fun a => (d.data_.length : Int) + a } : BaseIterator) = _
    rw [hbe, ofLin_shift]
  · show ({ ind_j_ := d.end_.ind_j_,
            arr_ := d.end_.arr_.map fun a => (d.data_.length : Int) + a } : BaseIterator) = _
    rw [hen, ofLin_shift]

theorem Holds.reserve_holds {h : Heap T} {d : Deque} {xs : List T} (hh : Holds h d xs) :
    Holds h (reserve d) xs ∨ Barren (reserve d) := by
  rcases hh with ⟨-, hd, hsz, -, -, -⟩ | ⟨B, hat⟩
  · right
    rw [reserve_empty d hd]
    refine ⟨by simp, ?_, hsz, 30, by norm_num, ?_, ?_⟩
    · intro s
      simp only [bucket_at]
      split
      · rename_i hr
        have : s.toNat = 0 := by
          have := hr.2; simp only [List.length_singleton, Nat.cast_one] at this; omega
        simp [this]
      · rfl
    · simp [ofLin]
    · simp [ofLin]
  · left
    exact Or.inr ⟨_, hat.reserve_at⟩

/-- A state reached with `reserve` among the calls either holds a list or has a map
without any bucket and no element. -/
theorem ReachableAll.inv {h : Heap T} {d : Deque} (hr : ReachableAll h d) :
    (∃ xs : List T, Holds h d xs) ∨ Barren d := by
  induction hr with
  | init h alloc hf => exact Or.inl ⟨[], Holds.of_init h alloc hf⟩
  | @step E0 h h1 d d1 m _ hv he ih =>
    rcases ih with ⟨xs, hh⟩ | hb
    · cases m with
      | emplace_back c =>
        cases c with
        | error e => exact absurd he (emplace_back_error_ne_ok e h h1 d d1)
        | ok v =>
          obtain ⟨h2, d2, he2, hh2⟩ := hh.after_emplace_back (E := E0) v
          have he1 : emplace_back (E := E0) (.ok v) h d = Res.ok h1 d1 := he
          rw [he1] at he2
          cases he2
          exact Or.inl ⟨_, hh2⟩
      | emplace_front c =>
        cases c with
        | error e => exact absurd he (emplace_front_error_ne_ok e h h1 d d1)
        | ok v =>
          obtain ⟨h2, d2, he2, hh2⟩ := hh.after_emplace_front (E := E0) v
          have he1 : emplace_front (E := E0) (.ok v) h d = Res.ok h1 d1 := he
          rw [he1] at he2
          cases he2
          exact Or.inl ⟨_, hh2⟩
      | pop_back =>
        have hne : xs ≠ [] := by
          intro e
          have := hh.size_eq_length
          rw [e] at this
          exact hv this
        obtain ⟨h2, d2, he2, hh2⟩ := hh.after_pop_back (E := E0) hne
        have he1 : pop_back (E := E0) h d = Res.ok h1 d1 := he
        rw [he1] at he2
        cases he2
        exact Or.inl ⟨_, hh2⟩
      | pop_front =>
        have hne : xs ≠ [] := by
          intro e
          have := hh.size_eq_length
          rw [e] at this
          exact hv this
        obtain ⟨h2, d2, he2, hh2⟩ := hh.after_pop_front (E := E0) hne
        have he1 : pop_front (E := E0) h d = Res.ok h1 d1 := he
        rw [he1] at he2
        cases he2
        exact Or.inl ⟨_, hh2⟩
      | emplace it c =>
        obtain ⟨i, hi, rfl⟩ := hv
        rw [hh.size_eq_length] at hi
        have he1 : emplace c h d (Nat.iterate operator_inc i d.begin_) = Res.ok h1 d1 := he
        obtain ⟨v, hh2⟩ := hh.emplace_inv c i hi he1
        exact Or.inl ⟨_, hh2⟩
      | erase it =>
        obtain ⟨i, hi, rfl⟩ := hv
        rw [hh.size_eq_length] at hi
        have he1 : erase (E := E0) h d (Nat.iterate operator_inc i d.begin_)
            = Res.ok h1 d1 := he
        rcases hh.after_erase (E := E0) i hi with ⟨h2, d2, he2, hh2⟩ | ⟨f, hf⟩
        · rw [he1] at he2
          cases he2
          exact Or.inl ⟨_, hh2⟩
        · rw [he1] at hf; cases hf
      | reserve =>
        simp only [Mut.run, Res.ok.injEq] at he
        obtain ⟨rfl, rfl⟩ := he
        rcases hh.reserve_holds with hh2 | hb2
        · exact Or.inl ⟨_, hh2⟩
        · exact Or.inr hb2
    · cases m with
      | emplace_back c =>
        obtain ⟨f, hf⟩ := hb.emplace_back_fault c h
        have he1 : emplace_back c h d = Res.ok h1 d1 := he
        rw [he1] at hf; cases hf
      | emplace_front c =>
        obtain ⟨f, hf⟩ := hb.emplace_front_fault c h
        have he1 : emplace_front c h d = Res.ok h1 d1 := he
        rw [he1] at hf; cases hf
      | pop_back => exact absurd hb.2.2.1 hv
      | pop_front => exact absurd hb.2.2.1 hv
      | emplace it c =>
        obtain ⟨i, hi, rfl⟩ := hv
        rw [hb.2.2.1] at hi
        have hi0 : i = 0 := by omega
        subst hi0
        have he1 : emplace c h d d.begin_ = Res.ok h1 d1 := he
        have hq : operator_eq d.begin_ d.begin = true := (operator_eq_iff _ _).mpr rfl
        simp only [emplace, hq, if_true] at he1
        cases hch : c h with
        | error f => rw [hch] at he1; cases he1
        | ok o =>
          rw [hch] at he1
          obtain ⟨f, hf⟩ := hb.emplace_front_fault o h
          simp only at he1
          rw [hf] at he1
          cases he1
      | erase it =>
        obtain ⟨i, hi, -⟩ := hv
        rw [hb.2.2.1] at hi
        omega
      | reserve =>
        simp only [Mut.run, Res.ok.injEq] at he
        obtain ⟨rfl, rfl⟩ := he
        exact Or.inr hb.reserve_barren

theorem ReachableAll.of_run_ops (ops : List (Op T)) :
    ∀ (h0 : Heap T) (d0 : Deque) (xs : List T), ReachableAll h0 d0 → Holds h0 d0 xs →
      pops_ok ops xs → ∀ h1 d1, run_ops (E := E) ops h0 d0 = Res.ok h1 d1 →
      ReachableAll h1 d1 := by
  induction ops with
  | nil =>
    intro h0 d0 xs hr _ _ h1 d1 e
    simp only [run_ops, Res.ok.injEq] at e
    obtain ⟨rfl, rfl⟩ := e
    exact hr
  | cons op rest ih =>
    intro h0 d0 xs hr hh hp h1 d1 e
    obtain ⟨hpop, hrest⟩ := hp
    have hsz := hh.size_eq_length
    cases op with
    | push_back v =>
      obtain ⟨h2, d2, he2, hh2⟩ := hh.after_emplace_back (E := E) v
      have hop : (Op.push_back v).run (E := E) h0 d0 = Res.ok h2 d2 := he2
      simp only [run_ops, hop] at e
      exact ih h2 d2 _ (ReachableAll.step (Mut.emplace_back (.ok v)) hr trivial he2) hh2 hrest
        h1 d1 e
    | push_front v =>
      obtain ⟨h2, d2, he2, hh2⟩ := hh.after_emplace_front (E := E) v
      have hop : (Op.push_front v).run (E := E) h0 d0 = Res.ok h2 d2 := he2
      simp only [run_ops, hop] at e
      exact ih h2 d2 _ (ReachableAll.step (Mut.emplace_front (.ok v)) hr trivial he2) hh2 hrest
        h1 d1 e
    | pop_back =>
      have hne : xs ≠ [] := hpop rfl
      obtain ⟨h2, d2, he2, hh2⟩ := hh.after_pop_back (E := E) hne
      have hop : (Op.pop_back : Op T).run (E := E) h0 d0 = Res.ok h2 d2 := he2
      simp only [run_ops, hop] at e
      have hv : (Mut.pop_back : Mut E T).valid d0 := by
        show d0.size_ ≠ 0
        rw [hsz]; exact fun e0 => hne (List.length_eq_zero.mp e0)
      exact ih h2 d2 _ (ReachableAll.step (Mut.pop_back : Mut E T) hr hv he2) hh2 hrest h1 d1 e
    | pop_front =>
      have hne : xs ≠ [] := hpop rfl
      obtain ⟨h2, d2, he2, hh2⟩ := hh.after_pop_front (E := E) hne
      have hop : (Op.pop_front : Op T).run (E := E) h0 d0 = Res.ok h2 d2 := he2
      simp only [run_ops, hop] at e
      have hv : (Mut.pop_front : Mut E T).valid d0 := by
        show d0.size_ ≠ 0
        rw [hsz]; exact fun e0 => hne (List.length_eq_zero.mp e0)
      exact ih h2 d2 _ (ReachableAll.step (Mut.pop_front : Mut E T) hr hv he2) hh2 hrest h1 d1 e

/-- A run of end operations from default construction ends in a reachable state. -/
theorem ReachableAll.of_ops (ops : List (Op T)) (alloc : Nat) (hok : pops_ok ops [])
    {h : Heap T} {d : Deque}
    (he : run_ops (E := E) ops Heap.empty (Deque.init alloc) = Res.ok h d) :
    ReachableAll h d :=
  ReachableAll.of_run_ops ops Heap.empty (Deque.init alloc) []
    (ReachableAll.init _ _ (fun _ _ => rfl)) (Holds.of_init _ _ (fun _ _ => rfl)) hok h d he

/-! ## Counting the calls of a rolled-back constructor -/

theorem Touches.idle (data : List (Option Nat)) (h : Heap T) : Touches data h h :=
  ⟨rfl, fun _ hq => hq, fun _ _ => rfl⟩

theorem Touches.then_touches {data : List (Option Nat)} {h h1 h2 : Heap T} (a : Touches data h h1)
    (b : Touches data h1 h2) : Touches data h h2 :=
  ⟨b.1.trans a.1, fun q hq => b.2.1 q (a.2.1 q hq),
    fun q hq => (b.2.2 q hq).trans (a.2.2 q hq)⟩

theorem Touches.fresh {data : List (Option Nat)} {h h1 : Heap T} (a : Touches data h h1)
    (hf : h.fresh) : h1.fresh := by
  intro p hp
  rw [a.1] at hp
  exact a.2.1 p (hf p hp)

theorem Touches.by_destroy {data : List (Option Nat)} {h h1 : Heap T} {a : Nat} {r : Ref}
    {s : Int} (hs : bucket_at data s = some r.1) (he : h.destroy a r = .ok h1) :
    Touches data h h1 := by
  obtain ⟨b, hb, hn, -, hmem⟩ := destroy_inv he
  refine ⟨hn, ?_, ?_⟩
  · intro q hq
    have hne : q ≠ r.1 := by intro e; rw [e, hb] at hq; cases hq
    rw [hmem, Function.update_noteq hne]; exact hq
  · intro q hq
    have hne : q ≠ r.1 := by intro e; exact hq s (e ▸ hs)
    rw [hmem, Function.update_noteq hne]

theorem destroy_range_touches (alloc : Nat) (data : List (Option Nat)) (last : BaseIterator) :
    ∀ (fuel : Nat) (h h1 : Heap T) (it : BaseIterator),
      destroy_range alloc data last fuel h it = .ok h1 → Touches data h h1 := by
  intro fuel
  induction fuel with
  | zero => intro h h1 it he; simp [destroy_range] at he
  | succ n ih =>
    intro h h1 it he
    unfold destroy_range at he
    split at he
    · split at he
      · cases he
      · rename_i r hr
        split at he
        · cases he
        · rename_i h2 hd
          obtain ⟨s, -, hs, -, -⟩ := elem_ptr_inv hr
          exact (Touches.by_destroy hs hd).then_touches (ih _ _ _ he)
    · cases he; exact Touches.idle _ _

theorem deallocate_all_touches (alloc : Nat) (data : List (Option Nat)) :
    ∀ (rest : List (Option Nat)) (h h1 : Heap T),
      (∀ p, some p ∈ rest → ∃ s, bucket_at data s = some p) →
      deallocate_all alloc rest h = .ok h1 → Touches data h h1 := by
  intro rest
  induction rest with
  | nil => intro h h1 _ he; simp only [deallocate_all] at he; cases he; exact Touches.idle _ _
  | cons x t ih =>
    intro h h1 hin he
    unfold deallocate_all at he
    split at he
    · cases he
    · rename_i h2 hd
      have ht := ih h2 h1 (fun p hp => hin p (List.mem_cons_of_mem _ hp)) he
      refine Touches.then_touches ?_ ht
      cases x with
      | none =>
        simp only [Heap.deallocate, Except.ok.injEq] at hd
        subst hd
        exact ⟨rfl, fun _ hq => hq, fun _ _ => rfl⟩
      | some q0 =>
        obtain ⟨s, hs⟩ := hin q0 (List.mem_cons_self _ _)
        unfold Heap.deallocate at hd
        simp only at hd
        split at hd
        · cases hd
        · cases hd
          refine ⟨rfl, ?_, ?_⟩
          · intro q hq
            show Function.update h.mem q0 none q = none
            by_cases e : q = q0
            · subst e; simp
            · rw [Function.update_noteq e]; exact hq
          · intro q hq
            have hne : q ≠ q0 := by intro e; exact hq s (e ▸ hs)
            show Function.update h.mem q0 none q = _
            rw [Function.update_noteq hne]

theorem mem_data_bucket (data : List (Option Nat)) (p : Nat) (hp : some p ∈ data) :
    ∃ s, bucket_at data s = some p := by
  rw [← mem_ptrs_iff]
  unfold ptrs
  exact List.mem_filterMap.mpr ⟨some p, hp, rfl⟩

theorem rollback_touches {h h1 : Heap T} {d d1 : Deque} (he : rollback h d = .ok (h1, d1)) :
    Touches d.data_ h h1 := by
  unfold rollback at he
  split at he
  · cases he
  · rename_i h2 hdr
    split at he
    · cases he
    · rename_i h3 hda
      simp only [Except.ok.injEq, Prod.mk.injEq] at he
      obtain ⟨rfl, -⟩ := he
      exact (destroy_range_touches _ _ _ _ _ _ _ hdr).then_touches
        (deallocate_all_touches _ _ _ _ _ (mem_data_bucket _) hda)

theorem destructor_touches {h h1 : Heap T} {d : Deque} (he : Deque.destructor h d = .ok h1) :
    Touches d.data_ h h1 := by
  unfold Deque.destructor at he
  split at he
  · cases he
  · rename_i h2 hdr
    exact (destroy_range_touches _ _ _ _ _ _ _ hdr).then_touches
      (deallocate_all_touches _ _ _ _ _ (mem_data_bucket _) he)

/-- A container keeps holding its list when the heap changes outside its buckets. -/
theorem Holds.framed {h h1 : Heap T} {d : Deque} {xs : List T} (hh : Holds h d xs)
    (hf1 : h1.fresh)
    (hkeep : ∀ q b s, bucket_at d.data_ s = some q → h.mem q = some b → h1.mem q = some b) :
    Holds h1 d xs := by
  rcases hh with ⟨hm, hd, hrest⟩ | ⟨B, hat⟩
  · refine Or.inl ⟨⟨hf1, ?_, ?_⟩, hd, hrest⟩
    · intro s p hp; rw [hd] at hp; simp [bucket_at] at hp
    · intro s s1 p hp; rw [hd] at hp; simp [bucket_at] at hp
  · exact Or.inr ⟨B, hat.frame hf1 hkeep⟩

/-- A container keeps holding its list while only buckets of another map change. -/
theorem Holds.untouched {h h1 : Heap T} {d : Deque} {xs : List T} {data : List (Option Nat)}
    (hh : Holds h d xs) (ht : Touches data h h1)
    (hsep : ∀ s q, bucket_at d.data_ s = some q → ∀ s1, bucket_at data s1 ≠ some q) :
    Holds h1 d xs := by
  apply hh.framed (ht.fresh hh.map_ok_of.fresh)
  intro q b s hs hq
  rw [ht.2.2 q (hsep s q hs)]
  exact hq

theorem Holds.destructor_ok {h : Heap T} {d : Deque} {xs : List T} (hh : Holds h d xs) :
    ∃ h1, Deque.destructor h d = .ok h1 ∧ Touches d.data_ h h1 := by
  have key : ∃ h1, Deque.destructor h d = .ok h1 := by
    rcases hh with ⟨-, hd, -, hb, he, -⟩ | ⟨B, hat⟩
    · refine ⟨h, ?_⟩
      simp [Deque.destructor, Deque.begin, Deque.end, hd, hb, he, walk_bound, destroy_range,
        operator_ne_self, deallocate_all]
    · obtain ⟨h1, hdr, hm1, -, -, -⟩ :=
        destroy_range_spec d.allocator_ d.data_ xs B (walk_bound d.data_) h hat.map_ok
          (walk_bound_gt hat) hat.live
      obtain ⟨h2, hda, -⟩ :=
        deallocate_all_spec d.allocator_ d.data_ h1 hm1.ptrs_nodup_of (by
          intro p hp
          obtain ⟨s, hs⟩ := (mem_ptrs_iff _ _).mp hp
          exact hm1.alloc s p hs)
      exact ⟨h2, by simp only [Deque.destructor, Deque.begin, Deque.end, hat.begin_eq,
        hat.end_eq, hdr, hda]⟩
  obtain ⟨h1, he⟩ := key
  exact ⟨h1, he, destructor_touches he⟩

/-! ## Copy construction and assignment next to other containers -/

theorem prepare_back_frame {h h1 : Heap T} {d d1 : Deque} (hf : h.fresh)
    (hp : prepare_back h d = .ok (h1, d1)) :
    h1.fresh ∧ ∀ q b, h.mem q = some b → (∀ s, bucket_at d.data_ s ≠ some q) →
      h1.mem q = some b ∧ ∀ s, bucket_at d1.data_ s ≠ some q := by
  obtain ⟨k, -, hbwd, -, hheap, -⟩ := prepare_back_rel hp
  have hf1 : h1.fresh := by
    rcases hheap with rfl | ⟨rfl, -⟩
    · exact hf
    · intro p hp1
      simp only [Heap.allocate] at hp1 ⊢
      rw [Function.update_noteq (by omega)]
      exact hf p (by omega)
  refine ⟨hf1, ?_⟩
  intro q b hq hnot
  refine ⟨?_, ?_⟩
  · rcases hheap with rfl | ⟨rfl, -⟩
    · exact hq
    · have : q ≠ h.next := by
        intro e; rw [e, hf _ (Nat.le_refl _)] at hq; cases hq
      simp only [Heap.allocate]
      rw [Function.update_noteq this]; exact hq
  · intro s hs
    rcases hbwd s q hs with ⟨e, -⟩ | ho
    · rw [e, hf _ (Nat.le_refl _)] at hq; cases hq
    · exact hnot _ ho

theorem emplace_back_frame_throw {h h1 : Heap T} {d d1 : Deque} {c : Except E T} {e : E}
    (hf : h.fresh) (he : emplace_back c h d = Res.throw e h1 d1) :
    h1.fresh ∧ ∀ q b, h.mem q = some b → (∀ s, bucket_at d.data_ s ≠ some q) →
      h1.mem q = some b ∧ ∀ s, bucket_at d1.data_ s ≠ some q :=
  prepare_back_frame hf (emplace_back_inv_throw he).1

/-- The filling loop changes no bucket but those of the container it fills. -/
theorem fill_frame (cs : List (Except E T)) :
    ∀ (h : Heap T) (d : Deque), h.fresh → ∀ h1 d1,
      (fill cs h d = Res.ok h1 d1 ∨ ∃ e, fill cs h d = Res.throw e h1 d1) →
      h1.fresh ∧ ∀ q b, h.mem q = some b → (∀ s, bucket_at d.data_ s ≠ some q) →
        h1.mem q = some b ∧ ∀ s, bucket_at d1.data_ s ≠ some q := by
  induction cs with
  | nil =>
    intro h d hf h1 d1 hres
    rcases hres with he | ⟨e, he⟩
    · simp only [fill, Res.ok.injEq] at he
      obtain ⟨rfl, rfl⟩ := he
      exact ⟨hf, fun q b hq hn => ⟨hq, hn⟩⟩
    · simp only [fill] at he; cases he
  | cons c cs ih =>
    intro h d hf h1 d1 hres
    cases hc : emplace_back c h d with
    | ok h2 d2 =>
      have hstep : fill (c :: cs) h d = fill cs h2 d2 := by simp only [fill, hc]
      rw [hstep] at hres
      obtain ⟨hf2, hfr2⟩ := emplace_back_frame hf hc
      obtain ⟨hf1, hfr1⟩ := ih h2 d2 hf2 h1 d1 hres
      refine ⟨hf1, ?_⟩
      intro q b hq hn
      obtain ⟨hq2, hn2⟩ := hfr2 q b hq hn
      exact hfr1 q b hq2 hn2
    | throw e2 h2 d2 =>
      have hstep : fill (c :: cs) h d = Res.throw e2 h2 d2 := by simp only [fill, hc]
      rw [hstep] at hres
      rcases hres with he | ⟨e, he⟩
      · cases he
      · simp only [Res.throw.injEq] at he
        obtain ⟨-, rfl, rfl⟩ := he
        exact emplace_back_frame_throw hf hc
    | fault f =>
      have hstep : fill (c :: cs) h d = Res.fault f := by simp only [fill, hc]
      rw [hstep] at hres
      rcases hres with he | ⟨e, he⟩ <;> cases he

theorem outcomes_ok (throws : Nat → Option E) (vs : List T) :
    ∀ k0, (∀ j, j < vs.length → throws (k0 + j) = none) →
      outcomes throws k0 vs = vs.map Except.ok := by
  induction vs with
  | nil => intro k0 _; rfl
  | cons v t ih =>
    intro k0 hno
    have h0 : throws k0 = none := by simpa using hno 0 (by simp)
    have ht := ih (k0 + 1) (by
      intro j hj
      have := hno (j + 1) (by simpa using hj)
      rw [← this]; congr 1; omega)
    simp only [outcomes, outcome, h0, ht, List.map_cons]

/-- The loop that copies or moves the elements of a container holding `xs` into
another container is the filling loop over `xs`. -/
theorem copy_fill_holds {h : Heap T} {src d : Deque} {xs : List T} (hh : Holds h src xs)
    (hsep : Separate src d) (throws : Nat → Option E) (k : Nat) :
    copy_fill src throws (walk_bound src.data_) k h d src.begin_
      = fill (outcomes throws k xs) h d := by
  rcases hh with ⟨-, hd, -, hb, he, hx⟩ | ⟨B, hat⟩
  · subst hx
    simp [hd, hb, he, walk_bound, copy_fill, operator_ne_self, outcomes, fill]
  · have := copy_fill_eq_fill src throws xs B xs 0 k (walk_bound src.data_) h d
      hat rfl (Nat.zero_le _) (walk_bound_gt hat) hsep
    simp only [Nat.cast_zero, add_zero] at this
    rw [hat.begin_eq, this]

/-- The copy constructor whose constructions all succeed builds a container that
holds the list of the source, in buckets of its own. -/
theorem copy_ok {h : Heap T} {src : Deque} {xs : List T} (hh : Holds h src xs)
    (throws : Nat → Option E) (hno : ∀ j, j < xs.length → throws j = none) (alloc : Nat) :
    ∃ h1 nd, Deque.copy src throws alloc h = Res.ok h1 nd ∧ Holds h1 nd xs ∧ h1.fresh ∧
      ∀ q b, h.mem q = some b → h1.mem q = some b ∧ ∀ s, bucket_at nd.data_ s ≠ some q := by
  have hf : h.fresh := hh.map_ok_of.fresh
  obtain ⟨h1, d1, hfill, hh1⟩ := fill_ok (E := E) xs h (Deque.init alloc) []
    (Holds.of_init h alloc hf)
  have hout : outcomes throws 0 xs = xs.map Except.ok :=
    outcomes_ok throws xs 0 (by simpa using hno)
  obtain ⟨hf1, hfr⟩ := fill_frame _ h (Deque.init alloc) hf h1 d1 (Or.inl hfill)
  refine ⟨h1, d1, ?_, by simpa using hh1, hf1, ?_⟩
  · rw [copy_eq_from_list hh]
    simp only [Deque.from_list, hout, hfill, guarded]
  · intro q b hq
    exact hfr q b hq (by intro s; simp [Deque.init, bucket_at])

/-- A filling constructor that fails leaves the buckets allocated before untouched. -/
theorem fill_rollback_frame (L : List T) (throws : Nat → Option E) (alloc : Nat) (h0 : Heap T)
    (hf : h0.fresh) (k : Nat) (hk : k < L.length) (e : E) (hth : throws k = some e)
    (hbefore : ∀ j, j < k → throws j = none) :
    ∃ h d, guarded (fill (outcomes throws 0 L) h0 (Deque.init alloc)) = Res.throw e h d ∧
      h.fresh ∧ ∀ q b, h0.mem q = some b → h.mem q = some b := by
  have hsplit := outcomes_split throws e L 0 k hk (by simpa using hth) (by simpa using hbefore)
  obtain ⟨h1, d1, new1, B1, hfill, hb1, hat1⟩ :=
    fill_throw (L.take k) e (outcomes throws (0 + k + 1) (L.drop (k + 1))) h0 h0
      (Deque.init alloc) [] [] (Built.at_init h0 alloc hf)
  simp only [List.nil_append] at hb1 hat1
  obtain ⟨h2, d2, new2, hroll, -⟩ := hb1.rollback_spec hat1
  obtain ⟨hf1, hfr⟩ := fill_frame _ h0 (Deque.init alloc) hf h1 d1 (Or.inr ⟨e, hfill⟩)
  have ht := rollback_touches hroll
  refine ⟨h2, d2, ?_, ht.fresh hf1, ?_⟩
  · rw [hsplit, hfill]
    simp only [guarded, hroll]
  · intro q b hq
    obtain ⟨hq1, hn1⟩ := hfr q b hq (by intro s; simp [Deque.init, bucket_at])
    rw [ht.2.2 q hn1]
    exact hq1

/-- Copy assignment whose copies all succeed: the target holds the list of the source
and so does the source. -/
theorem operator_assign_ok {h : Heap T} {a b : Deque} {xs ys : List T} (ha : Holds h a xs)
    (hb : Holds h b ys) (hsep : Separate b a) (pocca : Bool) (throws : Nat → Option E)
    (hno : ∀ j, j < ys.length → throws j = none) :
    ∃ h2 a2, operator_assign pocca throws h a b = Res.ok h2 a2 ∧ Holds h2 a2 ys ∧
      Holds h2 b ys := by
  obtain ⟨h1, nd, hcopy, hnd, hf1, hfr⟩ :=
    copy_ok hb throws hno (if pocca then b.allocator_ else a.allocator_)
  have ha1 : Holds h1 a xs := ha.framed hf1 (fun q bk s _ hq => (hfr q bk hq).1)
  have hb1 : Holds h1 b ys := hb.framed hf1 (fun q bk s _ hq => (hfr q bk hq).1)
  obtain ⟨h2, hdes, ht⟩ := ha1.destructor_ok
  refine ⟨h2, nd, ?_, ?_, ?_⟩
  · have hd2 : Deque.destructor h1 (swap a nd).2 = .ok h2 := hdes
    simp only [operator_assign, hcopy, hd2]
    rfl
  · apply hnd.untouched ht
    intro s q hs s1 hs1
    obtain ⟨bk, hbk⟩ := ha.map_ok_of.alloc s1 q hs1
    exact (hfr q bk hbk).2 s hs
  · exact hb1.untouched ht hsep

/-- Copy assignment in which a copy fails propagates the exception and keeps the
target and the source. -/
theorem operator_assign_throw {h : Heap T} {a b : Deque} {xs ys : List T} (ha : Holds h a xs)
    (hb : Holds h b ys) (pocca : Bool) (throws : Nat → Option E) (k : Nat) (e : E)
    (hk : k < ys.length) (hth : throws k = some e) (hbefore : ∀ j, j < k → throws j = none) :
    ∃ h2, operator_assign pocca throws h a b = Res.throw e h2 a ∧ Holds h2 a xs ∧
      Holds h2 b ys := by
  obtain ⟨h2, d2, he, hf2, hfr⟩ := fill_rollback_frame ys throws
    (if pocca then b.allocator_ else a.allocator_) h hb.map_ok_of.fresh k hk e hth hbefore
  have hcopy : Deque.copy b throws (if pocca then b.allocator_ else a.allocator_) h
      = Res.throw e h2 d2 := by
    rw [copy_eq_from_list hb]; exact he
  refine ⟨h2, ?_, ha.framed hf2 (fun q bk s _ hq => hfr q bk hq),
    hb.framed hf2 (fun q bk s _ hq => hfr q bk hq)⟩
  simp only [operator_assign, hcopy]

/-! ## Move assignment -/

theorem Holds.with_allocator {h : Heap T} {d : Deque} {xs : List T} (hh : Holds h d xs)
    (alloc : Nat) : Holds h { d with allocator_ := alloc } xs := by
  rcases hh with ⟨hm, hd, hs, hb, he, hx⟩ | ⟨B, hat⟩
  · exact Or.inl ⟨hm, hd, hs, hb, he, hx⟩
  · exact Or.inr ⟨B, ⟨hat.toHoldsCore, hat.size_eq, hat.begin_eq, hat.end_eq⟩⟩

/-- Move assignment through the storage swap: the target takes the members of the
source and the source those of the target; both end with the allocator the target
had. -/
theorem operator_assign_move_swap (pocma : Bool) (dflt : Nat) (throws : Nat → Option E)
    (h : Heap T) (a b : Deque) (hc : pocma = true ∨ a.allocator_ = b.allocator_) :
    operator_assign_move pocma dflt throws h a b
      = Res2.ok h { b with allocator_ := a.allocator_ } a := by
  unfold operator_assign_move
  rw [if_pos hc]
  rfl

/-- Move assignment through the element-wise path, all moves succeeding: the elements
of the source are appended to those the target holds, and the source is left in the
default state with its allocator. -/
theorem operator_assign_move_elementwise {h : Heap T} {a b : Deque} {xs ys : List T}
    (ha : Holds h a xs) (hb : Holds h b ys) (hsep : Separate b a) (pocma : Bool) (dflt : Nat)
    (throws : Nat → Option E) (hno : ∀ j, j < ys.length → throws j = none)
    (hc : ¬ (pocma = true ∨ a.allocator_ = b.allocator_)) :
    ∃ h2 a2, operator_assign_move pocma dflt throws h a b
        = Res2.ok h2 a2 (Deque.init b.allocator_) ∧
      Holds h2 a2 (xs ++ ys) ∧ Holds h2 (Deque.init b.allocator_) ([] : List T) := by
  have hf : h.fresh := ha.map_ok_of.fresh
  have hout : outcomes throws 0 ys = ys.map Except.ok :=
    outcomes_ok throws ys 0 (by simpa using hno)
  obtain ⟨h1, a1, hfill, ha1⟩ := fill_ok (E := E) ys h a xs ha
  obtain ⟨hf1, hfr⟩ := fill_frame _ h a hf h1 a1 (Or.inl hfill)
  have hkeep : ∀ q bk s, bucket_at b.data_ s = some q → h.mem q = some bk →
      h1.mem q = some bk ∧ ∀ s1, bucket_at a1.data_ s1 ≠ some q :=
    fun q bk s hs hq => hfr q bk hq (hsep s q hs)
  have hb1 : Holds h1 b ys := hb.framed hf1 (fun q bk s hs hq => (hkeep q bk s hs hq).1)
  obtain ⟨h2, hdes, ht⟩ := hb1.destructor_ok
  have hcf : copy_fill b throws (walk_bound b.data_) 0 h a b.begin_ = Res.ok h1 a1 := by
    rw [copy_fill_holds hb hsep, hout, hfill]
  refine ⟨h2, a1, ?_, ?_, Holds.of_init h2 _ (ht.fresh hf1)⟩
  · unfold operator_assign_move
    rw [if_neg hc]
    have hnd : (swap (Deque.init dflt) b).1 = b := rfl
    simp only [hnd, hcf, hdes]
    rfl
  · apply ha1.untouched ht
    intro s q hs s1 hs1
    obtain ⟨bk, hbk⟩ := hb.map_ok_of.alloc s1 q hs1
    exact (hkeep q bk s1 hs1 hbk).2 s hs

theorem fill_allocator (cs : List (Except E T)) :
    ∀ (h h1 : Heap T) (d d1 : Deque), fill cs h d = Res.ok h1 d1 →
      d1.allocator_ = d.allocator_ := by
  induction cs with
  | nil =>
    intro h h1 d d1 he
    simp only [fill, Res.ok.injEq] at he
    rw [he.2]
  | cons c cs ih =>
    intro h h1 d d1 he
    cases hc : emplace_back c h d with
    | ok h2 d2 =>
      simp only [fill, hc] at he
      obtain ⟨h3, d3, r, v, hp, -, -, -, rfl⟩ := emplace_back_inv_ok hc
      obtain ⟨k, -, -, -, -, hal⟩ := prepare_back_rel hp
      rw [ih _ _ _ _ he]
      exact hal
    | throw e2 h2 d2 => simp only [fill, hc] at he; cases he
    | fault f => simp only [fill, hc] at he; cases he

/-- Two containers built one after the other from lists hold them in buckets of
their own. -/
theorem two_containers (xs ys : List T) (alloc_a alloc_b : Nat) :
    ∃ (h1 : Heap T) (a : Deque) (h : Heap T) (b : Deque),
      Deque.from_list (E := E) xs (fun _ => none) alloc_a Heap.empty = Res.ok h1 a ∧
      Deque.from_list (E := E) ys (fun _ => none) alloc_b h1 = Res.ok h b ∧
      Holds h a xs ∧ Holds h b ys ∧ Separate b a ∧
      a.allocator_ = alloc_a ∧ b.allocator_ = alloc_b := by
  have hf0 : (Heap.empty : Heap T).fresh := fun _ _ => rfl
  obtain ⟨h1, a, hfa, hha⟩ := fill_ok (E := E) xs Heap.empty (Deque.init alloc_a) []
    (Holds.of_init _ _ hf0)
  obtain ⟨hf1, -⟩ := fill_frame _ _ _ hf0 h1 a (Or.inl hfa)
  obtain ⟨h, b, hfb, hhb⟩ := fill_ok (E := E) ys h1 (Deque.init alloc_b) []
    (Holds.of_init _ _ hf1)
  obtain ⟨hf2, hfr⟩ := fill_frame _ _ _ hf1 h b (Or.inl hfb)
  have hha1 : Holds h1 a xs := by simpa using hha
  have hkeep : ∀ q bk, h1.mem q = some bk →
      h.mem q = some bk ∧ ∀ s, bucket_at b.data_ s ≠ some q :=
    fun q bk hq => hfr q bk hq (by intro s; simp [Deque.init, bucket_at])
  refine ⟨h1, a, h, b, ?_, ?_, hha1.framed hf2 (fun q bk s _ hq => (hkeep q bk hq).1),
    by simpa using hhb, ?_, ?_, ?_⟩
  · simp only [Deque.from_list, outcomes_none, hfa, guarded]
  · simp only [Deque.from_list, outcomes_none, hfb, guarded]
  · intro s q hs s1 hs1
    obtain ⟨bk, hbk⟩ := hha1.map_ok_of.alloc s1 q hs1
    exact (hkeep q bk hbk).2 s hs
  · exact fill_allocator _ _ _ _ _ hfa
  · exact fill_allocator _ _ _ _ _ hfb

/-! ## Growth of the map -/

/-- C16: `reserve()` on a map of `n > 0` slots gives a map of exactly `3 * n` slots;
slot `n + i` holds the bucket pointer of the old slot `i` for every `i < n` and every
other slot is null; `begin_` and `end_` keep their in-bucket offsets and their slot
indices each grow by `n`.  `reserve()` on an empty map gives a map of exactly one null
slot with `begin_ == end_` at slot 0, offset 30.  Size and allocator are kept. -/
theorem C16_reserve_layout (d : Deque) :
    (d.data_ ≠ [] →
      (reserve d).data_.length = 3 * d.data_.length ∧
      (∀ i, i < d.data_.length →
        (reserve d).data_.getD (d.data_.length + i) none = d.data_.getD i none) ∧
      (∀ j, j < d.data_.length ∨ 2 * d.data_.length ≤ j →
        (reserve d).data_.getD j none = none) ∧
      (reserve d).begin_.ind_j_ = d.begin_.ind_j_ ∧ (reserve d).end_.ind_j_ = d.end_.ind_j_ ∧
      (∀ a, d.begin_.arr_ = some a → (reserve d).begin_.arr_ = some (a + d.data_.length)) ∧
      (∀ a, d.end_.arr_ = some a → (reserve d).end_.arr_ = some (a + d.data_.length))) ∧
    (d.data_ = [] →
      (reserve d).data_ = [none] ∧ (reserve d).begin_ = { ind_j_ := 30, arr_ := some 0 } ∧
      (reserve d).end_ = (reserve d).begin_) ∧
    (reserve d).size_ = d.size_ ∧ (reserve d).allocator_ = d.allocator_ := by
  refine ⟨?_, ?_, ?_⟩
  · intro hne
    rw [reserve_nonempty d hne]
    refine ⟨reserve_data_length _ _, ?_, ?_, rfl, rfl, ?_, ?_⟩
    · intro i hi
      show (reserve_data d.data_ (3 * d.data_.length)).getD (d.data_.length + i) none = _
      rw [reserve_data_getD _ _ _ (by omega), if_pos (by omega)]
      congr 1; omega
    · intro j hj
      show (reserve_data d.data_ (3 * d.data_.length)).getD j none = _
      rw [reserve_data_getD _ _ _ (by omega), if_neg (by omega)]
    · intro a ha
      show d.begin_.arr_.map (fun a => (d.data_.length : Int) + a) = _
      rw [ha, Option.map_some', add_comm]
    · intro a ha
      show d.end_.arr_.map (fun a => (d.data_.length : Int) + a) = _
      rw [ha, Option.map_some', add_comm]
  · intro he
    rw [reserve_empty d he]
    exact ⟨rfl, rfl, rfl⟩
  · by_cases he : d.data_ = []
    · rw [reserve_empty d he]; exact ⟨rfl, rfl⟩
    · rw [reserve_nonempty d he]; exact ⟨rfl, rfl⟩

theorem C16_reserve_layout_witness :
    ((reserve { allocator_ := 0, data_ := [some 4, none], size_ := 3,
                begin_ := { ind_j_ := 58, arr_ := some 0 },
                end_ := { ind_j_ := 1, arr_ := some 1 } }).data_.length = 3 * 2 ∧
      (reserve { allocator_ := 0, data_ := [some 4, none], size_ := 3,
                 begin_ := { ind_j_ := 58, arr_ := some 0 },
                 end_ := { ind_j_ := 1, arr_ := some 1 } }).begin_.arr_ = some (0 + (2 : Nat))) ∧
    (reserve (Deque.init 0)).data_ = [none] :=
  ⟨⟨((C16_reserve_layout (⟨0, [some 4, none], 3, ⟨58, some 0⟩, ⟨1, some 1⟩⟩ : Deque)).1
      (by decide)).1,
    ((C16_reserve_layout (⟨0, [some 4, none], 3, ⟨58, some 0⟩, ⟨1, some 1⟩⟩ : Deque)).1
      (by decide)).2.2.2.2.2.1 0 rfl⟩,
   ((C16_reserve_layout (Deque.init 0)).2.1 rfl).1⟩

/-! ## Invariants of reachable states -/

/-- C15: in every state reached from default construction by calls that return
normally (`emplace_back`/`push_back`, `emplace_front`/`push_front`, `pop_back` and
`pop_front` on a non-empty container, `emplace`/`insert` and `erase` at a position of
the container, `reserve`), the stored size is
`(endSlot - beginSlot) * 60 + endOffset - beginOffset`, and the iterator difference
`end() - begin()` is the stored size as a `ptrdiff_t`, hence the stored size itself
whenever that is below `2^63`. -/
theorem C15_size_is_distance (h : Heap T) (d : Deque) (hr : ReachableAll h d) :
    (∃ sd : Int, ptr_diff d.end.arr_ d.begin.arr_ = some sd ∧
      (size d : Int) = sd * 60 + d.end.ind_j_ - d.begin.ind_j_) ∧
    operator_diff d.end d.begin = some (toInt64 (size d)) ∧
    (size d < 9223372036854775808 → operator_diff d.end d.begin = some (size d : Int)) := by
  have key : ∀ (B : Int) (n : Nat), d.begin_ = ofLin B → d.end_ = ofLin (B + n) → d.size_ = n →
      (∃ sd : Int, ptr_diff d.end.arr_ d.begin.arr_ = some sd ∧
        (size d : Int) = sd * 60 + d.end.ind_j_ - d.begin.ind_j_) ∧
      operator_diff d.end d.begin = some (toInt64 (size d)) ∧
      (size d < 9223372036854775808 → operator_diff d.end d.begin = some (size d : Int)) := by
    intro B n hb he hs
    simp only [Deque.end, Deque.begin, size, hb, he, hs]
    refine ⟨⟨(B + n) / 60 - B / 60, rfl, ?_⟩, ?_, ?_⟩
    · simp only [ofLin]; omega
    · simp only [operator_diff, ofLin, ptr_diff, Option.map_some', Option.some.injEq, toInt64,
        toInt32, kBucketSize]
      omega
    · intro hlt
      simp only [operator_diff, ofLin, ptr_diff, Option.map_some', Option.some.injEq, toInt64,
        toInt32, kBucketSize]
      omega
  rcases hr.inv with ⟨xs, ⟨-, -, hsz, hb, he, -⟩ | ⟨B, hat⟩⟩ | ⟨-, -, hsz, B, -, hb, he⟩
  · simp only [Deque.end, Deque.begin, size, hb, he, hsz]
    refine ⟨⟨0, rfl, by simp [BaseIterator.default]⟩, by decide, fun _ => by decide⟩
  · exact key B xs.length hat.begin_eq hat.end_eq hat.size_eq
  · exact key B 0 hb (by simpa using he) hsz

theorem C15_size_is_distance_witness :
    ∃ (h : Heap Nat) (d : Deque),
      run_ops (E := Unit) [Op.push_back 1, Op.push_back 2, Op.push_front 0, Op.pop_back]
        Heap.empty (Deque.init 0) = Res.ok h d ∧
      (∃ sd : Int, ptr_diff d.end.arr_ d.begin.arr_ = some sd ∧
        (size d : Int) = sd * 60 + d.end.ind_j_ - d.begin.ind_j_) ∧
      operator_diff d.end d.begin = some (toInt64 (size d)) ∧
      (size d < 9223372036854775808 → operator_diff d.end d.begin = some (size d : Int)) := by
  have hok : pops_ok [Op.push_back 1, Op.push_back 2, Op.push_front 0, Op.pop_back]
      ([] : List Nat) := by simp [pops_ok, Op.is_pop, Op.ref]
  obtain ⟨h, d, he, -⟩ := run_ops_spec (E := Unit) _ Heap.empty (Deque.init 0) []
    (Holds.of_init _ _ (fun _ _ => rfl)) hok
  exact ⟨h, d, he, C15_size_is_distance h d (ReachableAll.of_ops _ 0 hok he)⟩

/-- C17: in every state reached from default construction by calls that return
normally, `reserve` included, every position of `[begin(), end())`, the `i`-th one
for `i < size()`, has its slot pointer inside the map, the slot holds a bucket pointer
that is not null and is allocated, and dereferencing the position returns an address in
that bucket: it takes neither the missing-bucket nor the out-of-map branch. -/
theorem C17_range_is_mapped (h : Heap T) (d : Deque) (hr : ReachableAll h d) (i : Nat)
    (hi : i < size d) :
    ∃ (s : Int) (p : Nat),
      (Nat.iterate operator_inc i d.begin).arr_ = some s ∧ 0 ≤ s ∧ s < d.data_.length ∧
      d.data_.getD s.toNat none = some p ∧ h.mem p ≠ none ∧
      elem_ptr d.data_ (Nat.iterate operator_inc i d.begin)
        = .ok (p, (Nat.iterate operator_inc i d.begin).ind_j_) := by
  rcases hr.inv with ⟨xs, ⟨-, -, hsz, -, -, -⟩ | ⟨B, hat⟩⟩ | ⟨-, -, hsz, -⟩
  · simp only [size, hsz] at hi; omega
  · simp only [size, hat.size_eq] at hi
    obtain ⟨v, hv⟩ := exists_getElem? xs i hi
    obtain ⟨p, b, hb, hm, -⟩ := cell_some_iff.mp (hat.live i v hv)
    have hrange := bucket_at_range hb
    refine ⟨(B + i) / 60, p, ?_, hrange.1, hrange.2, ?_, ?_, ?_⟩
    · rw [show d.begin = ofLin B from hat.begin_eq, iterate_inc_ofLin]
      rfl
    · simpa only [bucket_at, if_pos hrange] using hb
    · rw [hm]; simp
    · rw [show d.begin = ofLin B from hat.begin_eq, iterate_inc_ofLin, elem_ptr_of_bucket hb]
      rfl
  · simp only [size, hsz] at hi; omega

theorem C17_range_is_mapped_witness :
    ∃ (h : Heap Nat) (d : Deque),
      run_ops (E := Unit) (List.replicate (64 + 1) (Op.push_back 5)) Heap.empty (Deque.init 0)
        = Res.ok h d ∧ 64 < size d ∧
      ∃ (s : Int) (p : Nat),
        (Nat.iterate operator_inc 64 d.begin).arr_ = some s ∧ 0 ≤ s ∧ s < d.data_.length ∧
        d.data_.getD s.toNat none = some p ∧ h.mem p ≠ none ∧
        elem_ptr d.data_ (Nat.iterate operator_inc 64 d.begin)
          = .ok (p, (Nat.iterate operator_inc 64 d.begin).ind_j_) := by
  obtain ⟨h, d, he, hh, -, -⟩ := push_backs_from_init (E := Unit) (5 : Nat) 0 64
  have hok : ∀ n : Nat, pops_ok (List.replicate n (Op.push_back (5 : Nat))) [] := by
    intro n
    suffices hs : ∀ (l : List Nat), pops_ok (List.replicate n (Op.push_back (5 : Nat))) l from
      hs []
    induction n with
    | zero => intro l; trivial
    | succ k ih =>
      intro l
      rw [List.replicate_succ]
      exact ⟨(by intro hp; cases hp), ih _⟩
  have hsz : 64 < size d := by
    have := hh.size_eq_length
    simp only [List.length_replicate] at this
    show 64 < d.size_
    omega
  exact ⟨h, d, he, hsz,
    C17_range_is_mapped h d (ReachableAll.of_ops _ 0 (hok _) he) 64 hsz⟩

/-- C18: whatever the state, a call of `emplace_back`/`push_back`,
`emplace_front`/`push_front`, `pop_back`, `pop_front`, `emplace`/`insert`, `erase` or
`reserve` that returns normally keeps every bucket pointer of the map in the new map;
it makes no `deallocate` call and every allocated bucket is still allocated. -/
theorem C18_capacity_monotone (m : Mut E T) (h h1 : Heap T) (d d1 : Deque)
    (he : m.run h d = Res.ok h1 d1) :
    (∀ s p, bucket_at d.data_ s = some p → ∃ s1, bucket_at d1.data_ s1 = some p) ∧
      freed h1.log = freed h.log ∧ ∀ p, h.mem p ≠ none → h1.mem p ≠ none := by
  obtain ⟨hm, hk1, hk2⟩ := m.run_keeps he
  exact ⟨hm, hk1, hk2⟩

theorem C18_capacity_monotone_witness :
    ∃ (h h1 : Heap Nat) (d d1 : Deque),
      run_ops (E := Unit) (List.replicate (64 + 1) (Op.push_back 5)) Heap.empty (Deque.init 0)
        = Res.ok h d ∧
      (Mut.emplace_front (E := Unit) (.ok 9)).run h d = Res.ok h1 d1 ∧
      (∀ s p, bucket_at d.data_ s = some p → ∃ s1, bucket_at d1.data_ s1 = some p) ∧
      freed h1.log = freed h.log ∧ ∀ p, h.mem p ≠ none → h1.mem p ≠ none := by
  obtain ⟨h, d, he, hh, -, -⟩ := push_backs_from_init (E := Unit) (5 : Nat) 0 64
  obtain ⟨h1, d1, he1, -⟩ := hh.after_emplace_front (E := Unit) 9
  exact ⟨h, h1, d, d1, he, he1, C18_capacity_monotone (Mut.emplace_front (.ok 9)) h h1 d d1 he1⟩

/-! ## Defects at the ends -/

/-- C19: after exactly 30 `push_back` calls on an empty deque, `erase` at the last
element `begin() + 29`, a position of `[begin(), end())`, evaluates `*(iter + 1)`
with `iter + 1 == end()`; `end()` points one past the last slot of the one-slot map,
so the read is out of the map and `erase` does not complete. -/
theorem C19_erase_last_reads_end :
    ∃ (h : Heap Nat) (d : Deque),
      run_ops (E := Unit) (List.replicate 30 (Op.push_back 0)) Heap.empty (Deque.init 0)
        = Res.ok h d ∧
      size d = 30 ∧ d.data_.length = 1 ∧
      operator_plus (Nat.iterate operator_inc 29 d.begin) 1 = d.end ∧
      elem_ptr d.data_ d.end = .error Fault.map_range ∧
      erase (E := Unit) h d (Nat.iterate operator_inc 29 d.begin)
        = Res.fault Fault.map_range := by
  obtain ⟨h, d, hr, -⟩ := push_backs_from_init (E := Unit) (0 : Nat) 0 29
  have hrun : run_ops (E := Unit) (List.replicate 30 (Op.push_back 0)) Heap.empty (Deque.init 0)
      = Res.ok h d := hr
  have hsz : (after_ops (E := Unit) (List.replicate 30 (Op.push_back (0 : Nat)))
      (fun _ d => if size d = 30 ∧ d.data_.length = 1 ∧
          operator_plus (Nat.iterate operator_inc 29 d.begin) 1 = d.end ∧
          d.end = { ind_j_ := 0, arr_ := some 1 }
        then Res.fault Fault.diverged else Res.fault Fault.dangling)).is_fault Fault.diverged
      = true := by decide
  have hdec : (after_ops (E := Unit) (List.replicate 30 (Op.push_back (0 : Nat)))
      (fun h d => erase h d (Nat.iterate operator_inc 29 d.begin))).is_fault Fault.map_range
      = true := by decide
  simp only [after_ops, hrun] at hsz hdec
  refine ⟨h, d, hrun, ?_⟩
  have hshape : size d = 30 ∧ d.data_.length = 1 ∧
      operator_plus (Nat.iterate operator_inc 29 d.begin) 1 = d.end ∧
      d.end = { ind_j_ := 0, arr_ := some 1 } := by
    by_contra hn
    rw [if_neg hn] at hsz
    simp [Res.is_fault] at hsz
  refine ⟨hshape.1, hshape.2.1, hshape.2.2.1, ?_, ?_⟩
  · rw [hshape.2.2.2]
    unfold elem_ptr
    rw [slot_read_some, if_neg (by rw [hshape.2.1]; norm_num)]
  · cases he : erase (E := Unit) h d (Nat.iterate operator_inc 29 d.begin) with
    | ok h1 d1 => rw [he] at hdec; simp [Res.is_fault] at hdec
    | throw e h1 d1 => rw [he] at hdec; simp [Res.is_fault] at hdec
    | fault f =>
      rw [he] at hdec
      simp only [Res.is_fault, decide_eq_true_eq] at hdec
      rw [hdec]

/-- C20: `emplace_front` on a default-constructed deque with an element whose
construction throws propagates the exception after `--begin_`: `size()` is still 0
but `end() - begin()` is 1 and the slot at `begin()` holds no constructed object, so
reading `[begin(), end())` meets an unconstructed slot.  `emplace_back` in the same
situation leaves `end() - begin() == size() == 0`. -/
theorem C20_emplace_front_throw_moves_begin :
    (∃ (h : Heap Nat) (d : Deque),
      emplace_front (.error ()) (Heap.empty : Heap Nat) (Deque.init 0) = Res.throw () h d ∧
      size d = 0 ∧ operator_diff d.end d.begin = some 1 ∧
      to_list h d = .error Fault.no_object) ∧
    ∃ (h : Heap Nat) (d : Deque),
      emplace_back (.error ()) (Heap.empty : Heap Nat) (Deque.init 0) = Res.throw () h d ∧
      size d = 0 ∧ operator_diff d.end d.begin = some 0 ∧ to_list h d = .ok [] :=
  ⟨⟨_, _, rfl, rfl, by decide, rfl⟩, ⟨_, _, rfl, rfl, by decide, rfl⟩⟩

/-! ## Rollback and assignment -/

/-- C12: copy assignment `a = b` between two containers that hold `xs` and `ys` in
buckets of their own.  If every copy of an element of `b` succeeds, the call returns,
`a` then reads as `ys` and has the size of `b`, and `b` still reads as `ys`.  If the
copy of index `k` is the first to fail, its exception is propagated, the members of `a`
(map, `begin_`, `end_`, `size_`) are those from before the call, `a` still reads as
`xs` and `b` as `ys`. -/
theorem C12_copy_assign_transactional (pocca : Bool) (throws : Nat → Option E) (h : Heap T)
    (a b : Deque) (xs ys : List T) (ha : Holds h a xs) (hb : Holds h b ys)
    (hsep : Separate b a) :
    ((∀ j, j < ys.length → throws j = none) →
      ∃ h2 a2, operator_assign pocca throws h a b = Res.ok h2 a2 ∧
        to_list h2 a2 = .ok ys ∧ size a2 = size b ∧ to_list h2 b = .ok ys) ∧
    (∀ k e, k < ys.length → throws k = some e → (∀ j, j < k → throws j = none) →
      ∃ h2, operator_assign pocca throws h a b = Res.throw e h2 a ∧
        to_list h2 a = .ok xs ∧ to_list h2 b = .ok ys) := by
  constructor
  · intro hno
    obtain ⟨h2, a2, he, ha2, hb2⟩ := operator_assign_ok ha hb hsep pocca throws hno
    refine ⟨h2, a2, he, ha2.to_list_eq, ?_, hb2.to_list_eq⟩
    show a2.size_ = b.size_
    rw [ha2.size_eq_length, hb.size_eq_length]
  · intro k e hk hth hbefore
    obtain ⟨h2, he, ha2, hb2⟩ := operator_assign_throw ha hb pocca throws k e hk hth hbefore
    exact ⟨h2, he, ha2.to_list_eq, hb2.to_list_eq⟩

theorem C12_copy_assign_transactional_witness :
    ∃ (h1 : Heap Nat) (a : Deque) (h : Heap Nat) (b : Deque),
      Deque.from_list (E := Unit) [1, 2, 3] (fun _ => none) 0 Heap.empty = Res.ok h1 a ∧
      Deque.from_list (E := Unit) [4, 5] (fun _ => none) 0 h1 = Res.ok h b ∧
      Holds h a [1, 2, 3] ∧ Holds h b [4, 5] ∧ Separate b a ∧
      (∃ h2 a2, operator_assign (E := Unit) false (fun _ => none) h a b = Res.ok h2 a2 ∧
        to_list h2 a2 = .ok [4, 5] ∧ size a2 = size b ∧ to_list h2 b = .ok [4, 5]) ∧
      ∃ h2, operator_assign false (fun j => if j = 1 then some () else none) h a b
          = Res.throw () h2 a ∧
        to_list h2 a = .ok [1, 2, 3] ∧ to_list h2 b = .ok [4, 5] := by
  obtain ⟨h1, a, h, b, hfa, hfb, ha, hb, hsep, -, -⟩ :=
    two_containers (E := Unit) [1, 2, 3] [4, 5] 0 0
  exact ⟨h1, a, h, b, hfa, hfb, ha, hb, hsep,
    (C12_copy_assign_transactional false (fun _ => none) h a b
      [1, 2, 3] [4, 5] ha hb hsep).1 (fun _ _ => rfl),
    (C12_copy_assign_transactional false (fun j => if j = 1 then some () else none) h a b
      [1, 2, 3] [4, 5] ha hb hsep).2 1 () (by decide) (by simp)
      (by intro j hj; simp; omega)⟩

/-- C13: move assignment through the element-wise path (allocators differ and do not
propagate) into a target that holds `[1]` from a source that holds `[2]` appends: the
target then reads as `[1, 2]`, not as `[2]`. -/
theorem C13_elementwise_move_appends :
    ∃ (h1 : Heap Nat) (a : Deque) (h2 : Heap Nat) (b : Deque) (h3 : Heap Nat) (a2 b2 : Deque),
      push_back (E := Unit) 1 Heap.empty (Deque.init 0) = Res.ok h1 a ∧
      push_back (E := Unit) 2 h1 (Deque.init 1) = Res.ok h2 b ∧
      to_list h2 a = .ok [1] ∧ to_list h2 b = .ok [2] ∧
      operator_assign_move (E := Unit) false 0 (fun _ => none) h2 a b = Res2.ok h3 a2 b2 ∧
      to_list h3 a2 = .ok [1, 2] :=
  ⟨_, _, _, _, _, _, _, rfl, rfl, rfl, rfl, rfl, rfl⟩

/-- The source of a move.  After move construction the source has size 0 and
`begin() == end()`.  After a move assignment between two containers that hold `xs` and
`ys` in buckets of their own, all moves succeeding: through the element-wise path
(allocators differ and do not propagate) the source has size 0 and `begin() == end()`;
through the storage swap the source has the members the target had. -/
theorem operator_assign_move_source (pocma : Bool) (dflt : Nat) (throws : Nat → Option E)
    (h : Heap T) (a b : Deque) (xs ys : List T) (ha : Holds h a xs) (hb : Holds h b ys)
    (hsep : Separate b a) (hno : ∀ j, j < ys.length → throws j = none) :
    (size (Deque.from_move pocma dflt b).2 = 0 ∧
      operator_eq (Deque.from_move pocma dflt b).2.begin (Deque.from_move pocma dflt b).2.end
        = true) ∧
    ∃ h2 a2 b2, operator_assign_move pocma dflt throws h a b = Res2.ok h2 a2 b2 ∧
      ((pocma = true ∨ a.allocator_ = b.allocator_) →
        b2 = a ∧ size b2 = xs.length ∧ to_list h2 b2 = .ok xs ∧
        (xs = [] → operator_eq b2.begin b2.end = true)) ∧
      (¬ (pocma = true ∨ a.allocator_ = b.allocator_) →
        size b2 = 0 ∧ operator_eq b2.begin b2.end = true) := by
  refine ⟨⟨rfl, rfl⟩, ?_⟩
  by_cases hc : pocma = true ∨ a.allocator_ = b.allocator_
  · refine ⟨h, _, a, operator_assign_move_swap pocma dflt throws h a b hc, ?_,
      fun hn => absurd hc hn⟩
    intro _
    refine ⟨rfl, ha.size_eq_length, ha.to_list_eq, ?_⟩
    intro hx
    subst hx
    rw [operator_eq_iff]
    rcases ha with ⟨-, -, -, hbeg, hend, -⟩ | ⟨B, hat⟩
    · show a.begin_ = a.end_
      rw [hbeg, hend]
    · show a.begin_ = a.end_
      rw [hat.begin_eq, hat.end_eq]
      simp
  · obtain ⟨h2, a2, he, -, -⟩ :=
      operator_assign_move_elementwise ha hb hsep pocma dflt throws hno hc
    exact ⟨h2, a2, _, he, fun hp => absurd hp hc, fun _ => ⟨rfl, rfl⟩⟩

/-- C14: the move assignment `a = std::move(b)` through the storage swap (equal
allocators), with `a` holding `[1]` and `b` holding `[2]`, leaves the source `b` with
size 1, `begin() != end()` and the sequence `[1]`, not empty; move construction from
the same `b`, and the element-wise path of the assignment (the source `c` built like
`b` with another allocator), leave the source with size 0 and `begin() == end()`. -/
theorem C14_swap_path_source_not_empty :
    ∃ (h1 : Heap Nat) (a : Deque) (h2 : Heap Nat) (b : Deque) (h3 : Heap Nat) (a2 b2 : Deque),
      push_back (E := Unit) 1 Heap.empty (Deque.init 0) = Res.ok h1 a ∧
      push_back (E := Unit) 2 h1 (Deque.init 0) = Res.ok h2 b ∧
      to_list h2 a = .ok [1] ∧ to_list h2 b = .ok [2] ∧
      operator_assign_move (E := Unit) false 0 (fun _ => none) h2 a b = Res2.ok h3 a2 b2 ∧
      size b2 = 1 ∧ operator_eq b2.begin b2.end = false ∧ to_list h3 b2 = .ok [1] ∧
      size (Deque.from_move false 0 b).2 = 0 ∧
      operator_eq (Deque.from_move false 0 b).2.begin (Deque.from_move false 0 b).2.end = true ∧
      ∃ (h4 : Heap Nat) (c : Deque) (h5 : Heap Nat) (a3 c3 : Deque),
        push_back (E := Unit) 2 h1 (Deque.init 1) = Res.ok h4 c ∧
        operator_assign_move (E := Unit) false 0 (fun _ => none) h4 a c = Res2.ok h5 a3 c3 ∧
        size c3 = 0 ∧ operator_eq c3.begin c3.end = true :=
  ⟨_, _, _, _, _, _, _, rfl, rfl, rfl, rfl, rfl, rfl, rfl, rfl, rfl, rfl,
    _, _, _, _, _, rfl, rfl, rfl, rfl⟩

/-! ## Order of positions -/

theorem operator_diff_in_map {data : List (Option Nat)} {a b : BaseIterator}
    (ha : InMap data a) (hb : InMap data b)
    (hn : 60 * (data.length + 1) ≤ 9223372036854775808) :
    ∃ sa sb : Int, a.arr_ = some sa ∧ b.arr_ = some sb ∧
      operator_diff a b = some ((sa - sb) * 60 + a.ind_j_ - b.ind_j_) ∧
      operator_diff b a = some ((sb - sa) * 60 + b.ind_j_ - a.ind_j_) ∧
      -60 < (a.ind_j_ : Int) - b.ind_j_ ∧ (a.ind_j_ : Int) - b.ind_j_ < 60 := by
  obtain ⟨hia, sa, hsa, hsa0, hsa1⟩ := ha
  obtain ⟨hib, sb, hsb, hsb0, hsb1⟩ := hb
  simp only [kBucketSize] at hia hib
  refine ⟨sa, sb, hsa, hsb, ?_, ?_, by omega, by omega⟩
  · simp only [operator_diff, hsa, hsb, ptr_diff, Option.map_some', Option.some.injEq, toInt64,
      toInt32, kBucketSize]
    omega
  · simp only [operator_diff, hsa, hsb, ptr_diff, Option.map_some', Option.some.injEq, toInt64,
      toInt32, kBucketSize]
    omega

/-- C21: for two positions `a` and `b` of one map, offsets below 60, the map within
the range of `ptrdiff_t` (`60 * (data_.size() + 1) ≤ 2^63`): `a == b` exactly when
`a - b == 0`; exactly one of `a < b`, `a == b`, `a > b` holds; `a <= b` exactly when
`a < b` or `a == b`, `a >= b` exactly when `a > b` or `a == b`; and `a < b` exactly
when the pair (slot, offset) of `a` is lexicographically smaller than that of `b`. -/
theorem C21_order_agrees_with_distance (data : List (Option Nat)) (a b : BaseIterator)
    (ha : InMap data a) (hb : InMap data b)
    (hn : 60 * (data.length + 1) ≤ 9223372036854775808) :
    (operator_eq a b = true ↔ operator_diff a b = some 0) ∧
    ((operator_lt a b = some true ∨ operator_eq a b = true ∨ operator_gt a b = some true) ∧
      ¬ (operator_lt a b = some true ∧ operator_eq a b = true) ∧
      ¬ (operator_lt a b = some true ∧ operator_gt a b = some true) ∧
      ¬ (operator_eq a b = true ∧ operator_gt a b = some true)) ∧
    (operator_le a b = some true ↔ (operator_lt a b = some true ∨ operator_eq a b = true)) ∧
    (operator_ge a b = some true ↔ (operator_gt a b = some true ∨ operator_eq a b = true)) ∧
    (operator_lt a b = some true ↔
      ∃ sa sb : Int, a.arr_ = some sa ∧ b.arr_ = some sb ∧
        (sa < sb ∨ (sa = sb ∧ a.ind_j_ < b.ind_j_))) := by
  obtain ⟨sa, sb, hsa, hsb, hab, hba, hlo, hhi⟩ := operator_diff_in_map ha hb hn
  have heq : operator_eq a b = true ↔ sa = sb ∧ a.ind_j_ = b.ind_j_ := by
    simp [operator_eq, hsa, hsb]
  have hgt : operator_gt a b = some true ↔ (sa - sb) * 60 + a.ind_j_ - b.ind_j_ > 0 := by
    simp [operator_gt, hab]
  have hlt : operator_lt a b = some true ↔ (sb - sa) * 60 + b.ind_j_ - a.ind_j_ > 0 := by
    simp [operator_lt, operator_gt, hba]
  have hle : operator_le a b = some true ↔ ¬ ((sa - sb) * 60 + a.ind_j_ - b.ind_j_ > 0) := by
    simp [operator_le, operator_gt, hab]
  have hge : operator_ge a b = some true ↔ ¬ ((sb - sa) * 60 + b.ind_j_ - a.ind_j_ > 0) := by
    simp [operator_ge, operator_lt, operator_gt, hba]
  refine ⟨?_, ⟨?_, ?_, ?_, ?_⟩, ?_, ?_, ?_⟩
  · rw [heq, hab, Option.some.injEq]; omega
  · rw [heq, hgt, hlt]; omega
  · rw [heq, hlt]; omega
  · rw [hgt, hlt]; omega
  · rw [heq, hgt]; omega
  · rw [hle, hlt, heq]; omega
  · rw [hge, hgt, heq]; omega
  · rw [hlt]
    constructor
    · intro h; exact ⟨sa, sb, hsa, hsb, by omega⟩
    · rintro ⟨sa2, sb2, hsa2, hsb2, h⟩
      rw [hsa] at hsa2; rw [hsb] at hsb2
      cases hsa2; cases hsb2
      omega

theorem C21_order_agrees_with_distance_witness :
    InMap [some 0, none, some 1] { ind_j_ := 59, arr_ := some 0 } ∧
    InMap [some 0, none, some 1] { ind_j_ := 0, arr_ := some 1 } ∧
    ((operator_eq { ind_j_ := 59, arr_ := some 0 } { ind_j_ := 0, arr_ := some 1 } = true ↔
        operator_diff { ind_j_ := 59, arr_ := some 0 } { ind_j_ := 0, arr_ := some 1 }
          = some 0) ∧
      ((operator_lt { ind_j_ := 59, arr_ := some 0 } { ind_j_ := 0, arr_ := some 1 } = some true ∨
          operator_eq { ind_j_ := 59, arr_ := some 0 } { ind_j_ := 0, arr_ := some 1 } = true ∨
          operator_gt { ind_j_ := 59, arr_ := some 0 } { ind_j_ := 0, arr_ := some 1 }
            = some true) ∧
        ¬ (operator_lt { ind_j_ := 59, arr_ := some 0 } { ind_j_ := 0, arr_ := some 1 }
            = some true ∧
          operator_eq { ind_j_ := 59, arr_ := some 0 } { ind_j_ := 0, arr_ := some 1 } = true) ∧
        ¬ (operator_lt { ind_j_ := 59, arr_ := some 0 } { ind_j_ := 0, arr_ := some 1 }
            = some true ∧
          operator_gt { ind_j_ := 59, arr_ := some 0 } { ind_j_ := 0, arr_ := some 1 }
            = some true) ∧
        ¬ (operator_eq { ind_j_ := 59, arr_ := some 0 } { ind_j_ := 0, arr_ := some 1 } = true ∧
          operator_gt { ind_j_ := 59, arr_ := some 0 } { ind_j_ := 0, arr_ := some 1 }
            = some true)) ∧
      (operator_le { ind_j_ := 59, arr_ := some 0 } { ind_j_ := 0, arr_ := some 1 } = some true ↔
        (operator_lt { ind_j_ := 59, arr_ := some 0 } { ind_j_ := 0, arr_ := some 1 }
            = some true ∨
          operator_eq { ind_j_ := 59, arr_ := some 0 } { ind_j_ := 0, arr_ := some 1 } = true)) ∧
      (operator_ge { ind_j_ := 59, arr_ := some 0 } { ind_j_ := 0, arr_ := some 1 } = some true ↔
        (operator_gt { ind_j_ := 59, arr_ := some 0 } { ind_j_ := 0, arr_ := some 1 }
            = some true ∨
          operator_eq { ind_j_ := 59, arr_ := some 0 } { ind_j_ := 0, arr_ := some 1 } = true)) ∧
      (operator_lt { ind_j_ := 59, arr_ := some 0 } { ind_j_ := 0, arr_ := some 1 } = some true ↔
        ∃ sa sb : Int, ({ ind_j_ := 59, arr_ := some 0 } : BaseIterator).arr_ = some sa ∧
          ({ ind_j_ := 0, arr_ := some 1 } : BaseIterator).arr_ = some sb ∧
          (sa < sb ∨ (sa = sb ∧ ({ ind_j_ := 59, arr_ := some 0 } : BaseIterator).ind_j_ <
            ({ ind_j_ := 0, arr_ := some 1 } : BaseIterator).ind_j_)))) :=
  ⟨⟨by decide, 0, rfl, by decide, by decide⟩, ⟨by decide, 1, rfl, by decide, by decide⟩,
   C21_order_agrees_with_distance [some 0, none, some 1] ⟨59, some 0⟩ ⟨0, some 1⟩
    ⟨by decide, 0, rfl, by decide, by decide⟩ ⟨by decide, 1, rfl, by decide, by decide⟩
    (by decide)⟩

/-- The bound on the map in C21 is the range of `ptrdiff_t`: in a map of
307445734561825860 slots the distance of the position at the last slot, offset 16, from
the first position is `2^64` and the difference computed in 64 bits is 0, though the
positions differ. -/
theorem operator_diff_wraps :
    InMap (List.replicate 307445734561825860 none)
        { ind_j_ := 16, arr_ := some 307445734561825860 } ∧
      InMap (List.replicate 307445734561825860 none) { ind_j_ := 0, arr_ := some 0 } ∧
      operator_diff { ind_j_ := 16, arr_ := some 307445734561825860 } { ind_j_ := 0, arr_ := some 0 }
        = some 0 ∧
      operator_eq { ind_j_ := 16, arr_ := some 307445734561825860 } { ind_j_ := 0, arr_ := some 0 }
        = false := by
  refine ⟨⟨by decide, 307445734561825860, rfl, by decide, ?_⟩,
    ⟨by decide, 0, rfl, by decide, ?_⟩, by decide, by decide⟩
  · rw [List.length_replicate]; decide
  · rw [List.length_replicate]; decide

/-! ## Allocators after move and copy -/

/-- Move assignment through the storage swap with a propagating allocator: the target
ends with the map of the source and the allocator it had itself, so as soon as the
source has a bucket and the allocators differ, the target holds a bucket its allocator
did not allocate. -/
theorem swap_path_not_owned {h : Heap T} {a b : Deque} (hb : Owned h b) (dflt : Nat)
    (throws : Nat → Option E) {s : Int} {p : Nat} (hp : bucket_at b.data_ s = some p)
    (hne : a.allocator_ ≠ b.allocator_) :
    ∃ a2, operator_assign_move true dflt throws h a b = Res2.ok h a2 a ∧
      a2.data_ = b.data_ ∧ a2.allocator_ = a.allocator_ ∧ ¬ Owned h a2 := by
  refine ⟨_, operator_assign_move_swap true dflt throws h a b (Or.inl rfl), rfl, rfl, ?_⟩
  intro ho
  have h1 := ho s p hp
  have h2 := hb s p hp
  rw [h2] at h1
  simp only [Option.some.injEq] at h1
  exact hne h1.symm

/-- C22: with a propagating allocator (`propagate_on_container_move_assignment` true),
`a` holding `[1]` in a bucket of allocator 0 and `b` holding `[2]` in a bucket of
allocator 1, the move assignment `a = std::move(b)` leaves `a` with the bucket that
allocator 1 allocated and with allocator 0, and the destructor of `a` deallocates that
bucket with allocator 0.  Move construction from `b` with default allocator 0 leaves
the new container with the same bucket and allocator 0. -/
theorem C22_move_keeps_old_allocator :
    ∃ (h1 : Heap Nat) (a : Deque) (h2 : Heap Nat) (b : Deque) (a2 b2 : Deque) (h4 : Heap Nat),
      push_back (E := Unit) 1 Heap.empty (Deque.init 0) = Res.ok h1 a ∧
      push_back (E := Unit) 2 h1 (Deque.init 1) = Res.ok h2 b ∧
      Owned h2 a ∧ Owned h2 b ∧
      operator_assign_move (E := Unit) true 0 (fun _ => none) h2 a b = Res2.ok h2 a2 b2 ∧
      a2.data_ = [some 1] ∧ allocator_of h2.log 1 = some 1 ∧ a2.allocator_ = 0 ∧
      ¬ Owned h2 a2 ∧
      Deque.destructor h2 a2 = .ok h4 ∧ deallocated_with h4.log = [(0, 1)] ∧
      (Deque.from_move true 0 b).1.data_ = [some 1] ∧
      (Deque.from_move true 0 b).1.allocator_ = 0 := by
  refine ⟨_, _, _, _, _, _, _, rfl, rfl, ?_, ?_, rfl, rfl, rfl, rfl, ?_, rfl, rfl, rfl, rfl⟩
  · intro s p hp
    have hq : bucket_at [some 0] s = some p := hp
    have hs : s = 0 := by
      have := bucket_at_range hq
      simp only [List.length_singleton, Nat.cast_one] at this
      omega
    subst hs
    have : p = 0 := by simpa [bucket_at] using hq.symm
    subst this
    rfl
  · intro s p hp
    have hq : bucket_at [some 1] s = some p := hp
    have hs : s = 0 := by
      have := bucket_at_range hq
      simp only [List.length_singleton, Nat.cast_one] at this
      omega
    subst hs
    have : p = 1 := by simpa [bucket_at] using hq.symm
    subst this
    rfl
  · intro ho
    have := ho 0 1 rfl
    cases this

/-! ## Insertion at a position -/

theorem Holds.has_bucket {h : Heap T} {d : Deque} {xs : List T} (hh : Holds h d xs)
    (hne : xs ≠ []) : ∃ s p, bucket_at d.data_ s = some p := by
  rcases hh with ⟨-, -, -, -, -, hx⟩ | ⟨B, hat⟩
  · exact absurd hx hne
  · cases xs with
    | nil => exact absurd rfl hne
    | cons w t =>
      have hc := hat.live 0 w (by simp)
      obtain ⟨p, b, hp, -, -⟩ := cell_some_iff.mp hc
      exact ⟨_, p, hp⟩

theorem Barren.not_mapped {d : Deque} (hb : Barren d)
    (hmap : d.data_ = [] ∨ ∃ s p, bucket_at d.data_ s = some p) : False := by
  rcases hmap with hd | ⟨s, p, hp⟩
  · exact hb.1 hd
  · rw [hb.2.1 s] at hp; cases hp

/-- When `insert` is given a reference to an element behind an interior insertion
position, the copy is taken after the shift of the tail: on `[0, 1, 2, 3]` the call
`insert(begin() + 1, d[2])` leaves `[0, 1, 1, 2, 3]`. -/
theorem insert_reads_shifted_element :
    ∃ (h : Heap Nat) (d : Deque) (r : Ref) (h2 : Heap Nat) (d2 : Deque),
      run_ops (E := Unit) [Op.push_back 1, Op.push_back 2, Op.push_back 3, Op.push_front 0]
        Heap.empty (Deque.init 0) = Res.ok h d ∧
      to_list h d = .ok [0, 1, 2, 3] ∧
      operator_index d 2 = .ok r ∧ h.read r = .ok 2 ∧
      insert (E := Unit) h d (operator_plus d.begin (1 : Nat)) (Source.element r) = Res.ok h2 d2 ∧
      to_list h2 d2 = .ok [0, 1, 1, 2, 3] :=
  ⟨_, _, _, _, _, rfl, rfl, rfl, rfl, rfl, rfl⟩

/-! ## Growth of the map on reachable states -/

theorem Barren.to_list_nil {d : Deque} (hb : Barren d) (h : Heap T) : to_list h d = .ok [] := by
  obtain ⟨-, -, -, B, -, hbe, hen⟩ := hb
  simp [to_list, hbe, hen, walk_bound, read_range, operator_ne_self]

/-- On every state reached by calls within their contract, `reserve()` included, a map
growth `reserve()` changes neither `size()` nor the sequence read from `begin()` to
`end()`, and the bucket pointer of every old slot `i` is found unchanged in slot
`data_.size() + i` of the new map.  When the map is empty or holds a bucket, any number
of `push_back` calls returns normally and leaves the earlier elements, in their order,
in front of the new ones; when the map holds a bucket the same is true after the
`reserve()` call. -/
theorem ReachableAll.growth_transparent {h : Heap T} {d : Deque} (hr : ReachableAll h d) :
    ∃ xs, to_list h d = .ok xs ∧ size (reserve d) = size d ∧ to_list h (reserve d) = .ok xs ∧
      (∀ i, i < d.data_.length →
        (reserve d).data_.getD (d.data_.length + i) none = d.data_.getD i none) ∧
      ((d.data_ = [] ∨ ∃ s p, bucket_at d.data_ s = some p) →
        ∀ vs : List T, ∃ h1 d1,
          run_ops (E := E) (vs.map Op.push_back) h d = Res.ok h1 d1 ∧
          to_list h1 d1 = .ok (xs ++ vs) ∧ size d1 = size d + vs.length) ∧
      ((∃ s p, bucket_at d.data_ s = some p) →
        ∀ vs : List T, ∃ h1 d1,
          run_ops (E := E) (vs.map Op.push_back) h (reserve d) = Res.ok h1 d1 ∧
          to_list h1 d1 = .ok (xs ++ vs) ∧ size d1 = size d + vs.length) := by
  have hsize : size (reserve d) = size d := by
    by_cases hd : d.data_ = []
    · rw [reserve_empty d hd]; rfl
    · rw [reserve_nonempty d hd]; rfl
  rcases hr.inv with ⟨xs, hh⟩ | hb
  · refine ⟨xs, hh.to_list_eq, hsize, to_list_reserve hh, reserve_keeps_buckets d, ?_, ?_⟩
    · intro _ vs
      obtain ⟨h1, d1, he, hh1⟩ := run_push_backs (E := E) vs h d xs hh
      refine ⟨h1, d1, he, hh1.to_list_eq, ?_⟩
      rw [size, size, hh1.size_eq_length, hh.size_eq_length, List.length_append]
    · rintro ⟨s, p, hp⟩ vs
      rcases hh with ⟨-, hd, -⟩ | ⟨B, hat⟩
      · rw [hd] at hp; simp [bucket_at] at hp
      · have hh2 : Holds h (reserve d) xs := Or.inr ⟨_, hat.reserve_at⟩
        obtain ⟨h1, d1, he, hh1⟩ := run_push_backs (E := E) vs h (reserve d) xs hh2
        refine ⟨h1, d1, he, hh1.to_list_eq, ?_⟩
        rw [size, size, hh1.size_eq_length, hat.size_eq, List.length_append]
  · refine ⟨[], hb.to_list_nil h, hsize, hb.reserve_barren.to_list_nil h,
      reserve_keeps_buckets d, ?_, ?_⟩
    · intro hmap
      exact absurd hmap (fun hm => hb.not_mapped hm)
    · intro hmap
      exact absurd (Or.inr hmap) (fun hm => hb.not_mapped hm)

/-- A deque of 31 elements, built across one growth of the map, keeps them through a
further `reserve()` and through 200 more `push_back` calls. -/
theorem growth_transparent_example :
    ∃ (h : Heap Nat) (d : Deque),
      run_ops (E := Unit) (List.replicate (30 + 1) (Op.push_back 5)) Heap.empty (Deque.init 0)
        = Res.ok h d ∧
      to_list h d = .ok (List.replicate 31 5) ∧
      to_list h (reserve d) = .ok (List.replicate 31 5) ∧
      ∃ h1 d1, run_ops (E := Unit) ((List.replicate 200 9).map Op.push_back) h (reserve d)
          = Res.ok h1 d1 ∧
        to_list h1 d1 = .ok (List.replicate 31 5 ++ List.replicate 200 9) := by
  obtain ⟨h, d, he, hh, -, -⟩ := push_backs_from_init (E := Unit) (5 : Nat) 0 30
  have hr : ReachableAll h d := by
    refine ReachableAll.of_ops (E := Unit) _ 0 ?_ he
    generalize ([] : List Nat) = l
    generalize 30 + 1 = n
    induction n generalizing l with
    | zero => trivial
    | succ n ih => exact ⟨fun hp => (by cases hp), ih _⟩
  obtain ⟨xs, hx, -, hres, -, -, hpush⟩ := hr.growth_transparent (E := Unit)
  have hxs : xs = List.replicate 31 5 := by
    rw [hh.to_list_eq] at hx
    cases hx
    rfl
  subst hxs
  obtain ⟨h1, d1, he1, hl1, -⟩ := hpush (hh.has_bucket (by simp)) (List.replicate 200 9)
  exact ⟨h, d, he, hh.to_list_eq, hres, h1, d1, he1, hl1⟩

/-! ## Claims on insertion and growth -/

/-- C9: `reserve()` on a default-constructed deque is a call within the contract; it
leaves size 0 and the empty sequence, and a map of one null slot with `begin_` and
`end_` at offset 30 of that slot.  The next `push_back` finds `end_` inside a bucket,
allocates nothing and dereferences the null bucket pointer: it does not return.  The
same `push_back` without the `reserve()` call returns and leaves `[1]`. -/
theorem C9_push_back_after_reserve_on_empty :
    ReachableAll (Heap.empty : Heap Nat) (reserve (Deque.init 0)) ∧
      size (reserve (Deque.init 0)) = 0 ∧
      to_list (Heap.empty : Heap Nat) (reserve (Deque.init 0)) = .ok [] ∧
      (reserve (Deque.init 0)).data_ = [none] ∧
      (reserve (Deque.init 0)).end_ = { ind_j_ := 30, arr_ := some 0 } ∧
      push_back (E := Unit) (1 : Nat) Heap.empty (reserve (Deque.init 0))
        = Res.fault Fault.null_bucket ∧
      ∃ h1 d1, push_back (E := Unit) (1 : Nat) Heap.empty (Deque.init 0) = Res.ok h1 d1 ∧
        to_list h1 d1 = .ok [1] :=
  ⟨ReachableAll.step (E := Unit) Mut.reserve (ReachableAll.init _ _ (fun _ _ => rfl)) trivial rfl,
    rfl, rfl, rfl, rfl, rfl, _, _, rfl, rfl⟩

end MiptDeque
